import Mathlib

/-!
Verification of the core of the `bf-rust` interpreter.

The Rust sources are shallowly embedded:
* `src/bf/bf_token.rs`   → `BfToken`
* `src/bf/bf_parser.rs`  → `charToToken`, `lmGo` (`BfParser::loop_matching`),
  `parse`, `compressAux`, `parseCompress`
* `src/bf/bf_machine.rs` → `Mach`, `ExecState`, `step`, `runFuel`,
  `wrapped_cursor`, `machNew`
* `src/bf/bf_optimizer.rs` → `removeNotCommandChars`, `uroStep`,
  `removeUnnecessaryRelativeOperate`, `optimize`

Machine integers: `u8` cell values are `Nat` kept below 256 by the wrapping
operations; the explicit Rust cast `sum as u8` is modelled as `% 256`
(`Int.emod`).  The `i32` running sums of `parse_compress` and the `usize`
counters are modelled as unbounded `Int`/`Nat`; their Rust overflow is
unreachable for sources shorter than 2^31 commands and tapes below 2^64
cells, which covers every representable input of interest.
Byte streams: the input stream is a finite list of bytes (a `read_exact`
past its end is the end-of-stream I/O failure); the output stream is a
growing list of bytes, as in the repository's own tests which run the
machine against in-memory buffers.
-/

namespace BfRust

/-- Token vocabulary, from `src/bf/bf_token.rs` (`enum BfToken`). -/
inductive BfToken where
  | NotCommand : Char → BfToken
  | Increment : Nat → BfToken
  | Decrement : Nat → BfToken
  | CursorLeft : Nat → BfToken
  | CursorRight : Nat → BfToken
  | LoopStart : Nat → BfToken
  | LoopEnd : Nat → BfToken
  | PrintChar : BfToken
  | InputChar : BfToken
deriving DecidableEq, Repr

/-- Parser error, from `src/bf/bf_parser.rs` (`enum BfParserError`). -/
inductive BfParserError where
  | LoopNotClosed : Nat → BfParserError
deriving DecidableEq, Repr

/-- The per-character step of `BfParser::parse`'s tokenizing loop. -/
def charToToken (c : Char) : BfToken :=
  if c = '+' then .Increment 1
  else if c = '-' then .Decrement 1
  else if c = '<' then .CursorLeft 1
  else if c = '>' then .CursorRight 1
  else if c = '[' then .LoopStart 0
  else if c = ']' then .LoopEnd 0
  else if c = ',' then .InputChar
  else if c = '.' then .PrintChar
  else .NotCommand c

/-- `BfParser::loop_matching`: a left-to-right scan over the token array with
a stack of pending loop-start indices, rewriting both tokens of each matched
pair in place.  The stack is a cons list whose head is the most recently
pushed index (Rust `Vec::push`/`pop` act on the tail).  On success the
rewritten token list is returned (the Rust function mutates its argument). -/
def lmGo (toks : List BfToken) (i : Nat) (stack : List Nat) :
    Except BfParserError (List BfToken) :=
  if h : i < toks.length then
    match toks[i] with
    | .LoopStart _ => lmGo toks (i + 1) (i :: stack)
    | .LoopEnd _ =>
      match stack with
      | [] => .error (.LoopNotClosed i)
      | j :: rest =>
          lmGo ((toks.set j (.LoopStart i)).set i (.LoopEnd j)) (i + 1) rest
    | _ => lmGo toks (i + 1) stack
  else
    match stack with
    | [] => .ok toks
    | j :: _ => .error (.LoopNotClosed j)
termination_by toks.length - i
decreasing_by
  all_goals
    try simp only [List.length_set]
    omega

/-- `BfParser::parse`: map each character to its token, then resolve loops. -/
def parse (code : List Char) : Except BfParserError (List BfToken) :=
  lmGo (code.map charToToken) 0 []

/-- Emission of a pending increment/decrement running sum in
`BfParser::parse_compress` (`sum as u8` is truncation modulo 256). -/
def flushSum (sum : Int) : List BfToken :=
  if 0 < sum then [.Increment (sum % 256).toNat]
  else if sum < 0 then [.Decrement ((-sum) % 256).toNat]
  else []

/-- Emission of a pending cursor displacement in `BfParser::parse_compress`. -/
def flushMove (mv : Int) : List BfToken :=
  if 0 < mv then [.CursorRight mv.toNat]
  else if mv < 0 then [.CursorLeft (-mv).toNat]
  else []

/-- `matches!(token, BfToken::Increment(_) | BfToken::Decrement(_))`. -/
def isIncDec : BfToken → Bool
  | .Increment _ => true
  | .Decrement _ => true
  | _ => false

/-- `matches!(token, BfToken::CursorLeft(_) | BfToken::CursorRight(_))`. -/
def isMove : BfToken → Bool
  | .CursorLeft _ => true
  | .CursorRight _ => true
  | _ => false

/-- The run-length-compression loop of `BfParser::parse_compress`, carrying
the signed running sum and running displacement; the final clause is the
end-of-stream flush after the loop. -/
def compressAux : Int → Int → List BfToken → List BfToken
  | sum, mv, [] => flushSum sum ++ flushMove mv
  | sum, mv, t :: ts =>
    let o1 : List BfToken := if isIncDec t then [] else flushSum sum
    let s1 : Int := if isIncDec t then sum else 0
    let o2 : List BfToken := if isMove t then [] else flushMove mv
    let m1 : Int := if isMove t then mv else 0
    o1 ++ o2 ++
      (match t with
       | .Increment _ => compressAux (s1 + 1) m1 ts
       | .Decrement _ => compressAux (s1 - 1) m1 ts
       | .CursorLeft _ => compressAux s1 (m1 - 1) ts
       | .CursorRight _ => compressAux s1 (m1 + 1) ts
       | _ => t :: compressAux s1 m1 ts)

/-- `BfParser::parse_compress`: parse (which already resolves loops on the
uncompressed stream), compress, then resolve loops again. -/
def parseCompress (code : List Char) : Except BfParserError (List BfToken) :=
  (parse code).bind fun toks => lmGo (compressAux 0 0 toks) 0 []

/-! ## Optimizer (`src/bf/bf_optimizer.rs`) -/

/-- The character filter of `BfCodeOptimizer::remove_not_command`. -/
def isCommandChar (c : Char) : Bool :=
  c = '+' || c = '-' || c = ',' || c = '.' || c = '[' || c = ']' ||
  c = '<' || c = '>'

/-- `BfCodeOptimizer::remove_not_command`. -/
def removeNotCommandChars (code : List Char) : List Char :=
  code.filter isCommandChar

/-- The cancellation test of
`BfCodeOptimizer::remove_unnecessary_relative_operate`. -/
def isInversePair (ch lastc : Char) : Bool :=
  (ch = '+' && lastc = '-') || (ch = '-' && lastc = '+') ||
  (ch = '>' && lastc = '<') || (ch = '<' && lastc = '>')

/-- One iteration of the `remove_unnecessary_relative_operate` loop:
compare the incoming character with the last buffered one (`'\0'` when the
buffer is empty), popping on an inverse pair and appending otherwise. -/
def uroStep (result : List Char) (ch : Char) : List Char :=
  if isInversePair ch ((result.getLast?).getD '\x00') then result.dropLast
  else result ++ [ch]

/-- `BfCodeOptimizer::remove_unnecessary_relative_operate`. -/
def removeUnnecessaryRelativeOperate (code : List Char) : List Char :=
  code.foldl uroStep []

/-- `BfCodeOptimizer::optimize`. -/
def optimize (code : List Char) : List Char :=
  removeUnnecessaryRelativeOperate (removeNotCommandChars code)

/-! ## Machine (`src/bf/bf_machine.rs`) -/

/-- Runtime error: `BfRuntimeError::LoopNotClosed` from the machine itself,
or a propagated I/O failure (`read_exact` hitting end of stream on the
modelled finite input). -/
inductive BfError where
  | inputEof : BfError
  | loopNotClosed : Nat → BfError
deriving DecidableEq, Repr

/-- The machine proper (`struct BfMachine`): cursor, memory tape, and the
two byte streams. -/
structure Mach where
  cursor : Nat
  memory : List Nat
  input : List Nat
  output : List Nat
deriving DecidableEq, Repr

/-- Per-run state (`struct BfState`): program counter, runtime loop stack
(head = most recently pushed), skip flag and the recorded depth, plus the
machine.  The token sequence is immutable and passed separately. -/
structure ExecState where
  pc : Nat
  stack : List Nat
  skip : Bool
  skipCount : Nat
  mach : Mach
deriving DecidableEq, Repr

/-- `BfMachine::new`: zero-initialized tape, cursor 0. -/
def machNew (memorySize : Nat) (input : List Nat) : Mach :=
  { cursor := 0, memory := List.replicate memorySize 0, input := input
    output := [] }

/-- The initial `BfState` built at the top of `BfMachine::run`. -/
def initExec (m : Mach) : ExecState :=
  { pc := 0, stack := [], skip := false, skipCount := 0, mach := m }

/-- `BfMachine::wrapped_cursor`, verbatim. -/
def wrapped_cursor (cursor : Nat) (sign : Bool) (offset bound : Nat) : Nat :=
  if sign then
    if offset > cursor then (bound - offset % bound + cursor) % bound
    else (cursor - offset) % bound
  else (cursor + offset) % bound

/-- `u8::wrapping_add` on byte values. -/
def wrapAdd8 (a b : Nat) : Nat := (a + b) % 256

/-- `u8::wrapping_sub` on byte values (`b` is first reduced so the
subtraction never underflows; for `b < 256` this is Rust's wrapping sub). -/
def wrapSub8 (a b : Nat) : Nat := (a + (256 - b % 256)) % 256

/-- `self.memory[self.cursor]` (total: in-bounds for every reachable state
of a machine with a non-empty tape). -/
def cellGet (m : Mach) : Nat := m.memory.getD m.cursor 0

/-- `self.memory[self.cursor] = v`. -/
def cellSet (m : Mach) (v : Nat) : Mach :=
  { m with memory := m.memory.set m.cursor v }

def isStartT : BfToken → Bool
  | .LoopStart _ => true
  | _ => false

def isEndT : BfToken → Bool
  | .LoopEnd _ => true
  | _ => false

/-- Result of one iteration of the `BfMachine::run` while-loop. -/
inductive StepRes where
  | cont : ExecState → StepRes
  | halt : Mach → StepRes
  | fail : BfError → Mach → StepRes
deriving DecidableEq, Repr

/-- One iteration of the `while state.program_counter < state.commands.len()`
loop of `BfMachine::run`.  The first guard arm skips every non-loop token
while the skip flag is set; `LoopStart`/`LoopEnd` are matched by variant
(their resolved targets are never read by this machine generation). -/
def step (toks : List BfToken) (s : ExecState) : StepRes :=
  match toks[s.pc]? with
  | none => .halt s.mach
  | some t =>
    if s.skip && !isStartT t && !isEndT t then
      .cont { s with pc := s.pc + 1 }
    else
      match t with
      | .NotCommand _ => .cont { s with pc := s.pc + 1 }
      | .Increment v =>
          .cont { s with
                  pc := s.pc + 1
                  mach := cellSet s.mach (wrapAdd8 (cellGet s.mach) v) }
      | .Decrement v =>
          .cont { s with
                  pc := s.pc + 1
                  mach := cellSet s.mach (wrapSub8 (cellGet s.mach) v) }
      | .CursorLeft v =>
          .cont { s with
                  pc := s.pc + 1
                  mach := { s.mach with
                            cursor := wrapped_cursor s.mach.cursor true v
                              s.mach.memory.length } }
      | .CursorRight v =>
          .cont { s with
                  pc := s.pc + 1
                  mach := { s.mach with
                            cursor := wrapped_cursor s.mach.cursor false v
                              s.mach.memory.length } }
      | .LoopStart _ =>
          if cellGet s.mach == 0 && !s.skip then
            .cont { s with
                    pc := s.pc + 1
                    skip := true
                    skipCount := s.stack.length
                    stack := s.pc :: s.stack }
          else
            .cont { s with
                    pc := s.pc + 1
                    stack := s.pc :: s.stack }
      | .LoopEnd _ =>
          match s.stack with
          | [] => .fail (.loopNotClosed s.pc) s.mach
          | pc2 :: rest =>
              if s.skip then
                .cont { s with
                        pc := s.pc + 1
                        stack := rest
                        skip := rest.length != s.skipCount }
              else
                .cont { s with
                        pc := pc2
                        stack := rest }
      | .PrintChar =>
          .cont { s with
                  pc := s.pc + 1
                  mach := { s.mach with
                            output := s.mach.output ++ [cellGet s.mach] } }
      | .InputChar =>
          match s.mach.input with
          | [] => .fail .inputEof s.mach
          | b :: ins =>
              .cont { s with
                      pc := s.pc + 1
                      mach := cellSet { s.mach with input := ins } b }

/-- Outcome of running the machine for a bounded number of iterations. -/
inductive RunRes where
  | halted : Mach → RunRes
  | failed : BfError → Mach → RunRes
  | more : ExecState → RunRes
deriving DecidableEq, Repr

/-- `BfMachine::run` as a fuelled iteration of `step`: `halted` is the loop
exiting normally (`Ok(())`), `failed` an early `Err` return, `more` means
the fuel ran out with the loop still going. -/
def runFuel (toks : List BfToken) : Nat → ExecState → RunRes
  | 0, s => .more s
  | n + 1, s =>
    match step toks s with
    | .cont s2 => runFuel toks n s2
    | .halt m => .halted m
    | .fail e m => .failed e m


/-! ## Optimizer lemmas (claims C7 and C10) -/

/-- The loop and I/O command characters, for the optimizer claims. -/
def isIOLoopChar (c : Char) : Bool :=
  c = '[' || c = ']' || c = ',' || c = '.'

/-- Cancellation buffers never hold an adjacent inverse pair. -/
def NoCancel (l : List Char) : Prop :=
  List.Chain' (fun a b => isInversePair b a = false) l

lemma inverse_pair_last {ch lastc : Char} (h : isInversePair ch lastc = true) :
    lastc = '+' ∨ lastc = '-' ∨ lastc = '<' ∨ lastc = '>' := by
  simp only [isInversePair, Bool.or_eq_true, Bool.and_eq_true,
    decide_eq_true_eq] at h
  rcases h with ((⟨h1, h2⟩ | ⟨h1, h2⟩) | ⟨h1, h2⟩) | ⟨h1, h2⟩ <;>
    subst h2 <;> decide

lemma inverse_pair_fst {ch lastc : Char} (h : isInversePair ch lastc = true) :
    ch = '+' ∨ ch = '-' ∨ ch = '<' ∨ ch = '>' := by
  simp only [isInversePair, Bool.or_eq_true, Bool.and_eq_true,
    decide_eq_true_eq] at h
  rcases h with ((⟨h1, h2⟩ | ⟨h1, h2⟩) | ⟨h1, h2⟩) | ⟨h1, h2⟩ <;>
    subst h1 <;> decide

lemma inverse_pair_nul (ch : Char) : isInversePair ch '\x00' = false := by
  cases h : isInversePair ch '\x00' with
  | false => rfl
  | true =>
      rcases inverse_pair_last h with h1 | h1 | h1 | h1 <;> exact
        absurd h1 (by decide)

lemma uroStep_of_empty (ch : Char) : uroStep [] ch = [ch] := by
  simp [uroStep, inverse_pair_nul]

lemma nocancel_uroStep {acc : List Char} (ch : Char) (h : NoCancel acc) :
    NoCancel (uroStep acc ch) := by
  unfold uroStep
  split
  · rw [List.dropLast_eq_take]
    exact List.Chain'.take h _
  · rename_i hpair
    rw [NoCancel, List.chain'_append]
    refine ⟨h, List.chain'_singleton ch, ?_⟩
    intro x hx y hy
    simp only [List.head?_cons, Option.mem_def, Option.some.injEq] at hy
    subst hy
    rw [Option.mem_def] at hx
    rw [hx] at hpair
    simpa using hpair


lemma nocancel_foldl (l : List Char) :
    ∀ acc, NoCancel acc → NoCancel (List.foldl uroStep acc l) := by
  induction l with
  | nil => intro acc h; exact h
  | cons c l ih =>
      intro acc h
      exact ih (uroStep acc c) (nocancel_uroStep c h)

lemma mem_foldl_uro (l : List Char) :
    ∀ acc c, c ∈ List.foldl uroStep acc l → c ∈ acc ∨ c ∈ l := by
  induction l with
  | nil => intro acc c h; exact Or.inl h
  | cons a l ih =>
      intro acc c h
      rcases ih (uroStep acc a) c h with h1 | h1
      · unfold uroStep at h1
        split at h1
        · exact Or.inl (List.dropLast_subset acc h1)
        · rcases List.mem_append.mp h1 with h2 | h2
          · exact Or.inl h2
          · simp only [List.mem_singleton] at h2
            subst h2; exact Or.inr (by simp)
      · exact Or.inr (List.mem_cons_of_mem a h1)

lemma foldl_uro_of_nocancel (l : List Char) :
    ∀ acc, NoCancel (acc ++ l) → List.foldl uroStep acc l = acc ++ l := by
  induction l with
  | nil => intro acc _; simp
  | cons c l ih =>
      intro acc h
      have hstep : uroStep acc c = acc ++ [c] := by
        unfold uroStep
        split
        · rename_i hpair
          exfalso
          match acc with
          | [] =>
              rw [show (([] : List Char).getLast?).getD '\x00' = '\x00' from rfl,
                inverse_pair_nul] at hpair
              exact Bool.noConfusion hpair
          | a :: acc0 =>
              have hne : a :: acc0 ≠ [] := by simp
              have hjun := (List.chain'_append.mp
                (by simpa using h : List.Chain'
                  (fun x y => isInversePair y x = false)
                  ((a :: acc0) ++ c :: l))).2.2
              have hlast : ((a :: acc0).getLast?).getD '\x00'
                  = (a :: acc0).getLast hne := by
                rw [List.getLast?_eq_getLast _ hne]; rfl
              have := hjun ((a :: acc0).getLast hne)
                (List.getLast?_eq_getLast _ hne) c rfl
              rw [hlast, this] at hpair
              exact Bool.noConfusion hpair
        · rfl
      rw [List.foldl_cons, hstep, ih (acc ++ [c]) (by simpa using h)]
      simp

lemma removeNC_filter (l : List Char)
    (h : ∀ c ∈ l, isCommandChar c = true) : removeNotCommandChars l = l := by
  rw [removeNotCommandChars, List.filter_eq_self]
  exact h

/-- Claim C7: for every source string (arbitrary text, not necessarily
valid program text), `BfCodeOptimizer::optimize` is idempotent:
`optimize (optimize s) = optimize s`. -/
theorem optimize_idempotent (code : List Char) :
    optimize (optimize code) = optimize code := by
  have hout : NoCancel (optimize code) := by
    rw [optimize, removeUnnecessaryRelativeOperate]
    exact nocancel_foldl _ [] List.chain'_nil
  have hcmd : ∀ c ∈ optimize code, isCommandChar c = true := by
    intro c hc
    rw [optimize, removeUnnecessaryRelativeOperate] at hc
    rcases mem_foldl_uro _ [] c hc with h1 | h1
    · exact absurd h1 (List.not_mem_nil c)
    · exact List.of_mem_filter h1
  rw [show optimize (optimize code)
      = removeUnnecessaryRelativeOperate
        (removeNotCommandChars (optimize code)) from rfl]
  rw [removeNC_filter _ hcmd, removeUnnecessaryRelativeOperate]
  exact foldl_uro_of_nocancel _ [] (by simpa using hout)

lemma io_imp_cmd {c : Char} (h : isIOLoopChar c = true) :
    isCommandChar c = true := by
  simp only [isIOLoopChar, Bool.or_eq_true, decide_eq_true_eq] at h
  rcases h with ((h | h) | h) | h <;> subst h <;> decide

lemma inverse_pair_io_fst {ch lastc : Char}
    (h : isInversePair ch lastc = true) : isIOLoopChar ch = false := by
  rcases inverse_pair_fst h with h1 | h1 | h1 | h1 <;> subst h1 <;> decide

lemma inverse_pair_io_last {ch lastc : Char}
    (h : isInversePair ch lastc = true) : isIOLoopChar lastc = false := by
  rcases inverse_pair_last h with h1 | h1 | h1 | h1 <;> subst h1 <;> decide

lemma filter_uroStep (acc : List Char) (c : Char) :
    (uroStep acc c).filter isIOLoopChar
      = acc.filter isIOLoopChar ++ [c].filter isIOLoopChar := by
  unfold uroStep
  split
  · rename_i hpair
    have hcio : isIOLoopChar c = false := inverse_pair_io_fst hpair
    match acc with
    | [] =>
        rw [show (([] : List Char).getLast?).getD '\x00' = '\x00' from rfl,
          inverse_pair_nul] at hpair
        exact Bool.noConfusion hpair
    | a :: acc0 =>
        have hne : a :: acc0 ≠ [] := by simp
        have hlast : ((a :: acc0).getLast?).getD '\x00'
            = (a :: acc0).getLast hne := by
          rw [List.getLast?_eq_getLast _ hne]; rfl
        rw [hlast] at hpair
        have hlio : isIOLoopChar ((a :: acc0).getLast hne) = false :=
          inverse_pair_io_last hpair
        conv_rhs => rw [← List.dropLast_append_getLast hne]
        rw [List.filter_append]
        simp [List.filter_cons, hcio, hlio]
  · rw [List.filter_append]

lemma filter_foldl_uro (l : List Char) :
    ∀ acc, (List.foldl uroStep acc l).filter isIOLoopChar
      = acc.filter isIOLoopChar ++ l.filter isIOLoopChar := by
  induction l with
  | nil => intro acc; simp
  | cons c l ih =>
      intro acc
      rw [List.foldl_cons, ih (uroStep acc c), filter_uroStep]
      cases h : isIOLoopChar c <;> simp [List.filter_cons, h]

lemma filter_removeNC (l : List Char) :
    (removeNotCommandChars l).filter isIOLoopChar
      = l.filter isIOLoopChar := by
  induction l with
  | nil => rfl
  | cons c l ih =>
      rw [removeNotCommandChars, List.filter_cons]
      cases hc : isCommandChar c with
      | true =>
          rw [if_pos (by simp [hc]), List.filter_cons, List.filter_cons]
          cases hio : isIOLoopChar c <;>
            simp_all [removeNotCommandChars]
      | false =>
          have hio : isIOLoopChar c = false := by
            cases h2 : isIOLoopChar c with
            | false => rfl
            | true => rw [io_imp_cmd h2] at hc; exact Bool.noConfusion hc
          rw [if_neg (by simp [hc]), List.filter_cons, hio]
          simpa [removeNotCommandChars] using ih

/-- Claim C10: the optimizer never deletes or reorders loop and I/O
commands: the subsequence of characters from `{ [ ] , . }` in
`optimize s` equals that subsequence in `s`. -/
theorem optimize_preserves_io_loop (code : List Char) :
    (optimize code).filter isIOLoopChar = code.filter isIOLoopChar := by
  rw [optimize, removeUnnecessaryRelativeOperate, filter_foldl_uro,
    filter_removeNC]
  rfl


/-! ## Cursor arithmetic and machine-state invariants (claims C8, C9) -/

lemma wrapped_cursor_right_def (c n L : Nat) :
    wrapped_cursor c false n L = (c + n) % L := rfl

lemma wrapped_cursor_right_mod (c n L : Nat) :
    wrapped_cursor c false n L = wrapped_cursor c false (n % L) L := by
  rw [wrapped_cursor_right_def, wrapped_cursor_right_def,
    Nat.add_mod c n L, Nat.add_mod c (n % L) L,
    Nat.mod_mod_of_dvd n dvd_rfl]

/-- On a non-empty tape a left move lands on `(c - n)` modulo `L` (as an
integer, so wrapping below zero is captured). -/
lemma wrapped_cursor_left_int (c n L : Nat) (hL : 0 < L) (hc : c < L) :
    (wrapped_cursor c true n L : Int) = ((c : Int) - n) % (L : Int) := by
  have hle : n % L ≤ L := le_of_lt (Nat.mod_lt _ hL)
  unfold wrapped_cursor
  simp only [if_true]
  split
  · push_cast [hle]
    rw [show (L : Int) - (n : Int) % (L : Int) + (c : Int)
        = ((c : Int) - (n : Int) % (L : Int)) + (L : Int) * 1 by ring]
    rw [Int.add_mul_emod_self_left]
    conv_rhs => rw [Int.sub_emod]
    conv_lhs => rw [Int.sub_emod]
    rw [Int.emod_emod_of_dvd _ dvd_rfl]
  · rename_i hgt
    have hnc : n ≤ c := by omega
    push_cast [hnc]
    rfl

lemma wrapped_cursor_left_mod (c n L : Nat) (hL : 0 < L) (hc : c < L) :
    wrapped_cursor c true n L = wrapped_cursor c true (n % L) L := by
  have h1 := wrapped_cursor_left_int c n L hL hc
  have h2 := wrapped_cursor_left_int c (n % L) L hL hc
  have h3 : ((c : Int) - n) % (L : Int)
      = ((c : Int) - ((n % L : Nat) : Int)) % (L : Int) := by
    push_cast
    conv_lhs => rw [Int.sub_emod]
    conv_rhs => rw [Int.sub_emod]
    rw [Int.emod_emod_of_dvd _ dvd_rfl]
  omega

lemma wrapped_cursor_lt (c n L : Nat) (sign : Bool) (hL : 0 < L) :
    wrapped_cursor c sign n L < L := by
  unfold wrapped_cursor
  split
  · split <;> exact Nat.mod_lt _ hL
  · exact Nat.mod_lt _ hL

/-- Claim C8: executing `CursorLeft(n)` or `CursorRight(n)` on a tape of
length `L ≥ 1` moves the cursor by `n` reduced modulo `L`, wrapping at both
edges; any `n` behaves identically to `n % L`; moving right by `L` from
cursor 0 returns to 0, and moving left by 1 from cursor 0 lands on `L - 1`.
Stated on the per-token transition of `BfMachine::run` for a machine state
`m` satisfying the cursor invariant (which forces `L ≥ 1`). -/
theorem cursor_moves_modular (m : Mach) (n : Nat)
    (hc : m.cursor < m.memory.length) :
    (step [.CursorRight n] (initExec m)
      = .cont { pc := 1, stack := [], skip := false, skipCount := 0,
                mach := { m with
                  cursor := (m.cursor + n) % m.memory.length } })
    ∧ (step [.CursorLeft n] (initExec m)
      = .cont { pc := 1, stack := [], skip := false, skipCount := 0,
                mach := { m with
                  cursor := (((m.cursor : Int) - n)
                    % (m.memory.length : Int)).toNat } })
    ∧ step [.CursorRight n] (initExec m)
        = step [.CursorRight (n % m.memory.length)] (initExec m)
    ∧ step [.CursorLeft n] (initExec m)
        = step [.CursorLeft (n % m.memory.length)] (initExec m)
    ∧ wrapped_cursor 0 false m.memory.length m.memory.length = 0
    ∧ wrapped_cursor 0 true 1 m.memory.length = m.memory.length - 1 := by
  have hL : 0 < m.memory.length := by omega
  have eR : ∀ v, step [.CursorRight v] (initExec m)
      = .cont { pc := 1, stack := [], skip := false, skipCount := 0,
                mach := { m with
                  cursor := wrapped_cursor m.cursor false v
                    m.memory.length } } := fun v => rfl
  have eL : ∀ v, step [.CursorLeft v] (initExec m)
      = .cont { pc := 1, stack := [], skip := false, skipCount := 0,
                mach := { m with
                  cursor := wrapped_cursor m.cursor true v
                    m.memory.length } } := fun v => rfl
  refine ⟨?_, ?_, ?_, ?_, ?_, ?_⟩
  · rw [eR n, wrapped_cursor_right_def]
  · rw [eL n, show wrapped_cursor m.cursor true n m.memory.length
        = (((m.cursor : Int) - n) % (m.memory.length : Int)).toNat from by
      have h1 := wrapped_cursor_left_int m.cursor n m.memory.length hL hc
      omega]
  · rw [eR n, eR (n % m.memory.length),
      wrapped_cursor_right_mod m.cursor n m.memory.length]
  · rw [eL n, eL (n % m.memory.length),
      wrapped_cursor_left_mod m.cursor n m.memory.length hL hc]
  · rw [wrapped_cursor_right_def, Nat.zero_add, Nat.mod_self]
  · have e : wrapped_cursor 0 true 1 m.memory.length
        = (m.memory.length - 1 % m.memory.length + 0)
          % m.memory.length := rfl
    rcases show m.memory.length = 1 ∨ 2 ≤ m.memory.length from by omega
      with h1 | h1
    · rw [e, h1]
    · rw [e, Nat.mod_eq_of_lt (show 1 < m.memory.length from by omega),
        Nat.add_zero,
        Nat.mod_eq_of_lt (show m.memory.length - 1 < m.memory.length
          from by omega)]

/-- A concrete three-cell machine used by witnesses. -/
def mach3 : Mach :=
  { cursor := 0, memory := [0, 0, 0], input := [], output := [] }

/-- Witness for `cursor_moves_modular` at a concrete machine. -/
theorem cursor_moves_modular_witness :
    mach3.cursor < mach3.memory.length
    ∧ wrapped_cursor 0 true 1 mach3.memory.length
      = mach3.memory.length - 1 :=
  ⟨by decide, (cursor_moves_modular mach3 1 (by decide)).2.2.2.2.2⟩


/-- The machine-state invariant: the cursor stays strictly inside the tape. -/
def MachInv (m : Mach) : Prop := m.cursor < m.memory.length

/-- Any `cont` outcome of `step` preserves the cursor invariant and the
tape length; the cursor is only ever updated through `wrapped_cursor`. -/
lemma step_preserves_inv {toks : List BfToken} {s s2 : ExecState}
    (h : step toks s = .cont s2) (hinv : MachInv s.mach) :
    MachInv s2.mach ∧ s2.mach.memory.length = s.mach.memory.length := by
  have hL : 0 < s.mach.memory.length := by
    have := hinv
    rw [MachInv] at this
    omega
  unfold step at h
  split at h
  · exact absurd h (by simp)
  · rename_i t ht
    split at h
    · cases h
      exact ⟨hinv, rfl⟩
    · split at h
      · cases h
        exact ⟨hinv, rfl⟩
      · cases h
        refine ⟨?_, ?_⟩ <;>
          simp only [MachInv, cellSet, List.length_set] at hinv ⊢ <;> omega
      · cases h
        refine ⟨?_, ?_⟩ <;>
          simp only [MachInv, cellSet, List.length_set] at hinv ⊢ <;> omega
      · cases h
        refine ⟨?_, rfl⟩
        simp only [MachInv]
        exact wrapped_cursor_lt _ _ _ _ hL
      · cases h
        refine ⟨?_, rfl⟩
        simp only [MachInv]
        exact wrapped_cursor_lt _ _ _ _ hL
      · split at h <;> cases h <;> exact ⟨hinv, rfl⟩
      · split at h
        · exact absurd h (by simp)
        · split at h <;> cases h <;> exact ⟨hinv, rfl⟩
      · cases h
        exact ⟨hinv, rfl⟩
      · split at h
        · exact absurd h (by simp)
        · cases h
          refine ⟨?_, ?_⟩ <;>
            simp only [MachInv, cellSet, List.length_set] at hinv ⊢ <;> omega

/-- The invariant propagates along any bounded run, to the final machine on
normal halt and to the surviving machine state when fuel runs out. -/
lemma runFuel_preserves_inv (toks : List BfToken) :
    ∀ (n : Nat) (s : ExecState), MachInv s.mach →
      (∀ s2, runFuel toks n s = .more s2 → MachInv s2.mach) ∧
      (∀ m, runFuel toks n s = .halted m → MachInv m) := by
  intro n
  induction n with
  | zero =>
      intro s hs
      refine ⟨fun s2 h2 => ?_, fun m h2 => ?_⟩
      · cases h2; exact hs
      · exact absurd h2 (by simp [runFuel])
  | succ k ih =>
      intro s hs
      refine ⟨fun s2 h2 => ?_, fun m h2 => ?_⟩ <;>
        rw [runFuel] at h2
      · cases hstep : step toks s with
        | cont s3 =>
            rw [hstep] at h2
            exact (ih s3 (step_preserves_inv hstep hs).1).1 s2 h2
        | halt m2 => rw [hstep] at h2; exact RunRes.noConfusion h2
        | fail e m2 => rw [hstep] at h2; exact RunRes.noConfusion h2
      · cases hstep : step toks s with
        | cont s3 =>
            rw [hstep] at h2
            exact (ih s3 (step_preserves_inv hstep hs).1).2 m h2
        | halt m2 =>
            rw [hstep] at h2
            cases h2
            unfold step at hstep
            split at hstep
            · cases hstep; exact hs
            · split at hstep
              · exact StepRes.noConfusion hstep
              · split at hstep <;> first
                  | exact StepRes.noConfusion hstep
                  | (split at hstep <;> first
                      | exact StepRes.noConfusion hstep
                      | (split at hstep <;> exact StepRes.noConfusion hstep))
        | fail e m2 => rw [hstep] at h2; exact RunRes.noConfusion h2

/-- Claim C9: for every machine constructed with capacity at least 1, the
cursor starts inside `[0, memory length)`, and every step of
`BfMachine::run` (hence every bounded run) keeps it there; the bound is
maintained by modular arithmetic (`wrapped_cursor`), never by clamping. -/
theorem cursor_always_in_bounds (capacity : Nat) (hcap : 1 ≤ capacity)
    (input : List Nat) :
    (machNew capacity input).cursor < (machNew capacity input).memory.length
    ∧ (∀ (toks : List BfToken) (s s2 : ExecState),
        s.mach.cursor < s.mach.memory.length → step toks s = .cont s2 →
          s2.mach.cursor < s2.mach.memory.length)
    ∧ (∀ (toks : List BfToken) (n : Nat) (s2 : ExecState),
        runFuel toks n (initExec (machNew capacity input)) = .more s2 →
          s2.mach.cursor < s2.mach.memory.length)
    ∧ (∀ (toks : List BfToken) (n : Nat) (m : Mach),
        runFuel toks n (initExec (machNew capacity input)) = .halted m →
          m.cursor < m.memory.length) := by
  have hinit : MachInv (machNew capacity input) := by
    show (machNew capacity input).cursor < (machNew capacity input).memory.length
    simp [machNew]
    omega
  refine ⟨hinit, ?_, ?_, ?_⟩
  · intro toks s s2 hs hstep
    exact (step_preserves_inv hstep hs).1
  · intro toks n s2 hrun
    exact (runFuel_preserves_inv toks n (initExec (machNew capacity input))
      hinit).1 s2 hrun
  · intro toks n m hrun
    exact (runFuel_preserves_inv toks n (initExec (machNew capacity input))
      hinit).2 m hrun

/-- Witness for `cursor_always_in_bounds` at a concrete machine and run. -/
theorem cursor_always_in_bounds_witness :
    (1 : Nat) ≤ 3 ∧
    (machNew 3 []).cursor < (machNew 3 []).memory.length ∧
    (∀ (n : Nat) (m : Mach),
      runFuel [BfToken.CursorLeft 1] n (initExec (machNew 3 [])) = .halted m →
        m.cursor < m.memory.length) :=
  ⟨by decide, (cursor_always_in_bounds 3 (by decide) []).1,
    fun n m h => (cursor_always_in_bounds 3 (by decide) []).2.2.2
      [BfToken.CursorLeft 1] n m h⟩


/-! ## Runtime error inventory and `LoopStart` semantics (claims C2, C3) -/

/-- A single-cell machine with empty input, for counterexamples. -/
def mach1 : Mach :=
  { cursor := 0, memory := [0], input := [], output := [] }

/-- Runtime error of `BfMachine::run` with both kinds of propagated I/O
failure: `read_exact` hitting end of stream at an `InputChar`, a failed
`write` of the output sink at a `PrintChar`, and the machine's own
`BfRuntimeError::LoopNotClosed`. -/
inductive BfErrF where
  | inputEof : BfErrF
  | outputFail : BfErrF
  | loopNotClosed : Nat → BfErrF
deriving DecidableEq, Repr

/-- The machine with a fallible output sink (`W : Write` in
`struct BfMachine`): `output` is the bytes written so far and `outRes` is
an oracle giving the outcome of each successive `write` call of the
underlying sink — `false` makes that write fail; once the oracle is
exhausted, writes succeed, as for an in-memory buffer. -/
structure MachF where
  cursor : Nat
  memory : List Nat
  input : List Nat
  output : List Nat
  outRes : List Bool
deriving DecidableEq, Repr

/-- Per-run state (`struct BfState`) over the fallible-output machine. -/
structure ExecStateF where
  pc : Nat
  stack : List Nat
  skip : Bool
  skipCount : Nat
  mach : MachF
deriving DecidableEq, Repr

/-- The initial `BfState` built at the top of `BfMachine::run`. -/
def initExecF (m : MachF) : ExecStateF :=
  { pc := 0, stack := [], skip := false, skipCount := 0, mach := m }

/-- `self.memory[self.cursor]` on the fallible-output machine. -/
def cellGetF (m : MachF) : Nat := m.memory.getD m.cursor 0

/-- `self.memory[self.cursor] = v` on the fallible-output machine. -/
def cellSetF (m : MachF) (v : Nat) : MachF :=
  { m with memory := m.memory.set m.cursor v }

/-- Result of one iteration of the `BfMachine::run` while-loop on the
fallible-output machine. -/
inductive StepResF where
  | cont : ExecStateF → StepResF
  | halt : MachF → StepResF
  | fail : BfErrF → MachF → StepResF
deriving DecidableEq, Repr

/-- One iteration of the `BfMachine::run` loop, identical to `step` except
that the `PrintChar` arm consults the output sink, propagating a failed
`write` (`self.output.write(&vec![...])?`). -/
def stepF (toks : List BfToken) (s : ExecStateF) : StepResF :=
  match toks[s.pc]? with
  | none => .halt s.mach
  | some t =>
    if s.skip && !isStartT t && !isEndT t then
      .cont { s with pc := s.pc + 1 }
    else
      match t with
      | .NotCommand _ => .cont { s with pc := s.pc + 1 }
      | .Increment v =>
          .cont { s with
                  pc := s.pc + 1
                  mach := cellSetF s.mach (wrapAdd8 (cellGetF s.mach) v) }
      | .Decrement v =>
          .cont { s with
                  pc := s.pc + 1
                  mach := cellSetF s.mach (wrapSub8 (cellGetF s.mach) v) }
      | .CursorLeft v =>
          .cont { s with
                  pc := s.pc + 1
                  mach := { s.mach with
                            cursor := wrapped_cursor s.mach.cursor true v
                              s.mach.memory.length } }
      | .CursorRight v =>
          .cont { s with
                  pc := s.pc + 1
                  mach := { s.mach with
                            cursor := wrapped_cursor s.mach.cursor false v
                              s.mach.memory.length } }
      | .LoopStart _ =>
          if cellGetF s.mach == 0 && !s.skip then
            .cont { s with
                    pc := s.pc + 1
                    skip := true
                    skipCount := s.stack.length
                    stack := s.pc :: s.stack }
          else
            .cont { s with
                    pc := s.pc + 1
                    stack := s.pc :: s.stack }
      | .LoopEnd _ =>
          match s.stack with
          | [] => .fail (.loopNotClosed s.pc) s.mach
          | pc2 :: rest =>
              if s.skip then
                .cont { s with
                        pc := s.pc + 1
                        stack := rest
                        skip := rest.length != s.skipCount }
              else
                .cont { s with
                        pc := pc2
                        stack := rest }
      | .PrintChar =>
          if s.mach.outRes.headD true then
            .cont { s with
                    pc := s.pc + 1
                    mach := { s.mach with
                              output := s.mach.output ++ [cellGetF s.mach]
                              outRes := s.mach.outRes.tail } }
          else .fail .outputFail s.mach
      | .InputChar =>
          match s.mach.input with
          | [] => .fail .inputEof s.mach
          | b :: ins =>
              .cont { s with
                      pc := s.pc + 1
                      mach := cellSetF { s.mach with input := ins } b }

/-- Outcome of a bounded run of the fallible-output machine. -/
inductive RunResF where
  | halted : MachF → RunResF
  | failed : BfErrF → MachF → RunResF
  | more : ExecStateF → RunResF
deriving DecidableEq, Repr

/-- `BfMachine::run` on the fallible-output machine, as a fuelled
iteration of `stepF`. -/
def runFuelF (toks : List BfToken) : Nat → ExecStateF → RunResF
  | 0, s => .more s
  | n + 1, s =>
    match stepF toks s with
    | .cont s2 => runFuelF toks n s2
    | .halt m => .halted m
    | .fail e m => .failed e m

/-- A single-cell fallible-output machine with empty input whose writes
all succeed. -/
def machF1 : MachF :=
  { cursor := 0, memory := [0], input := [], output := [], outRes := [] }

/-- A single-cell machine whose first output write fails. -/
def machF2 : MachF :=
  { cursor := 0, memory := [0], input := [], output := [],
    outRes := [false] }

/-- Counterexample to claim C2: executed on the token sequence
`[LoopEnd 0]`, a fresh machine returns the machine's own
`BfRuntimeError::LoopNotClosed(0)` — a run-time unmatched-loop error that
wraps no I/O failure of either stream. -/
theorem machine_raises_loop_error :
    runFuelF [BfToken.LoopEnd 0] 1 (initExecF machF1)
      = .failed (.loopNotClosed 0) machF1
    ∧ (BfErrF.loopNotClosed 0) ≠ .inputEof
    ∧ (BfErrF.loopNotClosed 0) ≠ .outputFail := by decide

/-- Every `fail` outcome of `stepF` is the end-of-stream I/O failure at
an `InputChar`, a failed output write at a `PrintChar`, or
`LoopNotClosed` raised at a `LoopEnd` with an empty runtime loop stack. -/
lemma stepF_fail_classify {toks : List BfToken} {s : ExecStateF}
    {e : BfErrF} {m : MachF} (h : stepF toks s = .fail e m) :
    (e = .inputEof ∧ toks[s.pc]? = some BfToken.InputChar)
    ∨ (e = .outputFail ∧ toks[s.pc]? = some BfToken.PrintChar)
    ∨ ∃ tgt, e = .loopNotClosed s.pc ∧ toks[s.pc]? = some (.LoopEnd tgt)
        ∧ s.stack = [] := by
  unfold stepF at h
  split at h
  · exact absurd h (by simp)
  · rename_i t ht
    split at h
    · exact absurd h (by simp)
    · split at h
      · exact absurd h (by simp)
      · exact absurd h (by simp)
      · exact absurd h (by simp)
      · exact absurd h (by simp)
      · exact absurd h (by simp)
      · split at h <;> exact absurd h (by simp)
      · split at h
        · rename_i hstk
          cases h
          exact Or.inr (Or.inr ⟨_, rfl, ht, hstk⟩)
        · split at h <;> exact absurd h (by simp)
      · split at h
        · exact absurd h (by simp)
        · cases h
          exact Or.inr (Or.inl ⟨rfl, ht⟩)
      · split at h
        · cases h
          exact Or.inl ⟨rfl, ht⟩
        · exact absurd h (by simp)

/-- Claim C2 (amended): when `BfMachine::run` returns an error it is a
propagated I/O failure of one of the two streams — end of stream on an
`InputChar` read, or a failed `write` of the output sink at a
`PrintChar` — or the machine's own run-time
`BfRuntimeError::LoopNotClosed(pc)`, raised when a `LoopEnd` token
executes with an empty runtime loop stack; so the machine in `src/` does
perform a run-time unmatched-loop check. -/
theorem run_error_kinds (toks : List BfToken) (n : Nat) (s : ExecStateF)
    (e : BfErrF) (m : MachF) (h : runFuelF toks n s = .failed e m) :
    (e = .inputEof ∧ ∃ pc : Nat, toks[pc]? = some BfToken.InputChar)
    ∨ (e = .outputFail ∧ ∃ pc : Nat, toks[pc]? = some BfToken.PrintChar)
    ∨ ∃ pc tgt, e = .loopNotClosed pc
        ∧ toks[pc]? = some (.LoopEnd tgt) := by
  induction n generalizing s with
  | zero => exact absurd h (by simp [runFuelF])
  | succ k ih =>
      rw [runFuelF] at h
      cases hstep : stepF toks s with
      | cont s2 =>
          rw [hstep] at h
          exact ih s2 h
      | halt m2 => rw [hstep] at h; exact RunResF.noConfusion h
      | fail e2 m2 =>
          rw [hstep] at h
          cases h
          rcases stepF_fail_classify hstep with ⟨h1, h2⟩ | ⟨h1, h2⟩
            | ⟨tgt, h1, h2, _⟩
          · exact Or.inl ⟨h1, s.pc, h2⟩
          · exact Or.inr (Or.inl ⟨h1, s.pc, h2⟩)
          · exact Or.inr (Or.inr ⟨s.pc, tgt, h1, h2⟩)

/-- Witness for `run_error_kinds`: the concrete run of `[PrintChar]` on a
machine whose first output write fails. -/
theorem run_error_kinds_witness :
    (BfErrF.outputFail = .inputEof
      ∧ ∃ pc : Nat, [BfToken.PrintChar][pc]? = some BfToken.InputChar)
    ∨ (BfErrF.outputFail = .outputFail
      ∧ ∃ pc : Nat, [BfToken.PrintChar][pc]? = some BfToken.PrintChar)
    ∨ ∃ pc tgt, BfErrF.outputFail = .loopNotClosed pc
        ∧ [BfToken.PrintChar][pc]? = some (.LoopEnd tgt) :=
  run_error_kinds [BfToken.PrintChar] 1 (initExecF machF2)
    .outputFail machF2 (by decide)

/-- Counterexample to claim C3: at a `LoopStart` whose resolved target is 2
and whose cell is zero, one step of the machine moves the program counter
to 1, not to the target 2 — the machine enters skip mode instead of jumping
(the stored target is never read). -/
theorem loopstart_does_not_jump :
    step [BfToken.LoopStart 2, BfToken.Increment 1, BfToken.LoopEnd 0]
      (initExec mach1)
      = .cont { pc := 1, stack := [0], skip := true, skipCount := 0,
                mach := mach1 }
    ∧ cellGet mach1 = 0 ∧ (1 : Nat) ≠ 2 := by decide

/-- Claim C3 (amended): when `BfMachine::run` executes `LoopStart(target)`
with the byte at the cursor zero and the skip flag clear, it does not jump:
it raises the skip flag, records the current loop depth, pushes the pc and
advances the program counter by one (the loop body is then skipped token by
token); with a nonzero byte (or already skipping) it pushes the pc and
advances by one, leaving the flag unchanged.  The resolved target is never
consulted. -/
theorem loopstart_step_behavior (toks : List BfToken) (s : ExecState)
    (tgt : Nat) (h : toks[s.pc]? = some (.LoopStart tgt)) :
    (cellGet s.mach = 0 → s.skip = false →
      step toks s = .cont { s with
        pc := s.pc + 1
        skip := true
        skipCount := s.stack.length
        stack := s.pc :: s.stack })
    ∧ ((cellGet s.mach ≠ 0 ∨ s.skip = true) →
      step toks s = .cont { s with
        pc := s.pc + 1
        stack := s.pc :: s.stack }) := by
  constructor
  · intro h0 hsk
    unfold step
    rw [h]
    simp [isStartT, hsk, h0]
  · intro hor
    unfold step
    rw [h]
    rcases hor with h1 | h1
    · cases hsk : s.skip <;> simp [isStartT, hsk, h1]
    · simp [isStartT, h1]

/-- Witness for `loopstart_step_behavior`: the concrete `LoopStart` step on
a one-cell machine. -/
theorem loopstart_step_behavior_witness :
    (cellGet (initExec mach1).mach = 0 → (initExec mach1).skip = false →
      step [BfToken.LoopStart 2] (initExec mach1)
        = .cont { initExec mach1 with
            pc := (initExec mach1).pc + 1
            skip := true
            skipCount := (initExec mach1).stack.length
            stack := (initExec mach1).pc :: (initExec mach1).stack })
    ∧ ((cellGet (initExec mach1).mach ≠ 0 ∨ (initExec mach1).skip = true) →
      step [BfToken.LoopStart 2] (initExec mach1)
        = .cont { initExec mach1 with
            pc := (initExec mach1).pc + 1
            stack := (initExec mach1).pc :: (initExec mach1).stack }) :=
  loopstart_step_behavior [BfToken.LoopStart 2] (initExec mach1) 2 (by decide)


/-! ## Bracket-resolution theory (claims C4, C5, C6)

`chk` is the pure control skeleton of `BfParser::loop_matching`: it scans
the (immutable) remaining token list with the same stack discipline and
returns the list of (start index, end index) pairs popped, in pop order.
`lmGo` equals `chk` followed by replaying the in-place payload rewrites
(`applyPairs`); this is provable because the scan dispatches only on token
variants and the rewrites never touch positions the scan has yet to read. -/

def chk : Nat → List BfToken → List Nat →
    Except BfParserError (List (Nat × Nat))
  | _, [], [] => .ok []
  | _, [], j :: _ => .error (.LoopNotClosed j)
  | i, t :: ts, st =>
    if isStartT t then chk (i + 1) ts (i :: st)
    else if isEndT t then
      match st with
      | [] => .error (.LoopNotClosed i)
      | j :: rest => (chk (i + 1) ts rest).map (fun prs => (j, i) :: prs)
    else chk (i + 1) ts st

/-- Replay the in-place rewrites of `loop_matching` for a list of popped
pairs, in pop order. -/
def applyPairs (prs : List (Nat × Nat)) (toks : List BfToken) :
    List BfToken :=
  prs.foldl
    (fun l p => (l.set p.1 (.LoopStart p.2)).set p.2 (.LoopEnd p.1)) toks

lemma drop_set_of_lt {α : Type} (l : List α) (n : Nat) (a : α) (m : Nat)
    (h : n < m) : (l.set n a).drop m = l.drop m := by
  apply List.ext_getElem?
  intro k
  rw [List.getElem?_drop, List.getElem?_drop, List.getElem?_set_ne (by omega)]

/-- The bridge: `lmGo` is `chk` followed by `applyPairs`. -/
lemma lmGo_eq_chk (toks : List BfToken) (i : Nat) (stack : List Nat)
    (hst : ∀ j ∈ stack, j < i) :
    lmGo toks i stack
      = (chk i (toks.drop i) stack).map (fun prs => applyPairs prs toks) := by
  by_cases hlt : i < toks.length
  · have hdrop : toks.drop i = toks[i] :: toks.drop (i + 1) :=
      List.drop_eq_getElem_cons hlt
    rw [hdrop]
    unfold lmGo
    rw [dif_pos hlt]
    have hsuc : ∀ x ∈ stack, x < i + 1 :=
      fun x hx => Nat.lt_succ_of_lt (hst x hx)
    cases ht : toks[i] with
    | LoopStart tg =>
        show lmGo toks (i + 1) (i :: stack) = _
        rw [lmGo_eq_chk toks (i + 1) (i :: stack)
          (by intro j hj
              rcases List.mem_cons.mp hj with hj | hj
              · omega
              · exact Nat.lt_succ_of_lt (hst _ hj))]
        rfl
    | LoopEnd tg =>
        match stack with
        | [] => rfl
        | j :: rest =>
            have hji : j < i := hst j (by simp)
            have hd2 : ((toks.set j (.LoopStart i)).set i
                (.LoopEnd j)).drop (i + 1) = toks.drop (i + 1) := by
              rw [drop_set_of_lt _ _ _ _ (by omega),
                drop_set_of_lt _ _ _ _ (by omega)]
            show lmGo ((toks.set j (.LoopStart i)).set i (.LoopEnd j))
                (i + 1) rest = _
            rw [lmGo_eq_chk ((toks.set j (.LoopStart i)).set i (.LoopEnd j))
              (i + 1) rest
              (fun x hx => Nat.lt_succ_of_lt (hst x (by simp [hx])))]
            rw [hd2]
            show (chk (i + 1) (toks.drop (i + 1)) rest).map
                (fun prs => applyPairs prs
                  ((toks.set j (.LoopStart i)).set i (.LoopEnd j)))
              = ((chk (i + 1) (toks.drop (i + 1)) rest).map
                  (fun prs => (j, i) :: prs)).map
                (fun prs => applyPairs prs toks)
            cases chk (i + 1) (toks.drop (i + 1)) rest with
            | error e => rfl
            | ok prs => rfl
    | NotCommand c =>
        show lmGo toks (i + 1) stack = _
        rw [lmGo_eq_chk toks (i + 1) stack hsuc]; rfl
    | Increment v =>
        show lmGo toks (i + 1) stack = _
        rw [lmGo_eq_chk toks (i + 1) stack hsuc]; rfl
    | Decrement v =>
        show lmGo toks (i + 1) stack = _
        rw [lmGo_eq_chk toks (i + 1) stack hsuc]; rfl
    | CursorLeft v =>
        show lmGo toks (i + 1) stack = _
        rw [lmGo_eq_chk toks (i + 1) stack hsuc]; rfl
    | CursorRight v =>
        show lmGo toks (i + 1) stack = _
        rw [lmGo_eq_chk toks (i + 1) stack hsuc]; rfl
    | PrintChar =>
        show lmGo toks (i + 1) stack = _
        rw [lmGo_eq_chk toks (i + 1) stack hsuc]; rfl
    | InputChar =>
        show lmGo toks (i + 1) stack = _
        rw [lmGo_eq_chk toks (i + 1) stack hsuc]; rfl
  · have hdrop : toks.drop i = [] := by
      rw [List.drop_eq_nil_iff]
      omega
    rw [hdrop]
    unfold lmGo
    rw [dif_neg hlt]
    match stack with
    | [] => rfl
    | j :: rest => rfl
termination_by toks.length - i
decreasing_by
  all_goals
    try simp only [List.length_set]
    omega


/-- `Closes ts n` : scanning `ts` with `n` currently-open loops, every
`LoopEnd` finds an open loop and every opened loop is closed, ending with
none open.  This is the bracket discipline `loop_matching` accepts when the
starting stack has length `n`. -/
inductive Closes : List BfToken → Nat → Prop where
  | nil : Closes [] 0
  | atom {t : BfToken} {ts : List BfToken} {n : Nat} :
      isStartT t = false → isEndT t = false → Closes ts n →
      Closes (t :: ts) n
  | close {tg : Nat} {ts : List BfToken} {n : Nat} :
      Closes ts n → Closes (.LoopEnd tg :: ts) (n + 1)
  | opn {tg : Nat} {ts : List BfToken} {n : Nat} :
      Closes ts (n + 1) → Closes (.LoopStart tg :: ts) n

/-- Signed bracket contribution of one token. -/
def tokDelta (t : BfToken) : Int :=
  if isStartT t then 1 else if isEndT t then -1 else 0

/-- Running bracket balance of a token list. -/
def tokBal : List BfToken → Int
  | [] => 0
  | t :: ts => tokDelta t + tokBal ts

lemma isStartT_iff {t : BfToken} :
    isStartT t = true ↔ ∃ tg, t = .LoopStart tg := by
  cases t <;> simp [isStartT]

lemma isEndT_iff {t : BfToken} :
    isEndT t = true ↔ ∃ tg, t = .LoopEnd tg := by
  cases t <;> simp [isEndT]

lemma closes_bal {ts : List BfToken} {n : Nat} (h : Closes ts n) :
    tokBal ts = -(n : Int) := by
  induction h with
  | nil => rfl
  | atom h1 h2 _ ih => simp [tokBal, tokDelta, h1, h2, ih]
  | close _ ih =>
      simp only [tokBal, tokDelta, ih, isStartT, isEndT]
      try push_cast
      try ring
      try omega
  | opn _ ih =>
      simp only [tokBal, tokDelta, ih, isStartT, isEndT]
      try push_cast
      try ring
      try omega

lemma closes_take_nonneg {ts : List BfToken} {n : Nat} (h : Closes ts n) :
    ∀ k, -(n : Int) ≤ tokBal (ts.take k) := by
  induction h with
  | nil =>
      intro k
      simp [tokBal]
  | atom h1 h2 _ ih =>
      intro k
      cases k with
      | zero =>
          simp only [List.take_zero, tokBal]
          omega
      | succ k =>
          have := ih k
          simp only [List.take_succ_cons, tokBal]
          rw [show ∀ t2, isStartT t2 = false → isEndT t2 = false →
              tokDelta t2 = 0 from fun t2 ha hb => by
            simp [tokDelta, ha, hb]]
          · omega
          · exact h1
          · exact h2
  | close _ ih =>
      intro k
      cases k with
      | zero =>
          simp only [List.take_zero, tokBal]
          omega
      | succ k =>
          have := ih k
          simp only [List.take_succ_cons, tokBal]
          rw [show ∀ tg : Nat, tokDelta (.LoopEnd tg) = (-1 : Int)
            from fun _ => rfl]
          push_cast
          omega
  | opn _ ih =>
      intro k
      cases k with
      | zero =>
          simp only [List.take_zero, tokBal]
          omega
      | succ k =>
          have := ih k
          simp only [List.take_succ_cons, tokBal]
          rw [show ∀ tg : Nat, tokDelta (.LoopStart tg) = (1 : Int)
            from fun _ => rfl]
          push_cast at this ⊢
          omega

lemma chk_cons (i : Nat) (t : BfToken) (ts : List BfToken)
    (st : List Nat) :
    chk i (t :: ts) st
      = if isStartT t then chk (i + 1) ts (i :: st)
        else if isEndT t then
          match st with
          | [] => .error (.LoopNotClosed i)
          | j :: rest =>
              (chk (i + 1) ts rest).map fun prs => (j, i) :: prs
        else chk (i + 1) ts st := rfl

lemma closes_append {a b : List BfToken} {m n : Nat}
    (ha : Closes a m) (hb : Closes b n) : Closes (a ++ b) (m + n) := by
  induction ha with
  | nil => simpa using hb
  | atom h1 h2 _ ih => exact Closes.atom h1 h2 ih
  | close _ ih =>
      rw [List.cons_append]
      rw [show ∀ k : Nat, k + 1 + n = (k + n) + 1 from fun k => by omega]
      exact Closes.close ih
  | opn _ ih =>
      rw [List.cons_append]
      refine Closes.opn ?_
      rw [show ∀ k : Nat, k + n + 1 = (k + 1) + n from fun k => by omega]
      exact ih

lemma closes_cons_start {tg : Nat} {ts : List BfToken} {n : Nat}
    (h : Closes (.LoopStart tg :: ts) n) : Closes ts (n + 1) := by
  cases h with
  | atom h1 h2 h3 => exact absurd h1 (by simp [isStartT])
  | opn h1 => exact h1

lemma closes_cons_end {tg : Nat} {ts : List BfToken} {n : Nat}
    (h : Closes (.LoopEnd tg :: ts) n) :
    ∃ m, n = m + 1 ∧ Closes ts m := by
  cases h with
  | atom h1 h2 h3 => exact absurd h2 (by simp [isEndT])
  | close h1 => exact ⟨_, rfl, h1⟩

lemma closes_cons_atom (t : BfToken) {ts : List BfToken} {n : Nat}
    (h1 : isStartT t = false) (h2 : isEndT t = false)
    (h : Closes (t :: ts) n) : Closes ts n := by
  cases h with
  | atom h3 h4 h5 => exact h5
  | close h3 => exact absurd h2 (by simp [isEndT])
  | opn h3 => exact absurd h1 (by simp [isStartT])

/-- First-return decomposition: a list that must close `n + 1` pending
loops splits at the closer of the innermost pending loop. -/
lemma closes_succ_split {x : List BfToken} {n : Nat}
    (h : Closes x (n + 1)) :
    ∃ a tg b, x = a ++ .LoopEnd tg :: b ∧ Closes a 0 ∧ Closes b n := by
  cases hx : x with
  | nil => rw [hx] at h; cases h
  | cons t ts =>
      rw [hx] at h
      cases t with
      | LoopStart tg2 =>
          have h1 : Closes ts (n + 2) := closes_cons_start h
          obtain ⟨a1, tg1, b1, hb1, ha1, hc1⟩ := closes_succ_split h1
          obtain ⟨a2, tg2b, b2, hb2, ha2, hc2⟩ := closes_succ_split hc1
          refine ⟨.LoopStart tg2 :: a1 ++ .LoopEnd tg1 :: a2, tg2b, b2,
            ?_, ?_, hc2⟩
          · rw [hb1, hb2]
            simp
          · refine Closes.opn ?_
            have : Closes (.LoopEnd tg1 :: a2) (0 + 1) :=
              Closes.close ha2
            have h3 := closes_append ha1 this
            simpa using h3
      | LoopEnd tg2 =>
          obtain ⟨m, hm, hc⟩ := closes_cons_end h
          exact ⟨[], tg2, ts, by simp, Closes.nil, by
            have : m = n := by omega
            rwa [this] at hc⟩
      | NotCommand c =>
          obtain ⟨a1, tg1, b1, hb1, ha1, hc1⟩ :=
            closes_succ_split (closes_cons_atom (.NotCommand c) rfl rfl h)
          exact ⟨.NotCommand c :: a1, tg1, b1, by rw [hb1]; rfl,
            Closes.atom rfl rfl ha1, hc1⟩
      | Increment v =>
          obtain ⟨a1, tg1, b1, hb1, ha1, hc1⟩ :=
            closes_succ_split (closes_cons_atom (.Increment v) rfl rfl h)
          exact ⟨.Increment v :: a1, tg1, b1, by rw [hb1]; rfl,
            Closes.atom rfl rfl ha1, hc1⟩
      | Decrement v =>
          obtain ⟨a1, tg1, b1, hb1, ha1, hc1⟩ :=
            closes_succ_split (closes_cons_atom (.Decrement v) rfl rfl h)
          exact ⟨.Decrement v :: a1, tg1, b1, by rw [hb1]; rfl,
            Closes.atom rfl rfl ha1, hc1⟩
      | CursorLeft v =>
          obtain ⟨a1, tg1, b1, hb1, ha1, hc1⟩ :=
            closes_succ_split (closes_cons_atom (.CursorLeft v) rfl rfl h)
          exact ⟨.CursorLeft v :: a1, tg1, b1, by rw [hb1]; rfl,
            Closes.atom rfl rfl ha1, hc1⟩
      | CursorRight v =>
          obtain ⟨a1, tg1, b1, hb1, ha1, hc1⟩ :=
            closes_succ_split (closes_cons_atom (.CursorRight v) rfl rfl h)
          exact ⟨.CursorRight v :: a1, tg1, b1, by rw [hb1]; rfl,
            Closes.atom rfl rfl ha1, hc1⟩
      | PrintChar =>
          obtain ⟨a1, tg1, b1, hb1, ha1, hc1⟩ :=
            closes_succ_split (closes_cons_atom (.PrintChar) rfl rfl h)
          exact ⟨.PrintChar :: a1, tg1, b1, by rw [hb1]; rfl,
            Closes.atom rfl rfl ha1, hc1⟩
      | InputChar =>
          obtain ⟨a1, tg1, b1, hb1, ha1, hc1⟩ :=
            closes_succ_split (closes_cons_atom (.InputChar) rfl rfl h)
          exact ⟨.InputChar :: a1, tg1, b1, by rw [hb1]; rfl,
            Closes.atom rfl rfl ha1, hc1⟩
termination_by x.length
decreasing_by
  all_goals subst hx
  all_goals simp only [List.length_cons]
  all_goals try omega
  all_goals
    (have hlen := congrArg List.length hb1
     simp only [List.length_append, List.length_cons] at hlen
     omega)

/-- Success of the scan depends only on the bracket discipline: `chk`
succeeds from a stack of length `n` exactly when `Closes` holds at `n`. -/
lemma chk_ok_closes :
    ∀ (ts : List BfToken) (i : Nat) (st : List Nat)
      (prs : List (Nat × Nat)),
      chk i ts st = .ok prs → Closes ts st.length := by
  intro ts
  induction ts with
  | nil =>
      intro i st prs h
      match st with
      | [] => exact Closes.nil
      | j :: rest => exact absurd h (by simp [chk])
  | cons t ts ih =>
      intro i st prs h
      rw [chk_cons] at h
      by_cases hs : isStartT t = true
      · rw [if_pos hs] at h
        obtain ⟨tg, rfl⟩ := isStartT_iff.mp hs
        exact Closes.opn (ih _ _ _ h)
      · rw [if_neg hs] at h
        by_cases he : isEndT t = true
        · rw [if_pos he] at h
          obtain ⟨tg, rfl⟩ := isEndT_iff.mp he
          match st with
          | [] => exact absurd h (by simp)
          | j :: rest =>
              have h2 : (chk (i + 1) ts rest).map
                  (fun prs => (j, i) :: prs) = .ok prs := h
              cases hr : chk (i + 1) ts rest with
              | error e =>
                  rw [hr] at h2
                  exact absurd h2 (by simp [Except.map])
              | ok prs2 =>
                  exact Closes.close (ih _ _ _ hr)
        · rw [if_neg he] at h
          exact Closes.atom (by simpa using hs) (by simpa using he)
            (ih _ _ _ h)

lemma closes_chk_ok :
    ∀ (ts : List BfToken) (i : Nat) (st : List Nat),
      Closes ts st.length → ∃ prs, chk i ts st = .ok prs := by
  intro ts
  induction ts with
  | nil =>
      intro i st h
      match st with
      | [] => exact ⟨[], rfl⟩
      | j :: rest =>
          have := closes_bal h
          simp only [tokBal, List.length_cons] at this
          omega
  | cons t ts ih =>
      intro i st h
      rw [chk_cons]
      by_cases hs : isStartT t = true
      · rw [if_pos hs]
        obtain ⟨tg, rfl⟩ := isStartT_iff.mp hs
        exact ih (i + 1) (i :: st) (closes_cons_start h)
      · rw [if_neg hs]
        by_cases he : isEndT t = true
        · rw [if_pos he]
          obtain ⟨tg, rfl⟩ := isEndT_iff.mp he
          obtain ⟨m, hm, hc⟩ := closes_cons_end h
          match st, hm with
          | j :: rest, hm =>
              have hr : rest.length = m := by
                simp at hm
                omega
              obtain ⟨prs2, hp⟩ := ih (i + 1) rest (by rwa [hr])
              refine ⟨(j, i) :: prs2, ?_⟩
              show (chk (i + 1) ts rest).map (fun p => (j, i) :: p)
                = Except.ok ((j, i) :: prs2)
              rw [hp]
              rfl
        · rw [if_neg he]
          exact ih (i + 1) st
            (closes_cons_atom t (by simpa using hs) (by simpa using he) h)


/-- The segment of `l` from index `a` (inclusive) to `b` (exclusive). -/
def sliceB (l : List BfToken) (a b : Nat) : List BfToken :=
  (l.drop a).take (b - a)

/-- `IsMatch toks j q` : positions `j < q` hold a loop start and the
syntactically matching loop end: the segment strictly between them is
bracket-balanced. -/
def IsMatch (toks : List BfToken) (j q : Nat) : Prop :=
  j < q ∧ q < toks.length
  ∧ (∃ tg, toks[j]? = some (.LoopStart tg))
  ∧ (∃ tg, toks[q]? = some (.LoopEnd tg))
  ∧ Closes (sliceB toks (j + 1) q) 0

lemma sliceB_self (l : List BfToken) (a : Nat) : sliceB l a a = [] := by
  simp [sliceB]

lemma sliceB_snoc (l : List BfToken) (a b : Nat) (hab : a ≤ b)
    (hb : b < l.length) :
    sliceB l a (b + 1) = sliceB l a b ++ [l[b]] := by
  rw [sliceB, sliceB, show b + 1 - a = (b - a) + 1 from by omega,
    List.take_succ]
  congr 1
  rw [List.getElem?_drop, show a + (b - a) = b from by omega,
    List.getElem?_eq_getElem hb]
  rfl

lemma sliceB_trans (l : List BfToken) (a b c : Nat) (hab : a ≤ b)
    (hbc : b ≤ c) :
    sliceB l a c = sliceB l a b ++ sliceB l b c := by
  rw [sliceB, sliceB, sliceB, show c - a = (b - a) + (c - b) from by omega,
    List.take_add, List.drop_drop, show a + (b - a) = b from by omega]

/-- The scan-stack invariant: the stack holds positions of still-open loop
starts, innermost first, with bracket-balanced segments between
consecutive entries (and after the innermost one, up to the scan point). -/
inductive StInv (orig : List BfToken) : Nat → List Nat → Prop where
  | nil (i : Nat) : StInv orig i []
  | cons {i j : Nat} {st : List Nat} :
      j < i → (∃ tg, orig[j]? = some (.LoopStart tg)) →
      Closes (sliceB orig (j + 1) i) 0 → StInv orig j st →
      StInv orig i (j :: st)

lemma stinv_lt {orig : List BfToken} {i : Nat} {st : List Nat}
    (h : StInv orig i st) : ∀ j ∈ st, j < i := by
  induction h with
  | nil => simp
  | cons hj hs hc _ ih =>
      intro x hx
      rcases List.mem_cons.mp hx with rfl | hx
      · assumption
      · have := ih x hx
        omega

lemma stinv_atom {orig : List BfToken} {i : Nat} {st : List Nat}
    (h : StInv orig i st) (hi : i < orig.length)
    (h1 : isStartT orig[i] = false) (h2 : isEndT orig[i] = false) :
    StInv orig (i + 1) st := by
  cases h with
  | nil => exact StInv.nil _
  | cons hj hs hc hrest =>
      refine StInv.cons (by omega) hs ?_ hrest
      rw [sliceB_snoc orig _ i (by omega) hi]
      have h3 : Closes [orig[i]] 0 := Closes.atom h1 h2 Closes.nil
      have := closes_append hc h3
      simpa using this

lemma stinv_push {orig : List BfToken} {i : Nat} {st : List Nat}
    (h : StInv orig i st) (hi : i < orig.length)
    (hs : ∃ tg, orig[i]? = some (.LoopStart tg)) :
    StInv orig (i + 1) (i :: st) := by
  refine StInv.cons (by omega) hs ?_ h
  rw [sliceB_self]
  exact Closes.nil

lemma stinv_pop {orig : List BfToken} {i j : Nat} {rest : List Nat}
    (h : StInv orig i (j :: rest)) (hi : i < orig.length)
    (he : ∃ tg, orig[i]? = some (.LoopEnd tg)) :
    StInv orig (i + 1) rest ∧ IsMatch orig j i := by
  cases h with
  | cons hj hs hc hrest =>
      refine ⟨?_, hj, hi, hs, he, hc⟩
      cases hrest with
      | nil => exact StInv.nil _
      | cons hj2 hs2 hc2 hrest2 =>
          rename_i j2 st2
          refine StInv.cons (by omega) hs2 ?_ hrest2
          obtain ⟨tg, htg⟩ := hs
          obtain ⟨tg2, htg2⟩ := he
          have hgj : orig[j] = .LoopStart tg := by
            rw [List.getElem?_eq_getElem (by omega)] at htg
            exact Option.some.inj htg
          have hgi : orig[i] = .LoopEnd tg2 := by
            rw [List.getElem?_eq_getElem hi] at htg2
            exact Option.some.inj htg2
          rw [sliceB_trans orig (j2 + 1) (j + 1) (i + 1) (by omega)
              (by omega),
            sliceB_snoc orig (j2 + 1) j (by omega) (by omega),
            sliceB_snoc orig (j + 1) i (by omega) hi, hgj, hgi]
          have hinner : Closes (.LoopStart tg :: (sliceB orig (j + 1) i
              ++ [.LoopEnd tg2])) 0 := by
            refine Closes.opn ?_
            have : Closes [(.LoopEnd tg2 : BfToken)] (0 + 1) :=
              Closes.close Closes.nil
            have h4 := closes_append hc this
            simpa using h4
          have h5 := closes_append hc2 hinner
          simpa [List.append_assoc] using h5


lemma stinv_cons_inner {orig : List BfToken} {i j : Nat} {rest : List Nat}
    (h : StInv orig i (j :: rest)) : StInv orig j rest := by
  cases h with
  | cons _ _ _ hrest => exact hrest

lemma drop_cons_facts {orig : List BfToken} {i : Nat} {t : BfToken}
    {ts : List BfToken} (heq : orig.drop i = t :: ts) :
    i < orig.length ∧ orig[i]? = some t ∧ ts = orig.drop (i + 1) := by
  have hi : i < orig.length := by
    by_contra hge
    rw [List.drop_eq_nil_iff.mpr (by omega)] at heq
    exact List.noConfusion heq
  have h2 : orig.drop i = orig[i] :: orig.drop (i + 1) :=
    List.drop_eq_getElem_cons hi
  rw [heq] at h2
  obtain ⟨hhd, htl⟩ := List.cons.inj h2
  refine ⟨hi, ?_, htl⟩
  rw [List.getElem?_eq_getElem hi, hhd]

/-- Everything the successful scan guarantees: each popped pair is a
syntactic match, every pending stack entry and every bracket at or past
the scan point is eventually popped, pairs are fresh, and the pair list
has distinct starts and strictly increasing ends. -/
lemma chk_ok_facts (ts : List BfToken) :
    ∀ (i : Nat) (st : List Nat) (prs : List (Nat × Nat))
      (orig : List BfToken),
      orig.drop i = ts → StInv orig i st → chk i ts st = .ok prs →
      (∀ p ∈ prs, IsMatch orig p.1 p.2)
      ∧ (∀ j ∈ st, ∃ q, (j, q) ∈ prs)
      ∧ (∀ q, i ≤ q → (∃ tg, orig[q]? = some (.LoopStart tg)) →
          ∃ r, (q, r) ∈ prs)
      ∧ (∀ q, i ≤ q → (∃ tg, orig[q]? = some (.LoopEnd tg)) →
          ∃ p2, (p2, q) ∈ prs)
      ∧ (∀ p ∈ prs, (p.1 ∈ st ∨ i ≤ p.1) ∧ i ≤ p.2)
      ∧ prs.Pairwise (fun p q => p.1 ≠ q.1 ∧ p.2 < q.2) := by
  induction ts with
  | nil =>
      intro i st prs orig heq hstv h
      have hlen : orig.length ≤ i := by
        rw [List.drop_eq_nil_iff] at heq
        exact heq
      match st with
      | [] =>
          have h2 : (Except.ok [] :
              Except BfParserError (List (Nat × Nat))) = .ok prs := h
          have hprs : prs = [] := (Except.ok.inj h2).symm
          subst hprs
          refine ⟨by simp, by simp, ?_, ?_, by simp, List.Pairwise.nil⟩
          · intro q hq ⟨tg, htg⟩
            rw [List.getElem?_eq_none (by omega)] at htg
            exact Option.noConfusion htg
          · intro q hq ⟨tg, htg⟩
            rw [List.getElem?_eq_none (by omega)] at htg
            exact Option.noConfusion htg
      | j :: rest =>
          have h2 : (Except.error (BfParserError.LoopNotClosed j) :
              Except BfParserError (List (Nat × Nat))) = .ok prs := h
          exact Except.noConfusion h2
  | cons t ts ih =>
      intro i st prs orig heq hstv h
      obtain ⟨hi, horig, hts⟩ := drop_cons_facts heq
      rw [chk_cons] at h
      have horigi : orig[i] = t := by
        rw [List.getElem?_eq_getElem hi] at horig
        exact Option.some.inj horig
      by_cases hs : isStartT t = true
      · rw [if_pos hs] at h
        obtain ⟨tg, rfl⟩ := isStartT_iff.mp hs
        have F := ih (i + 1) (i :: st) prs orig hts.symm
          (stinv_push hstv hi ⟨tg, horig⟩) h
        refine ⟨F.1, ?_, ?_, ?_, ?_, F.2.2.2.2.2⟩
        · exact fun j hj => F.2.1 j (List.mem_cons_of_mem _ hj)
        · intro q hq hq2
          by_cases heq2 : q = i
          · rw [heq2]
            exact F.2.1 i (List.mem_cons_self _ _)
          · exact F.2.2.1 q (by omega) hq2
        · intro q hq hq2
          by_cases heq2 : q = i
          · rw [heq2] at hq2
            obtain ⟨tg2, htg2⟩ := hq2
            rw [horig] at htg2
            exact absurd (Option.some.inj htg2) (by simp)
          · exact F.2.2.2.1 q (by omega) hq2
        · intro p hp
          obtain ⟨hp1, hp2⟩ := F.2.2.2.2.1 p hp
          refine ⟨?_, by omega⟩
          rcases hp1 with hp1 | hp1
          · rcases List.mem_cons.mp hp1 with rfl | hp1
            · exact Or.inr (le_refl _)
            · exact Or.inl hp1
          · exact Or.inr (by omega)
      · rw [if_neg hs] at h
        by_cases he : isEndT t = true
        · rw [if_pos he] at h
          obtain ⟨tg, rfl⟩ := isEndT_iff.mp he
          match st, hstv with
          | [], _ =>
              have h2 : (Except.error (BfParserError.LoopNotClosed i) :
                  Except BfParserError (List (Nat × Nat))) = .ok prs := h
              exact Except.noConfusion h2
          | j :: rest, hstv =>
              have h2 : (chk (i + 1) ts rest).map
                  (fun prs => (j, i) :: prs) = .ok prs := h
              cases hr : chk (i + 1) ts rest with
              | error e =>
                  rw [hr] at h2
                  exact absurd h2 (by simp [Except.map])
              | ok prs2 =>
                  rw [hr] at h2
                  have hprs : prs = (j, i) :: prs2 := by
                    simp only [Except.map] at h2
                    exact (Except.ok.inj h2).symm
                  subst hprs
                  obtain ⟨hstv2, hmatch⟩ :=
                    stinv_pop hstv hi ⟨tg, horig⟩
                  have hrestlt := stinv_lt (stinv_cons_inner hstv)
                  have F := ih (i + 1) rest prs2 orig hts.symm hstv2 hr
                  have hji : j < i := (stinv_lt hstv) j (by simp)
                  refine ⟨?_, ?_, ?_, ?_, ?_, ?_⟩
                  · intro p hp
                    rcases List.mem_cons.mp hp with rfl | hp
                    · exact hmatch
                    · exact F.1 p hp
                  · intro x hx
                    rcases List.mem_cons.mp hx with rfl | hx
                    · exact ⟨i, List.mem_cons_self _ _⟩
                    · obtain ⟨q, hq⟩ := F.2.1 x hx
                      exact ⟨q, List.mem_cons_of_mem _ hq⟩
                  · intro q hq hq2
                    by_cases heq2 : q = i
                    · rw [heq2] at hq2
                      obtain ⟨tg2, htg2⟩ := hq2
                      rw [horig] at htg2
                      exact absurd (Option.some.inj htg2) (by simp)
                    · obtain ⟨r, hr2⟩ := F.2.2.1 q (by omega) hq2
                      exact ⟨r, List.mem_cons_of_mem _ hr2⟩
                  · intro q hq hq2
                    by_cases heq2 : q = i
                    · rw [heq2]
                      exact ⟨j, List.mem_cons_self _ _⟩
                    · obtain ⟨p2, hp2⟩ := F.2.2.2.1 q (by omega) hq2
                      exact ⟨p2, List.mem_cons_of_mem _ hp2⟩
                  · intro p hp
                    rcases List.mem_cons.mp hp with rfl | hp
                    · exact ⟨Or.inl (List.mem_cons_self _ _), le_refl _⟩
                    · obtain ⟨hp1, hp2⟩ := F.2.2.2.2.1 p hp
                      refine ⟨?_, by omega⟩
                      rcases hp1 with hp1 | hp1
                      · exact Or.inl (List.mem_cons_of_mem _ hp1)
                      · exact Or.inr (by omega)
                  · refine List.Pairwise.cons ?_ F.2.2.2.2.2
                    intro p hp
                    obtain ⟨hp1, hp2⟩ := F.2.2.2.2.1 p hp
                    refine ⟨?_, by omega⟩
                    rcases hp1 with hp1 | hp1
                    · have := hrestlt p.1 hp1
                      omega
                    · omega
        · rw [if_neg he] at h
          have F := ih (i + 1) st prs orig hts.symm
            (stinv_atom hstv hi (by rw [horigi]; simpa using hs)
              (by rw [horigi]; simpa using he)) h
          refine ⟨F.1, F.2.1, ?_, ?_, ?_, F.2.2.2.2.2⟩
          · intro q hq hq2
            by_cases heq2 : q = i
            · rw [heq2] at hq2
              obtain ⟨tg2, htg2⟩ := hq2
              rw [horig] at htg2
              have h6 := Option.some.inj htg2
              rw [h6] at hs
              exact absurd rfl hs
            · exact F.2.2.1 q (by omega) hq2
          · intro q hq hq2
            by_cases heq2 : q = i
            · rw [heq2] at hq2
              obtain ⟨tg2, htg2⟩ := hq2
              rw [horig] at htg2
              have h6 := Option.some.inj htg2
              rw [h6] at he
              exact absurd rfl he
            · exact F.2.2.2.1 q (by omega) hq2
          · intro p hp
            obtain ⟨hp1, hp2⟩ := F.2.2.2.2.1 p hp
            refine ⟨?_, by omega⟩
            rcases hp1 with hp1 | hp1
            · exact Or.inl hp1
            · exact Or.inr (by omega)


lemma applyPairs_nil (toks : List BfToken) : applyPairs [] toks = toks := rfl

lemma applyPairs_cons (p : Nat × Nat) (prs : List (Nat × Nat))
    (toks : List BfToken) :
    applyPairs (p :: prs) toks
      = applyPairs prs
          ((toks.set p.1 (.LoopStart p.2)).set p.2 (.LoopEnd p.1)) := rfl

lemma applyPairs_length (prs : List (Nat × Nat)) :
    ∀ toks, (applyPairs prs toks).length = toks.length := by
  induction prs with
  | nil => intro toks; rfl
  | cons p prs ih =>
      intro toks
      rw [applyPairs_cons, ih]
      simp

lemma applyPairs_getElem_of_avoid (prs : List (Nat × Nat)) :
    ∀ (toks : List BfToken) (x : Nat),
      (∀ p ∈ prs, p.1 ≠ x ∧ p.2 ≠ x) →
      (applyPairs prs toks)[x]? = toks[x]? := by
  induction prs with
  | nil => intro toks x _; rfl
  | cons p prs ih =>
      intro toks x hav
      have hp := hav p (List.mem_cons_self _ _)
      rw [applyPairs_cons,
        ih _ x (fun r hr => hav r (List.mem_cons_of_mem _ hr)),
        List.getElem?_set_ne hp.2, List.getElem?_set_ne hp.1]

lemma applyPairs_getElem_fst (prs : List (Nat × Nat)) :
    ∀ (toks : List BfToken) (x q : Nat), (x, q) ∈ prs →
      x < toks.length → q ≠ x →
      (∀ r ∈ prs, (x, q) = r ∨ (x ≠ r.1 ∧ x ≠ r.2)) →
      (applyPairs prs toks)[x]? = some (.LoopStart q) := by
  induction prs with
  | nil => intro toks x q h; exact absurd h (List.not_mem_nil _)
  | cons p prs ih =>
      intro toks x q hmem hx hqx hdist
      rw [applyPairs_cons]
      by_cases hin : (x, q) ∈ prs
      · exact ih _ x q hin (by simpa using hx) hqx
          (fun r hr => hdist r (List.mem_cons_of_mem _ hr))
      · have hpeq : p = (x, q) := by
          rcases List.mem_cons.mp hmem with h1 | h1
          · exact h1.symm
          · exact absurd h1 hin
        subst hpeq
        rw [applyPairs_getElem_of_avoid prs _ x ?_]
        · rw [List.getElem?_set_ne (by simpa using hqx),
            List.getElem?_set]
          rw [if_pos rfl, if_pos hx]
        · intro r hr
          rcases hdist r (List.mem_cons_of_mem _ hr) with h1 | h1
          · exact absurd (h1 ▸ hr) hin
          · exact ⟨fun he => h1.1 he.symm, fun he => h1.2 he.symm⟩

lemma applyPairs_getElem_snd (prs : List (Nat × Nat)) :
    ∀ (toks : List BfToken) (p x : Nat), (p, x) ∈ prs →
      x < toks.length → p ≠ x →
      (∀ r ∈ prs, (p, x) = r ∨ (x ≠ r.1 ∧ x ≠ r.2)) →
      (applyPairs prs toks)[x]? = some (.LoopEnd p) := by
  induction prs with
  | nil => intro toks p x h; exact absurd h (List.not_mem_nil _)
  | cons r0 prs ih =>
      intro toks p x hmem hx hpx hdist
      rw [applyPairs_cons]
      by_cases hin : (p, x) ∈ prs
      · exact ih _ p x hin (by simpa using hx) hpx
          (fun r hr => hdist r (List.mem_cons_of_mem _ hr))
      · have hpeq : r0 = (p, x) := by
          rcases List.mem_cons.mp hmem with h1 | h1
          · exact h1.symm
          · exact absurd h1 hin
        subst hpeq
        rw [applyPairs_getElem_of_avoid prs _ x ?_]
        · rw [List.getElem?_set]
          rw [if_pos rfl, if_pos (by simpa using hx)]
        · intro r hr
          rcases hdist r (List.mem_cons_of_mem _ hr) with h1 | h1
          · exact absurd (h1 ▸ hr) hin
          · exact ⟨fun he => h1.1 he.symm, fun he => h1.2 he.symm⟩

/-- Bracket shape of a token: open, close, or neither. -/
def brkShape (t : BfToken) : Option Bool :=
  if isStartT t then some true else if isEndT t then some false else none

lemma brkShape_none_iff {t : BfToken} :
    brkShape t = none ↔ isStartT t = false ∧ isEndT t = false := by
  cases t <;> simp [brkShape, isStartT, isEndT]

lemma brkShape_start_iff {t : BfToken} :
    brkShape t = some true ↔ ∃ tg, t = .LoopStart tg := by
  cases t <;> simp [brkShape, isStartT, isEndT]

lemma brkShape_end_iff {t : BfToken} :
    brkShape t = some false ↔ ∃ tg, t = .LoopEnd tg := by
  cases t <;> simp [brkShape, isStartT, isEndT]

lemma closes_of_shape_eq {a : List BfToken} {n : Nat} (h : Closes a n) :
    ∀ {b : List BfToken}, a.map brkShape = b.map brkShape → Closes b n := by
  induction h with
  | nil =>
      intro b hb
      cases b with
      | nil => exact Closes.nil
      | cons t2 b2 => simp at hb
  | atom h1 h2 _ ih =>
      intro b hb
      cases b with
      | nil => simp at hb
      | cons t2 b2 =>
          simp only [List.map_cons] at hb
          obtain ⟨h3, h4⟩ := List.cons.inj hb
          have h5 : brkShape t2 = none := by
            rw [← h3, brkShape_none_iff]
            exact ⟨h1, h2⟩
          rw [brkShape_none_iff] at h5
          exact Closes.atom h5.1 h5.2 (ih h4)
  | close _ ih =>
      intro b hb
      cases b with
      | nil => simp at hb
      | cons t2 b2 =>
          simp only [List.map_cons] at hb
          obtain ⟨h3, h4⟩ := List.cons.inj hb
          have h5 : brkShape t2 = some false := by
            rw [← h3]
            rfl
          rw [brkShape_end_iff] at h5
          obtain ⟨tg2, rfl⟩ := h5
          exact Closes.close (ih h4)
  | opn _ ih =>
      intro b hb
      cases b with
      | nil => simp at hb
      | cons t2 b2 =>
          simp only [List.map_cons] at hb
          obtain ⟨h3, h4⟩ := List.cons.inj hb
          have h5 : brkShape t2 = some true := by
            rw [← h3]
            rfl
          rw [brkShape_start_iff] at h5
          obtain ⟨tg2, rfl⟩ := h5
          exact Closes.opn (ih h4)

lemma shape_at_start {a b : List BfToken}
    (hm : a.map brkShape = b.map brkShape) {j tg : Nat}
    (h : a[j]? = some (.LoopStart tg)) :
    ∃ tg2, b[j]? = some (.LoopStart tg2) := by
  have h1 : (a.map brkShape)[j]? = some (some true) := by
    rw [List.getElem?_map, h]
    rfl
  rw [hm, List.getElem?_map] at h1
  cases hb : b[j]? with
  | none => rw [hb] at h1; exact Option.noConfusion h1
  | some t2 =>
      rw [hb] at h1
      have h2 : brkShape t2 = some true := Option.some.inj h1
      obtain ⟨tg2, rfl⟩ := brkShape_start_iff.mp h2
      exact ⟨tg2, rfl⟩

lemma shape_at_end {a b : List BfToken}
    (hm : a.map brkShape = b.map brkShape) {j tg : Nat}
    (h : a[j]? = some (.LoopEnd tg)) :
    ∃ tg2, b[j]? = some (.LoopEnd tg2) := by
  have h1 : (a.map brkShape)[j]? = some (some false) := by
    rw [List.getElem?_map, h]
    rfl
  rw [hm, List.getElem?_map] at h1
  cases hb : b[j]? with
  | none => rw [hb] at h1; exact Option.noConfusion h1
  | some t2 =>
      rw [hb] at h1
      have h2 : brkShape t2 = some false := Option.some.inj h1
      obtain ⟨tg2, rfl⟩ := brkShape_end_iff.mp h2
      exact ⟨tg2, rfl⟩

lemma sliceB_map_shape {a b : List BfToken}
    (hm : a.map brkShape = b.map brkShape) (x y : Nat) :
    (sliceB a x y).map brkShape = (sliceB b x y).map brkShape := by
  rw [sliceB, sliceB, List.map_take, List.map_drop, List.map_take,
    List.map_drop, hm]

lemma isMatch_of_shape_eq {a b : List BfToken}
    (hm : a.map brkShape = b.map brkShape) {j q : Nat}
    (h : IsMatch a j q) : IsMatch b j q := by
  obtain ⟨h1, h2, ⟨tg1, h3⟩, ⟨tg2, h4⟩, h5⟩ := h
  have hlen : a.length = b.length := by
    have := congrArg List.length hm
    simpa using this
  refine ⟨h1, by omega, shape_at_start hm h3, shape_at_end hm h4, ?_⟩
  exact closes_of_shape_eq h5 (sliceB_map_shape hm (j + 1) q)


lemma applyPairs_shape (prs : List (Nat × Nat)) :
    ∀ toks : List BfToken,
      (∀ p ∈ prs, (∃ tg, toks[p.1]? = some (.LoopStart tg))
        ∧ (∃ tg, toks[p.2]? = some (.LoopEnd tg))) →
      (applyPairs prs toks).map brkShape = toks.map brkShape := by
  induction prs with
  | nil => intro toks _; rfl
  | cons p prs ih =>
      intro toks hsh
      obtain ⟨⟨tg1, h1⟩, ⟨tg2, h2⟩⟩ := hsh p (List.mem_cons_self _ _)
      have hb1 : p.1 < toks.length := by
        by_contra hge
        rw [List.getElem?_eq_none (by omega)] at h1
        exact Option.noConfusion h1
      have hb2 : p.2 < toks.length := by
        by_contra hge
        rw [List.getElem?_eq_none (by omega)] at h2
        exact Option.noConfusion h2
      have hm2 : ((toks.set p.1 (.LoopStart p.2)).set p.2
          (.LoopEnd p.1)).map brkShape = toks.map brkShape := by
        apply List.ext_getElem?
        intro k
        rw [List.getElem?_map, List.getElem?_map]
        by_cases hk2 : k = p.2
        · subst hk2
          rw [List.getElem?_set, if_pos rfl,
            if_pos (by simpa using hb2), h2]
          rfl
        · rw [List.getElem?_set_ne (fun he => hk2 he.symm)]
          by_cases hk1 : k = p.1
          · subst hk1
            rw [List.getElem?_set, if_pos rfl, if_pos hb1, h1]
            rfl
          · rw [List.getElem?_set_ne (fun he => hk1 he.symm)]
      rw [applyPairs_cons, ih _ ?_, hm2]
      intro r hr
      obtain ⟨⟨tg3, h3⟩, ⟨tg4, h4⟩⟩ := hsh r (List.mem_cons_of_mem _ hr)
      exact ⟨shape_at_start hm2.symm h3, shape_at_end hm2.symm h4⟩

lemma pairwise_distinct {prs : List (Nat × Nat)}
    (h : prs.Pairwise (fun p r => p.1 ≠ r.1 ∧ p.2 < r.2)) :
    ∀ pq ∈ prs, ∀ r ∈ prs, pq = r ∨ (pq.1 ≠ r.1 ∧ pq.2 ≠ r.2) := by
  induction prs with
  | nil => simp
  | cons a l ih =>
      have ha := List.pairwise_cons.mp h
      intro pq hpq r hr
      rcases List.mem_cons.mp hpq with rfl | hpq2
      · rcases List.mem_cons.mp hr with h3 | h3
        · exact Or.inl h3.symm
        · obtain ⟨hne, hlt⟩ := ha.1 r h3
          exact Or.inr ⟨hne, by omega⟩
      · rcases List.mem_cons.mp hr with h3 | h3
        · obtain ⟨hne, hlt⟩ := ha.1 pq hpq2
          subst h3
          exact Or.inr ⟨fun he => hne he.symm, by omega⟩
        · exact ih ha.2 pq hpq2 r h3

/-- Spec-side notion of a source string with balanced brackets: any
non-bracket character is inert, and brackets nest as a Dyck language. -/
inductive BalancedChars : List Char → Prop where
  | nil : BalancedChars []
  | atom {c : Char} {s : List Char} :
      c ≠ '[' → c ≠ ']' → BalancedChars s → BalancedChars (c :: s)
  | wrap {inner rest : List Char} :
      BalancedChars inner → BalancedChars rest →
      BalancedChars ('[' :: inner ++ ']' :: rest)

lemma charToToken_not_start {c : Char} (h : c ≠ '[') :
    isStartT (charToToken c) = false := by
  unfold charToToken
  split_ifs <;> simp_all [isStartT]

lemma charToToken_not_end {c : Char} (h : c ≠ ']') :
    isEndT (charToToken c) = false := by
  unfold charToToken
  split_ifs <;> simp_all [isEndT]

lemma balancedChars_closes {s : List Char} (h : BalancedChars s) :
    Closes (s.map charToToken) 0 := by
  induction h with
  | nil => exact Closes.nil
  | atom h1 h2 _ ih =>
      rw [List.map_cons]
      exact Closes.atom (charToToken_not_start h1)
        (charToToken_not_end h2) ih
  | wrap _ _ ih1 ih2 =>
      rw [List.map_append, List.map_cons, List.map_cons, List.cons_append,
        show charToToken ']' = BfToken.LoopEnd 0 from rfl,
        show charToToken '[' = BfToken.LoopStart 0 from rfl]
      exact Closes.opn (closes_append ih1 (Closes.close ih2))

/-- Claim C4: for every source string with balanced brackets, `parse`
succeeds, and in the result every `LoopStart` token's resolved target is
the index of its syntactically matching `LoopEnd` (the segment strictly
between them is balanced), and symmetrically for every `LoopEnd`. -/
theorem parse_resolves_matches (s : List Char) (hbal : BalancedChars s) :
    ∃ toks, parse s = .ok toks
      ∧ (∀ x tg, toks[x]? = some (.LoopStart tg) → IsMatch toks x tg)
      ∧ (∀ x tg, toks[x]? = some (.LoopEnd tg) → IsMatch toks tg x) := by
  have hcl : Closes (s.map charToToken) 0 := balancedChars_closes hbal
  obtain ⟨prs, hchk⟩ :=
    closes_chk_ok (s.map charToToken) 0 [] (by simpa using hcl)
  have hbr : parse s = .ok (applyPairs prs (s.map charToToken)) := by
    rw [parse, lmGo_eq_chk _ 0 [] (by simp), List.drop_zero, hchk]
    rfl
  have F := chk_ok_facts (s.map charToToken) 0 [] prs (s.map charToToken)
    (List.drop_zero _) (StInv.nil _) hchk
  have hmatches := F.1
  have hcovS := F.2.2.1
  have hcovE := F.2.2.2.1
  have hpw := F.2.2.2.2.2
  have hshapes : ∀ p ∈ prs,
      (∃ tg, (s.map charToToken)[p.1]? = some (.LoopStart tg))
      ∧ (∃ tg, (s.map charToToken)[p.2]? = some (.LoopEnd tg)) :=
    fun p hp => ⟨(hmatches p hp).2.2.1, (hmatches p hp).2.2.2.1⟩
  have hpres : (applyPairs prs (s.map charToToken)).map brkShape
      = (s.map charToToken).map brkShape :=
    applyPairs_shape prs (s.map charToToken) hshapes
  have hdist := pairwise_distinct hpw
  have hcross : ∀ pq ∈ prs, ∀ r ∈ prs, pq.1 ≠ r.2 := by
    intro pq hpq r hr heq
    obtain ⟨tg1, h1⟩ := (hshapes pq hpq).1
    obtain ⟨tg2, h2⟩ := (hshapes r hr).2
    rw [heq] at h1
    rw [h1] at h2
    exact BfToken.noConfusion (Option.some.inj h2)
  have hfull : ∀ pq ∈ prs, ∀ r ∈ prs,
      pq = r ∨ (pq.1 ≠ r.1 ∧ pq.1 ≠ r.2) := by
    intro pq hpq r hr
    rcases hdist pq hpq r hr with h1 | h1
    · exact Or.inl h1
    · exact Or.inr ⟨h1.1, hcross pq hpq r hr⟩
  have hfull2 : ∀ pq ∈ prs, ∀ r ∈ prs,
      pq = r ∨ (pq.2 ≠ r.1 ∧ pq.2 ≠ r.2) := by
    intro pq hpq r hr
    rcases hdist pq hpq r hr with h1 | h1
    · exact Or.inl h1
    · refine Or.inr ⟨fun he => hcross r hr pq hpq he.symm, h1.2⟩
  refine ⟨applyPairs prs (s.map charToToken), hbr, ?_, ?_⟩
  · intro x tg htoks
    obtain ⟨tg0, hx0⟩ := shape_at_start hpres htoks
    obtain ⟨r, hr⟩ := hcovS x (Nat.zero_le x) ⟨tg0, hx0⟩
    have hm := hmatches (x, r) hr
    have heval : (applyPairs prs (s.map charToToken))[x]?
        = some (.LoopStart r) := by
      apply applyPairs_getElem_fst prs _ x r hr
      · have h1 : x < r := hm.1
        have h2 : r < (s.map charToToken).length := hm.2.1
        omega
      · have h1 : x < r := hm.1
        omega
      · intro r2 hr2
        exact hfull (x, r) hr r2 hr2
    rw [htoks] at heval
    have htg : tg = r := by
      have := Option.some.inj heval
      cases this
      rfl
    subst htg
    exact isMatch_of_shape_eq hpres.symm hm
  · intro x tg htoks
    obtain ⟨tg0, hx0⟩ := shape_at_end hpres htoks
    obtain ⟨r, hr⟩ := hcovE x (Nat.zero_le x) ⟨tg0, hx0⟩
    have hm := hmatches (r, x) hr
    have heval : (applyPairs prs (s.map charToToken))[x]?
        = some (.LoopEnd r) := by
      apply applyPairs_getElem_snd prs _ r x hr
      · exact hm.2.1
      · have h1 : r < x := hm.1
        omega
      · intro r2 hr2
        rcases hfull2 (r, x) hr r2 hr2 with h1 | h1
        · exact Or.inl h1
        · exact Or.inr h1
    rw [htoks] at heval
    have htg : tg = r := by
      have := Option.some.inj heval
      cases this
      rfl
    subst htg
    exact isMatch_of_shape_eq hpres.symm hm

/-- Witness for `parse_resolves_matches` on the concrete source `"[]"`. -/
theorem parse_resolves_matches_witness :
    ∃ toks, parse [Char.ofNat 91, Char.ofNat 93] = .ok toks
      ∧ (∀ x tg, toks[x]? = some (.LoopStart tg) → IsMatch toks x tg)
      ∧ (∀ x tg, toks[x]? = some (.LoopEnd tg) → IsMatch toks tg x) :=
  parse_resolves_matches [Char.ofNat 91, Char.ofNat 93]
    (BalancedChars.wrap BalancedChars.nil BalancedChars.nil)


/-- Signed bracket contribution of a source character. -/
def chDelta (c : Char) : Int :=
  if c = '[' then 1 else if c = ']' then -1 else 0

/-- Running bracket balance of a source prefix. -/
def chBal : List Char → Int
  | [] => 0
  | c :: s => chDelta c + chBal s

lemma tokDelta_charToToken (c : Char) :
    tokDelta (charToToken c) = chDelta c := by
  by_cases h1 : c = '['
  · subst h1; rfl
  · by_cases h2 : c = ']'
    · subst h2; rfl
    · rw [chDelta, if_neg h1, if_neg h2, tokDelta,
        if_neg (by simp [charToToken_not_start h1]),
        if_neg (by simp [charToToken_not_end h2])]

lemma tokBal_map (s : List Char) :
    tokBal (s.map charToToken) = chBal s := by
  induction s with
  | nil => rfl
  | cons c s ih =>
      rw [List.map_cons, tokBal, chBal, ih, tokDelta_charToToken]

lemma tokBal_map_take (s : List Char) (k : Nat) :
    tokBal ((s.map charToToken).take k) = chBal (s.take k) := by
  rw [← List.map_take, tokBal_map]

lemma tokBal_take_succ (t : BfToken) (ts : List BfToken) (k : Nat) :
    tokBal ((t :: ts).take (k + 1)) = tokDelta t + tokBal (ts.take k) := by
  rw [List.take_succ_cons]
  rfl

lemma tokDelta_of_start {t : BfToken} (h : isStartT t = true) :
    tokDelta t = 1 := by
  rw [tokDelta, if_pos h]

lemma tokDelta_of_end {t : BfToken} (h1 : isStartT t = false)
    (h2 : isEndT t = true) : tokDelta t = -1 := by
  rw [tokDelta, if_neg (by simp [h1]), if_pos h2]

lemma tokDelta_of_atom {t : BfToken} (h1 : isStartT t = false)
    (h2 : isEndT t = false) : tokDelta t = 0 := by
  rw [tokDelta, if_neg (by simp [h1]), if_neg (by simp [h2])]

/-- If the running depth (stack length plus balance) first reaches zero at
position `d` where a `LoopEnd` sits, the scan fails exactly there. -/
lemma chk_error_close (ts : List BfToken) :
    ∀ (st : List Nat) (i0 d : Nat),
      (∀ k, k ≤ d → 0 ≤ (st.length : Int) + tokBal (ts.take k)) →
      (st.length : Int) + tokBal (ts.take d) = 0 →
      (∃ tg, ts[d]? = some (.LoopEnd tg)) →
      chk i0 ts st = .error (.LoopNotClosed (i0 + d)) := by
  induction ts with
  | nil =>
      intro st i0 d _ _ he
      obtain ⟨tg, htg⟩ := he
      rw [List.getElem?_eq_none (by simp)] at htg
      exact Option.noConfusion htg
  | cons t ts ih =>
      intro st i0 d hnn hz he
      cases d with
      | zero =>
          have hst : st = [] := by
            rw [List.take_zero] at hz
            have : (st.length : Int) = 0 := by
              simpa [tokBal] using hz
            have hl : st.length = 0 := by exact_mod_cast this
            exact List.length_eq_zero.mp hl
          subst hst
          obtain ⟨tg, htg⟩ := he
          have ht : t = .LoopEnd tg := by simpa using htg
          subst ht
          rw [chk_cons, if_neg (by simp [isStartT]),
            if_pos (by simp [isEndT]), Nat.add_zero]
          rfl
      | succ d =>
          by_cases hs : isStartT t = true
          · rw [chk_cons, if_pos hs]
            have hres := ih (i0 :: st) (i0 + 1) d ?_ ?_ ?_
            · rw [show i0 + (d + 1) = (i0 + 1) + d from by omega]
              exact hres
            · intro k hk
              have := hnn (k + 1) (by omega)
              rw [tokBal_take_succ, tokDelta_of_start hs] at this
              simp only [List.length_cons]
              push_cast at this ⊢
              omega
            · have := hz
              rw [tokBal_take_succ, tokDelta_of_start hs] at this
              simp only [List.length_cons]
              push_cast at this ⊢
              omega
            · obtain ⟨tg, htg⟩ := he
              exact ⟨tg, by simpa using htg⟩
          · by_cases hend : isEndT t = true
            · obtain ⟨tg, rfl⟩ := isEndT_iff.mp hend
              match st with
              | [] =>
                  exfalso
                  have := hnn 1 (by omega)
                  rw [tokBal_take_succ,
                    tokDelta_of_end (by simpa using hs) hend] at this
                  simp only [List.length_nil, List.take_zero] at this
                  rw [show tokBal [] = 0 from rfl] at this
                  omega
              | j :: rest =>
                  rw [chk_cons, if_neg hs, if_pos hend]
                  have hres := ih rest (i0 + 1) d ?_ ?_ ?_
                  · show (chk (i0 + 1) ts rest).map
                        (fun prs => (j, i0) :: prs) = _
                    rw [show i0 + (d + 1) = (i0 + 1) + d from by omega,
                      hres]
                    rfl
                  · intro k hk
                    have := hnn (k + 1) (by omega)
                    rw [tokBal_take_succ,
                      tokDelta_of_end (by simpa using hs) hend] at this
                    simp only [List.length_cons] at this
                    push_cast at this ⊢
                    omega
                  · have := hz
                    rw [tokBal_take_succ,
                      tokDelta_of_end (by simpa using hs) hend] at this
                    simp only [List.length_cons] at this
                    push_cast at this ⊢
                    omega
                  · obtain ⟨tg2, htg⟩ := he
                    exact ⟨tg2, by simpa using htg⟩
            · rw [chk_cons, if_neg hs, if_neg hend]
              have hres := ih st (i0 + 1) d ?_ ?_ ?_
              · rw [show i0 + (d + 1) = (i0 + 1) + d from by omega]
                exact hres
              · intro k hk
                have := hnn (k + 1) (by omega)
                rw [tokBal_take_succ, tokDelta_of_atom (by simpa using hs)
                  (by simpa using hend)] at this
                push_cast at this ⊢
                omega
              · have := hz
                rw [tokBal_take_succ, tokDelta_of_atom (by simpa using hs)
                  (by simpa using hend)] at this
                push_cast at this ⊢
                omega
              · obtain ⟨tg, htg⟩ := he
                exact ⟨tg, by simpa using htg⟩

/-- Claim C5: for a source whose bracket depth first becomes negative at
character position `i` (the prefix before `i` has non-negative running
balance, balance exactly zero at `i`, and `s[i] = ']'` — i.e. an unmatched
close at `i` with no unmatched open before it), `parse` fails with
`UnmatchedLoopError(i)`. -/
theorem parse_unmatched_close (s : List Char) (i : Nat)
    (h1 : ∀ j, j ≤ i → 0 ≤ chBal (s.take j))
    (h2 : chBal (s.take i) = 0)
    (h3 : s[i]? = some ']') :
    parse s = .error (.LoopNotClosed i) := by
  rw [parse, lmGo_eq_chk _ 0 [] (by simp), List.drop_zero]
  have hq := chk_error_close (s.map charToToken) [] 0 i ?_ ?_ ?_
  · rw [hq]
    simp [Except.map]
  · intro k hk
    rw [tokBal_map_take]
    simpa using h1 k hk
  · rw [tokBal_map_take]
    simpa using h2
  · refine ⟨0, ?_⟩
    rw [List.getElem?_map, h3]
    rfl

/-- Witness for `parse_unmatched_close` on the concrete source `"[]]"`,
which fails with `UnmatchedLoopError(2)`. -/
theorem parse_unmatched_close_witness :
    parse ['[', ']', ']'] = .error (.LoopNotClosed 2) :=
  parse_unmatched_close ['[', ']', ']'] 2
    (by intro j hj; interval_cases j <;> decide)
    (by decide) (by decide)


lemma tokBal_append (a b : List BfToken) :
    tokBal (a ++ b) = tokBal a + tokBal b := by
  induction a with
  | nil => simp [tokBal]
  | cons t a ih =>
      rw [List.cons_append, tokBal, tokBal, ih]
      ring

lemma sliceB_cons (t : BfToken) (ts : List BfToken) (a b : Nat) :
    sliceB (t :: ts) (a + 1) (b + 1) = sliceB ts a b := by
  rw [sliceB, sliceB, List.drop_succ_cons, Nat.succ_sub_succ]

lemma sliceB_of_drop (l : List BfToken) (c x y : Nat) :
    sliceB (l.drop c) x y = sliceB l (c + x) (c + y) := by
  rw [sliceB, sliceB, List.drop_drop,
    show c + y - (c + x) = y - x from by omega]

lemma sliceB_to_end (l : List BfToken) (a : Nat) :
    sliceB l a l.length = l.drop a := by
  rw [sliceB]
  exact List.take_of_length_le (by rw [List.length_drop])

lemma sliceB_prefix_left (a r : List BfToken) (x y : Nat)
    (hx : x ≤ a.length) (hy : y ≤ a.length) :
    sliceB (a ++ r) x y = sliceB a x y := by
  rw [sliceB, sliceB, List.drop_append_eq_append_drop,
    List.take_append_eq_append_take]
  rw [show x - a.length = 0 from by omega, List.drop_zero]
  rw [show y - x - (List.drop x a).length = 0 from by
      rw [List.length_drop]; omega,
    List.take_zero, List.append_nil]

/-- Match-within: position `q` closes the loop opened before position
`m + 1`, with a balanced segment in between. -/
def MW (seg : List BfToken) (m q : Nat) : Prop :=
  m < q ∧ q < seg.length ∧ (∃ tg2, seg[q]? = some (.LoopEnd tg2))
  ∧ Closes (sliceB seg (m + 1) q) 0

lemma MW_cons (t : BfToken) {ts : List BfToken} {m q : Nat}
    (h : MW ts m q) : MW (t :: ts) (m + 1) (q + 1) := by
  obtain ⟨h1, h2, h3, h4⟩ := h
  refine ⟨by omega, by simp; omega, ?_, ?_⟩
  · rw [List.getElem?_cons_succ]
    exact h3
  · rw [sliceB_cons]
    exact h4

lemma MW_append_left {a : List BfToken} (r : List BfToken) {m q : Nat}
    (h : MW a m q) : MW (a ++ r) m q := by
  obtain ⟨h1, h2, ⟨tg, h3⟩, h4⟩ := h
  refine ⟨h1, by simp; omega, ⟨tg, ?_⟩, ?_⟩
  · rw [List.getElem?_append, if_pos h2]
    exact h3
  · rw [sliceB_prefix_left a r _ _ (by omega) (by omega)]
    exact h4

lemma sliceB_suffix_right (a seg : List BfToken) (x y : Nat)
    (hx : a.length ≤ x) :
    sliceB (a ++ seg) x y = sliceB seg (x - a.length) (y - a.length) := by
  rw [sliceB, sliceB, List.drop_append_eq_append_drop,
    List.drop_eq_nil_iff.mpr (by omega), List.nil_append,
    show y - a.length - (x - a.length) = y - x from by omega]

lemma MW_append_right (a : List BfToken) {seg : List BfToken} {m q : Nat}
    (h : MW seg m q) : MW (a ++ seg) (a.length + m) (a.length + q) := by
  obtain ⟨h1, h2, ⟨tg, h3⟩, h4⟩ := h
  refine ⟨by omega, by simp; omega, ⟨tg, ?_⟩, ?_⟩
  · rw [List.getElem?_append, if_neg (by omega),
      show a.length + q - a.length = q from by omega]
    exact h3
  · rw [show a.length + m + 1 = a.length + (m + 1) from by omega,
      sliceB_suffix_right a seg _ _ (by omega),
      show a.length + (m + 1) - a.length = m + 1 from by omega,
      show a.length + q - a.length = q from by omega]
    exact h4


/-- Inside any balanced segment every loop start is matched within the
segment. -/
lemma closes_zero_match {seg : List BfToken} (hcl : Closes seg 0) :
    ∀ m tg, seg[m]? = some (.LoopStart tg) → ∃ q, MW seg m q := by
  cases hseg : seg with
  | nil =>
      intro m tg hm
      rw [List.getElem?_eq_none (by simp)] at hm
      exact Option.noConfusion hm
  | cons t ts =>
      intro m tg hm
      rw [hseg] at hcl
      by_cases hs : isStartT t = true
      · obtain ⟨tg0, rfl⟩ := isStartT_iff.mp hs
        obtain ⟨a, tg1, b, hb1, ha1, hc1⟩ :=
          closes_succ_split (closes_cons_start hcl)
        subst hb1
        cases m with
        | zero =>
            refine ⟨a.length + 1, by omega, ?_, ⟨tg1, ?_⟩, ?_⟩
            · simp only [List.length_cons, List.length_append]
              omega
            · rw [List.getElem?_cons_succ, List.getElem?_append,
                if_neg (by omega), Nat.sub_self]
              exact List.getElem?_cons_zero
            · rw [show (0 : Nat) + 1 = 1 from rfl]
              have : sliceB (BfToken.LoopStart tg0 ::
                  (a ++ .LoopEnd tg1 :: b)) 1 (a.length + 1)
                  = sliceB (a ++ .LoopEnd tg1 :: b) 0 a.length := by
                rw [show (1 : Nat) = 0 + 1 from rfl,
                  show a.length + 1 = a.length + 0 + 1 from by omega,
                  sliceB_cons]
              rw [this, sliceB_prefix_left a _ 0 a.length (by omega)
                (le_refl _), sliceB, List.drop_zero, Nat.sub_zero,
                List.take_length]
              exact ha1
        | succ m =>
            rw [List.getElem?_cons_succ] at hm
            rcases Nat.lt_trichotomy m a.length with hlt | heq | hgt
            · rw [List.getElem?_append, if_pos hlt] at hm
              obtain ⟨q, hq⟩ := closes_zero_match ha1 m tg hm
              exact ⟨q + 1, MW_cons _ (MW_append_left _ hq)⟩
            · subst heq
              rw [List.getElem?_append, if_neg (by omega),
                Nat.sub_self, List.getElem?_cons_zero] at hm
              exact absurd (Option.some.inj hm) (by simp)
            · rw [List.getElem?_append, if_neg (by omega)] at hm
              have hm2 : b[m - a.length - 1]? = some (.LoopStart tg) := by
                rw [show m - a.length = (m - a.length - 1) + 1 from
                  by omega, List.getElem?_cons_succ] at hm
                exact hm
              obtain ⟨q, hq⟩ := closes_zero_match hc1 _ tg hm2
              have hstep := MW_append_right (.LoopStart tg0 :: a
                ++ [.LoopEnd tg1]) hq
              have hlen : (BfToken.LoopStart tg0 :: a
                  ++ [BfToken.LoopEnd tg1]).length = a.length + 2 := by
                simp
              rw [hlen] at hstep
              have hassoc : (BfToken.LoopStart tg0 :: a
                  ++ [BfToken.LoopEnd tg1]) ++ b
                  = BfToken.LoopStart tg0 :: (a ++ .LoopEnd tg1 :: b) := by
                simp
              rw [hassoc] at hstep
              refine ⟨a.length + 2 + q, ?_⟩
              rw [show m + 1 = a.length + 2 + (m - a.length - 1) from
                by omega]
              exact hstep
      · by_cases hend : isEndT t = true
        · obtain ⟨tg0, rfl⟩ := isEndT_iff.mp hend
          obtain ⟨n2, hn2, _⟩ := closes_cons_end hcl
          exact absurd hn2 (by omega)
        · have hcl2 : Closes ts 0 :=
            closes_cons_atom t (by simpa using hs) (by simpa using hend) hcl
          cases m with
          | zero =>
              rw [List.getElem?_cons_zero] at hm
              have h7 := Option.some.inj hm
              rw [h7] at hs
              exact absurd hs (by simp [isStartT])
          | succ m =>
              rw [List.getElem?_cons_succ] at hm
              obtain ⟨q, hq⟩ := closes_zero_match hcl2 m tg hm
              exact ⟨q + 1, MW_cons _ hq⟩
termination_by seg.length
decreasing_by
  all_goals subst hseg
  all_goals simp only [List.length_cons, List.length_append]
  all_goals omega


/-- A loop start whose entire tail is balanced has no matching close. -/
lemma no_match_of_closes_tail {orig : List BfToken} {j0 : Nat}
    (hbig : Closes (orig.drop (j0 + 1)) 0) {q : Nat}
    (h : IsMatch orig j0 q) : False := by
  obtain ⟨hjq, hqlen, _, ⟨tg2, hq2⟩, hslice⟩ := h
  have hA : tokBal (sliceB orig (j0 + 1) q) = 0 := by
    have := closes_bal hslice
    simpa using this
  have hq2e : orig[q] = .LoopEnd tg2 := by
    rw [List.getElem?_eq_getElem hqlen] at hq2
    exact Option.some.inj hq2
  have hbigtake : (orig.drop (j0 + 1)).take (q - j0)
      = sliceB orig (j0 + 1) q ++ [orig[q]] := by
    have h1 : (orig.drop (j0 + 1)).take (q - j0)
        = sliceB orig (j0 + 1) (q + 1) := by
      rw [sliceB, show q + 1 - (j0 + 1) = q - j0 from by omega]
    rw [h1, sliceB_snoc orig (j0 + 1) q (by omega) hqlen]
  have h1 := closes_take_nonneg hbig (q - j0)
  rw [hbigtake, tokBal_append, hA] at h1
  rw [show tokBal [orig[q]] = tokDelta orig[q] + 0 from rfl, hq2e,
    show tokDelta (.LoopEnd tg2) = -1 from rfl] at h1
  omega

/-- On input whose running depth never goes negative but ends positive,
the scan consumes everything and fails at the innermost pending open,
with the stack invariant holding at end of input. -/
lemma chk_nodip (ts : List BfToken) :
    ∀ (i : Nat) (st : List Nat) (orig : List BfToken),
      orig.drop i = ts → StInv orig i st →
      (∀ k, k ≤ ts.length → 0 ≤ (st.length : Int) + tokBal (ts.take k)) →
      0 < (st.length : Int) + tokBal ts →
      ∃ j stf, chk i ts st = .error (.LoopNotClosed j)
        ∧ StInv orig (i + ts.length) (j :: stf) := by
  induction ts with
  | nil =>
      intro i st orig heq hstv hnn hpos
      match st with
      | [] =>
          exfalso
          rw [show tokBal [] = 0 from rfl] at hpos
          simp at hpos
      | j :: stf =>
          refine ⟨j, stf, rfl, ?_⟩
          rw [show i + List.length [] = i from by simp]
          exact hstv
  | cons t ts ih =>
      intro i st orig heq hstv hnn hpos
      obtain ⟨hi, horig, hts⟩ := drop_cons_facts heq
      have horigi : orig[i] = t := by
        rw [List.getElem?_eq_getElem hi] at horig
        exact Option.some.inj horig
      by_cases hs : isStartT t = true
      · rw [chk_cons, if_pos hs]
        obtain ⟨tg, rfl⟩ := isStartT_iff.mp hs
        have hres2 := ih (i + 1) (i :: st) orig hts.symm
          (stinv_push hstv hi ⟨tg, horig⟩) ?_ ?_
        · obtain ⟨j, stf, hres, hstv2⟩ := hres2
          refine ⟨j, stf, hres, ?_⟩
          rw [show i + (BfToken.LoopStart tg :: ts).length
            = (i + 1) + ts.length from by
              simp only [List.length_cons]
              omega]
          exact hstv2
        · intro k hk
          have := hnn (k + 1) (by simpa using hk)
          rw [tokBal_take_succ, tokDelta_of_start hs] at this
          simp only [List.length_cons]
          push_cast at this ⊢
          omega
        · have := hpos
          rw [show tokBal (BfToken.LoopStart tg :: ts)
              = tokDelta (BfToken.LoopStart tg) + tokBal ts from rfl,
            tokDelta_of_start hs] at this
          simp only [List.length_cons]
          push_cast at this ⊢
          omega
      · by_cases hend : isEndT t = true
        · obtain ⟨tg, rfl⟩ := isEndT_iff.mp hend
          match st, hstv with
          | [], _ =>
              exfalso
              have := hnn 1 (by simp)
              rw [tokBal_take_succ,
                tokDelta_of_end (by simpa using hs) hend] at this
              simp only [List.length_nil, List.take_zero] at this
              rw [show tokBal [] = 0 from rfl] at this
              omega
          | j :: rest, hstv =>
              rw [chk_cons, if_neg hs, if_pos hend]
              obtain ⟨hstv2, _⟩ := stinv_pop hstv hi ⟨tg, horig⟩
              have hres2 := ih (i + 1) rest orig hts.symm hstv2 ?_ ?_
              · obtain ⟨j2, stf, hres, hstv3⟩ := hres2
                refine ⟨j2, stf, ?_, ?_⟩
                · show (chk (i + 1) ts rest).map
                      (fun prs => (j, i) :: prs) = _
                  rw [hres]
                  rfl
                · rw [show i + (BfToken.LoopEnd tg :: ts).length
                    = (i + 1) + ts.length from by
                      simp only [List.length_cons]
                      omega]
                  exact hstv3
              · intro k hk
                have := hnn (k + 1) (by simpa using hk)
                rw [tokBal_take_succ,
                  tokDelta_of_end (by simpa using hs) hend] at this
                simp only [List.length_cons] at this
                push_cast at this ⊢
                omega
              · have := hpos
                rw [show tokBal (BfToken.LoopEnd tg :: ts)
                    = tokDelta (BfToken.LoopEnd tg) + tokBal ts from rfl,
                  tokDelta_of_end (by simpa using hs) hend] at this
                simp only [List.length_cons] at this
                push_cast at this ⊢
                omega
        · rw [chk_cons, if_neg hs, if_neg hend]
          have hres2 := ih (i + 1) st orig hts.symm
            (stinv_atom hstv hi (by rw [horigi]; simpa using hs)
              (by rw [horigi]; simpa using hend)) ?_ ?_
          · obtain ⟨j, stf, hres, hstv2⟩ := hres2
            refine ⟨j, stf, hres, ?_⟩
            rw [show i + (t :: ts).length = (i + 1) + ts.length from by
              simp only [List.length_cons]
              omega]
            exact hstv2
          · intro k hk
            have := hnn (k + 1) (by simpa using hk)
            rw [tokBal_take_succ, tokDelta_of_atom (by simpa using hs)
              (by simpa using hend)] at this
            push_cast at this ⊢
            omega
          · have := hpos
            rw [show tokBal (t :: ts) = tokDelta t + tokBal ts from rfl,
              tokDelta_of_atom (by simpa using hs)
                (by simpa using hend)] at this
            push_cast at this ⊢
            omega


lemma charToToken_start_inv {c : Char} {tg : Nat}
    (h : charToToken c = .LoopStart tg) : c = '[' := by
  by_contra hne
  have h2 := charToToken_not_start hne
  rw [h] at h2
  simp [isStartT] at h2

/-- Claim C6: for a source with no unmatched close (running balance never
negative) and at least one unmatched open (positive final balance),
`parse` fails with `UnmatchedLoopError` carrying the index of the
innermost — that is, the largest-index — unmatched `'['`: the character
`jstar` is an open bracket with no syntactic match, and every open bracket
after it has one. -/
theorem parse_unclosed_open (s : List Char) (jstar : Nat)
    (h1 : ∀ k, k ≤ s.length → 0 ≤ chBal (s.take k))
    (h2 : 0 < chBal s)
    (h3 : s[jstar]? = some '[')
    (h4 : ∀ q, ¬ IsMatch (s.map charToToken) jstar q)
    (h5 : ∀ j, jstar < j → s[j]? = some '[' →
      ∃ q, IsMatch (s.map charToToken) j q) :
    parse s = .error (.LoopNotClosed jstar) := by
  have hside1 : ∀ k, k ≤ (s.map charToToken).length →
      0 ≤ ((([] : List Nat).length : Int))
        + tokBal ((s.map charToToken).take k) := by
    intro k hk
    rw [tokBal_map_take]
    have := h1 k (by simpa using hk)
    simpa using this
  have hside2 : 0 < ((([] : List Nat).length : Int))
      + tokBal (s.map charToToken) := by
    rw [tokBal_map]
    simpa using h2
  obtain ⟨j0, stf, herr, hstv⟩ := chk_nodip (s.map charToToken) 0 []
    (s.map charToToken) (List.drop_zero _) (StInv.nil _) hside1 hside2
  have hpar : parse s = .error (.LoopNotClosed j0) := by
    rw [parse, lmGo_eq_chk _ 0 [] (by simp), List.drop_zero, herr]
    rfl
  rw [Nat.zero_add] at hstv
  cases hstv with
  | cons hj0lt hj0start hj0closes hrest =>
      have hbig : Closes ((s.map charToToken).drop (j0 + 1)) 0 := by
        rw [← sliceB_to_end]
        exact hj0closes
      have hj0unm : ∀ q, ¬ IsMatch (s.map charToToken) j0 q :=
        fun q hq => no_match_of_closes_tail hbig hq
      have hj0ch : s[j0]? = some '[' := by
        obtain ⟨tg, htg⟩ := hj0start
        rw [List.getElem?_map] at htg
        cases hc : s[j0]? with
        | none => rw [hc] at htg; exact Option.noConfusion htg
        | some c =>
            rw [hc] at htg
            have hcc : charToToken c = .LoopStart tg :=
              Option.some.inj htg
            rw [charToToken_start_inv hcc]
      rcases Nat.lt_trichotomy j0 jstar with hlt | heq | hgt
      · exfalso
        have hm : ((s.map charToToken).drop (j0 + 1))[jstar - j0 - 1]?
            = some (.LoopStart 0) := by
          rw [List.getElem?_drop,
            show j0 + 1 + (jstar - j0 - 1) = jstar from by omega,
            List.getElem?_map, h3]
          rfl
        obtain ⟨q, hq1, hq2, hq3, hq4⟩ :=
          closes_zero_match hbig _ 0 hm
        rw [List.length_drop] at hq2
        apply h4 (j0 + 1 + q)
        refine ⟨by omega, by omega, ?_, ?_, ?_⟩
        · refine ⟨0, ?_⟩
          rw [List.getElem?_map, h3]
          rfl
        · obtain ⟨tg2, htg2⟩ := hq3
          refine ⟨tg2, ?_⟩
          rw [List.getElem?_drop] at htg2
          exact htg2
        · rw [sliceB_of_drop] at hq4
          rw [show j0 + 1 + (jstar - j0 - 1 + 1) = jstar + 1 from
            by omega] at hq4
          exact hq4
      · rw [heq] at hpar
        exact hpar
      · exfalso
        obtain ⟨q, hq⟩ := h5 j0 hgt hj0ch
        exact hj0unm q hq

/-- Witness for `parse_unclosed_open` on the concrete source `"["`,
which fails with `UnmatchedLoopError(0)`. -/
theorem parse_unclosed_open_witness :
    parse ['['] = .error (.LoopNotClosed 0) :=
  parse_unclosed_open ['['] 0
    (by intro k hk; simp at hk; interval_cases k <;> decide)
    (by decide) (by decide)
    (by
      intro q hq
      have ha := hq.1
      have hb := hq.2.1
      simp at hb
      omega)
    (by
      intro j hj hch
      rw [List.getElem?_eq_none (by simp; omega)] at hch
      exact Option.noConfusion hch)


/-! ## Claim C1: `parse` vs `parse_compress` execution equivalence.

The development proceeds in stages: a payload-similarity relation on token
lists (`SimEq`) under which the machine behaves identically (the machine of
`bf_machine.rs` never reads the resolved bracket targets), a structural
block program (`Blk`) with a fuelled executor (`execB`), the run-length
compression at the block level, and a simulation between `execB` and the
token machine. -/

/-- Two optional tokens agree up to loop-bracket payloads. -/
def optSim (o1 o2 : Option BfToken) : Prop :=
  o1 = o2
  ∨ (∃ x y, o1 = some (.LoopStart x) ∧ o2 = some (.LoopStart y))
  ∨ (∃ x y, o1 = some (.LoopEnd x) ∧ o2 = some (.LoopEnd y))

/-- Two token lists agree everywhere up to loop-bracket payloads. -/
structure SimEq (a b : List BfToken) : Prop where
  len : a.length = b.length
  sim : ∀ i : Nat, optSim (a[i]?) (b[i]?)

lemma optSim_refl (o : Option BfToken) : optSim o o := Or.inl rfl

lemma optSim_symm {o1 o2 : Option BfToken} (h : optSim o1 o2) :
    optSim o2 o1 := by
  rcases h with h | ⟨x, y, h1, h2⟩ | ⟨x, y, h1, h2⟩
  · exact Or.inl h.symm
  · exact Or.inr (Or.inl ⟨y, x, h2, h1⟩)
  · exact Or.inr (Or.inr ⟨y, x, h2, h1⟩)

lemma optSim_trans {o1 o2 o3 : Option BfToken} (h : optSim o1 o2)
    (h2 : optSim o2 o3) : optSim o1 o3 := by
  rcases h with h | ⟨x, y, ha, hb⟩ | ⟨x, y, ha, hb⟩
  · rw [h]; exact h2
  · rcases h2 with h2 | ⟨x2, y2, hc, hd⟩ | ⟨x2, y2, hc, hd⟩
    · rw [← h2]; exact Or.inr (Or.inl ⟨x, y, ha, hb⟩)
    · exact Or.inr (Or.inl ⟨x, y2, ha, hd⟩)
    · rw [hb] at hc; exact absurd (Option.some.inj hc) (by simp)
  · rcases h2 with h2 | ⟨x2, y2, hc, hd⟩ | ⟨x2, y2, hc, hd⟩
    · rw [← h2]; exact Or.inr (Or.inr ⟨x, y, ha, hb⟩)
    · rw [hb] at hc; exact absurd (Option.some.inj hc) (by simp)
    · exact Or.inr (Or.inr ⟨x, y2, ha, hd⟩)

lemma simEq_refl (a : List BfToken) : SimEq a a :=
  ⟨rfl, fun i => optSim_refl _⟩

lemma simEq_symm {a b : List BfToken} (h : SimEq a b) : SimEq b a :=
  ⟨h.len.symm, fun i => optSim_symm (h.sim i)⟩

lemma simEq_trans {a b c : List BfToken} (h1 : SimEq a b) (h2 : SimEq b c) :
    SimEq a c :=
  ⟨h1.len.trans h2.len, fun i => optSim_trans (h1.sim i) (h2.sim i)⟩

/-- The machine step never reads the bracket payloads: similar token lists
step identically. -/
lemma step_simEq {a b : List BfToken} (h : SimEq a b) (s : ExecState) :
    step a s = step b s := by
  unfold step
  rcases h.sim s.pc with heq | ⟨x, y, h1, h2⟩ | ⟨x, y, h1, h2⟩
  · rw [heq]
  · rw [h1, h2]; rfl
  · rw [h1, h2]; rfl

lemma runFuel_simEq {a b : List BfToken} (h : SimEq a b) :
    ∀ (n : Nat) (s : ExecState), runFuel a n s = runFuel b n s := by
  intro n
  induction n with
  | zero => intro s; rfl
  | succ n ih =>
      intro s
      rw [runFuel, runFuel, step_simEq h]
      cases step b s with
      | cont s2 => exact ih s2
      | halt m => rfl
      | fail e m => rfl

/-- Iterating `step` while it continues, counting the iterations. -/
def stepsTo (T : List BfToken) : Nat → ExecState → Option ExecState
  | 0, s => some s
  | n + 1, s =>
    match step T s with
    | .cont s2 => stepsTo T n s2
    | _ => none

lemma stepsTo_comp {T : List BfToken} :
    ∀ (k : Nat) (s s2 : ExecState) (n : Nat), stepsTo T k s = some s2 →
      stepsTo T (k + n) s = stepsTo T n s2 := by
  intro k
  induction k with
  | zero =>
      intro s s2 n h
      rw [show (0 : Nat) + n = n from by omega]
      rw [show s = s2 from Option.some.inj h]
  | succ k ih =>
      intro s s2 n h
      rw [show k + 1 + n = (k + n) + 1 from by omega]
      rw [stepsTo] at h ⊢
      cases hst : step T s with
      | cont s3 =>
          rw [hst] at h
          exact ih s3 s2 n h
      | halt m => rw [hst] at h; exact Option.noConfusion h
      | fail e m => rw [hst] at h; exact Option.noConfusion h

lemma stepsTo_runFuel {T : List BfToken} :
    ∀ (k : Nat) (s s2 : ExecState) (n : Nat), stepsTo T k s = some s2 →
      runFuel T (k + n) s = runFuel T n s2 := by
  intro k
  induction k with
  | zero =>
      intro s s2 n h
      rw [show (0 : Nat) + n = n from by omega]
      rw [show s = s2 from Option.some.inj h]
  | succ k ih =>
      intro s s2 n h
      rw [show k + 1 + n = (k + n) + 1 from by omega]
      rw [stepsTo] at h
      rw [runFuel]
      cases hst : step T s with
      | cont s3 =>
          rw [hst] at h
          exact ih s3 s2 n h
      | halt m => rw [hst] at h; exact Option.noConfusion h
      | fail e m => rw [hst] at h; exact Option.noConfusion h

lemma stepsTo_more {T : List BfToken} :
    ∀ (n : Nat) (s s2 : ExecState), stepsTo T n s = some s2 →
      runFuel T n s = .more s2 := by
  intro n
  induction n with
  | zero =>
      intro s s2 h
      rw [show s = s2 from Option.some.inj h]
      rfl
  | succ n ih =>
      intro s s2 h
      rw [stepsTo] at h
      rw [runFuel]
      cases hst : step T s with
      | cont s3 => rw [hst] at h; exact ih s3 s2 h
      | halt m => rw [hst] at h; exact Option.noConfusion h
      | fail e m => rw [hst] at h; exact Option.noConfusion h

lemma runFuel_halted_mono {T : List BfToken} :
    ∀ (n : Nat) (s : ExecState) (m : Mach) (k : Nat),
      runFuel T n s = .halted m → runFuel T (n + k) s = .halted m := by
  intro n
  induction n with
  | zero => intro s m k h; exact absurd h (by simp [runFuel])
  | succ n ih =>
      intro s m k h
      rw [runFuel] at h
      rw [show n + 1 + k = (n + k) + 1 from by omega, runFuel]
      cases hst : step T s with
      | cont s2 => rw [hst] at h; exact ih s2 m k h
      | halt m2 => rw [hst] at h; exact h
      | fail e m2 => rw [hst] at h; exact absurd h (by simp)

lemma runFuel_failed_mono {T : List BfToken} :
    ∀ (n : Nat) (s : ExecState) (e : BfError) (m : Mach) (k : Nat),
      runFuel T n s = .failed e m → runFuel T (n + k) s = .failed e m := by
  intro n
  induction n with
  | zero => intro s e m k h; exact absurd h (by simp [runFuel])
  | succ n ih =>
      intro s e m k h
      rw [runFuel] at h
      rw [show n + 1 + k = (n + k) + 1 from by omega, runFuel]
      cases hst : step T s with
      | cont s2 => rw [hst] at h; exact ih s2 e m k h
      | halt m2 => rw [hst] at h; exact absurd h (by simp)
      | fail e2 m2 => rw [hst] at h; exact h


/- Structured Brainfuck programs: a statement is a single non-loop token
or a bracketed loop over a block. -/
mutual
/-- Statement: one non-loop token, or a loop over a block. -/
inductive Stmt : Type where
  | prim : BfToken → Stmt
  | block : Blk → Stmt
/-- Block: a sequence of statements. -/
inductive Blk : Type where
  | nil : Blk
  | cons : Stmt → Blk → Blk
end

/-- The machine effect of one non-loop token (the corresponding arms of the
`BfMachine::run` match). -/
def primEff (t : BfToken) (m : Mach) : Except BfError Mach :=
  match t with
  | .NotCommand _ => .ok m
  | .Increment v => .ok (cellSet m (wrapAdd8 (cellGet m) v))
  | .Decrement v => .ok (cellSet m (wrapSub8 (cellGet m) v))
  | .CursorLeft v =>
      .ok { m with cursor := wrapped_cursor m.cursor true v m.memory.length }
  | .CursorRight v =>
      .ok { m with cursor := wrapped_cursor m.cursor false v m.memory.length }
  | .LoopStart _ => .ok m
  | .LoopEnd _ => .ok m
  | .PrintChar => .ok { m with output := m.output ++ [cellGet m] }
  | .InputChar =>
      match m.input with
      | [] => .error .inputEof
      | b :: ins => .ok (cellSet { m with input := ins } b)

/-- Result of a structural execution: normal completion, a propagated
error, or the iteration budget ran out. -/
inductive ERes where
  | ok : Mach → ERes
  | err : BfError → Mach → ERes
  | out : ERes
deriving DecidableEq, Repr

/-- Run a loop: test the byte at the cursor, execute the body and repeat,
up to `j` iterations. -/
def loopIter (bodyF : Mach → ERes) : Nat → Mach → ERes
  | 0, m => if cellGet m == 0 then .ok m else .out
  | j + 1, m =>
    if cellGet m == 0 then .ok m
    else
      match bodyF m with
      | .ok m2 => loopIter bodyF j m2
      | r => r

/-- Structural executor for block programs; `fuel` bounds every loop's
iteration count. -/
def execB (fuel : Nat) : Blk → Mach → ERes
  | .nil, m => .ok m
  | .cons (.prim t) ss, m =>
    match primEff t m with
    | .ok m2 => execB fuel ss m2
    | .error e => .err e m
  | .cons (.block b) ss, m =>
    match loopIter (fun m2 => execB fuel b m2) fuel m with
    | .ok m2 => execB fuel ss m2
    | .err e m2 => .err e m2
    | .out => .out
termination_by blk _ => sizeOf blk

/- `RepsS ts s` / `RepsB ts blk`: the token list `ts` is the linearization
of the statement/block. -/
mutual
/-- The token list is the linearization of the statement. -/
def RepsS : List BfToken → Stmt → Prop
  | ts, .prim t => ts = [t] ∧ isStartT t = false ∧ isEndT t = false
  | ts, .block b =>
      ∃ x y body, ts = .LoopStart x :: body ++ [.LoopEnd y] ∧ RepsB body b
/-- The token list is the linearization of the block. -/
def RepsB : List BfToken → Blk → Prop
  | ts, .nil => ts = []
  | ts, .cons s ss => ∃ t1 t2, ts = t1 ++ t2 ∧ RepsS t1 s ∧ RepsB t2 ss
end

/-- Well-formed machine: cursor in bounds, cells and pending input bytes
below 256. -/
def MachOk (m : Mach) : Prop :=
  m.cursor < m.memory.length ∧ (∀ v ∈ m.memory, v < 256) ∧
  (∀ b ∈ m.input, b < 256)

lemma machok_cellSet {m : Mach} (h : MachOk m) {v : Nat} (hv : v < 256) :
    MachOk (cellSet m v) := by
  obtain ⟨h1, h2, h3⟩ := h
  refine ⟨by simpa [cellSet] using h1, ?_, h3⟩
  intro w hw
  simp only [cellSet] at hw
  rcases List.mem_or_eq_of_mem_set hw with hw | rfl
  · exact h2 w hw
  · exact hv

lemma machok_primEff {t : BfToken} {m m2 : Mach} (h : MachOk m)
    (hp : primEff t m = .ok m2) :
    MachOk m2 ∧ m2.memory.length = m.memory.length := by
  obtain ⟨h1, h2, h3⟩ := h
  cases t with
  | NotCommand c =>
      rw [show m2 = m from (Except.ok.inj hp).symm]
      exact ⟨⟨h1, h2, h3⟩, rfl⟩
  | Increment v =>
      rw [show m2 = cellSet m (wrapAdd8 (cellGet m) v) from
        (Except.ok.inj hp).symm]
      exact ⟨machok_cellSet ⟨h1, h2, h3⟩ (by simp [wrapAdd8]; omega),
        by simp [cellSet]⟩
  | Decrement v =>
      rw [show m2 = cellSet m (wrapSub8 (cellGet m) v) from
        (Except.ok.inj hp).symm]
      exact ⟨machok_cellSet ⟨h1, h2, h3⟩ (by simp [wrapSub8]; omega),
        by simp [cellSet]⟩
  | CursorLeft v =>
      rw [show m2 = { m with
            cursor := wrapped_cursor m.cursor true v m.memory.length } from
        (Except.ok.inj hp).symm]
      exact ⟨⟨wrapped_cursor_lt m.cursor v m.memory.length true (by omega),
        h2, h3⟩, rfl⟩
  | CursorRight v =>
      rw [show m2 = { m with
            cursor := wrapped_cursor m.cursor false v m.memory.length } from
        (Except.ok.inj hp).symm]
      exact ⟨⟨wrapped_cursor_lt m.cursor v m.memory.length false (by omega),
        h2, h3⟩, rfl⟩
  | LoopStart x =>
      rw [show m2 = m from (Except.ok.inj hp).symm]
      exact ⟨⟨h1, h2, h3⟩, rfl⟩
  | LoopEnd x =>
      rw [show m2 = m from (Except.ok.inj hp).symm]
      exact ⟨⟨h1, h2, h3⟩, rfl⟩
  | PrintChar =>
      rw [show m2 = { m with output := m.output ++ [cellGet m] } from
        (Except.ok.inj hp).symm]
      exact ⟨⟨h1, h2, h3⟩, rfl⟩
  | InputChar =>
      cases hin : m.input with
      | nil => rw [primEff, hin] at hp; exact absurd hp (by simp)
      | cons b ins =>
          rw [primEff, hin] at hp
          rw [show m2 = cellSet { m with input := ins } b from
            (Except.ok.inj hp).symm]
          have hb : b < 256 := h3 b (by rw [hin]; exact List.mem_cons_self _ _)
          have hmo : MachOk { m with input := ins } := by
            refine ⟨h1, h2, ?_⟩
            intro w hw
            refine h3 w ?_
            rw [hin]
            exact List.mem_cons_of_mem _ hw
          exact ⟨machok_cellSet hmo hb, by simp [cellSet]⟩

lemma loopIter_ok_inv (bodyF : Mach → ERes)
    (hb : ∀ m m2, MachOk m → bodyF m = .ok m2 →
      MachOk m2 ∧ m2.memory.length = m.memory.length) :
    ∀ (j : Nat) (m m2 : Mach), MachOk m → loopIter bodyF j m = .ok m2 →
      MachOk m2 ∧ m2.memory.length = m.memory.length := by
  intro j
  induction j with
  | zero =>
      intro m m2 hm h
      rw [loopIter] at h
      by_cases hz : cellGet m == 0
      · rw [if_pos hz] at h
        rw [show m2 = m from (ERes.ok.inj h).symm]
        exact ⟨hm, rfl⟩
      · rw [if_neg hz] at h
        exact absurd h (by simp)
  | succ j ih =>
      intro m m2 hm h
      rw [loopIter] at h
      by_cases hz : cellGet m == 0
      · rw [if_pos hz] at h
        rw [show m2 = m from (ERes.ok.inj h).symm]
        exact ⟨hm, rfl⟩
      · rw [if_neg hz] at h
        cases hbm : bodyF m with
        | ok m3 =>
            rw [hbm] at h
            obtain ⟨hm3, hl3⟩ := hb m m3 hm hbm
            obtain ⟨hm2, hl2⟩ := ih m3 m2 hm3 h
            exact ⟨hm2, hl2.trans hl3⟩
        | err e m3 => rw [hbm] at h; exact absurd h (by simp)
        | out => rw [hbm] at h; exact absurd h (by simp)

lemma execB_ok_inv (blk : Blk) :
    ∀ (fuel : Nat) (m m2 : Mach), MachOk m → execB fuel blk m = .ok m2 →
      MachOk m2 ∧ m2.memory.length = m.memory.length := by
  cases blk with
  | nil =>
      intro fuel m m2 hm h
      rw [execB] at h
      rw [show m2 = m from (ERes.ok.inj h).symm]
      exact ⟨hm, rfl⟩
  | cons s ss =>
      cases s with
      | prim t =>
          intro fuel m m2 hm h
          rw [execB] at h
          cases hpe : primEff t m with
          | ok m3 =>
              rw [hpe] at h
              obtain ⟨hm3, hl3⟩ := machok_primEff hm hpe
              obtain ⟨hm2, hl2⟩ := execB_ok_inv ss fuel m3 m2 hm3 h
              exact ⟨hm2, hl2.trans hl3⟩
          | error e => rw [hpe] at h; exact absurd h (by simp)
      | block b =>
          intro fuel m m2 hm h
          rw [execB] at h
          cases hli : loopIter (fun m3 => execB fuel b m3) fuel m with
          | ok m3 =>
              rw [hli] at h
              have hbinv : ∀ m4 m5, MachOk m4 →
                  execB fuel b m4 = .ok m5 →
                  MachOk m5 ∧ m5.memory.length = m4.memory.length :=
                fun m4 m5 hm4 h45 => execB_ok_inv b fuel m4 m5 hm4 h45
              obtain ⟨hm3, hl3⟩ := loopIter_ok_inv _ hbinv fuel m m3 hm hli
              obtain ⟨hm2, hl2⟩ := execB_ok_inv ss fuel m3 m2 hm3 h
              exact ⟨hm2, hl2.trans hl3⟩
          | err e m3 => rw [hli] at h; exact absurd h (by simp)
          | out => rw [hli] at h; exact absurd h (by simp)
termination_by sizeOf blk


lemma repsB_closes (blk : Blk) :
    ∀ (ts : List BfToken), RepsB ts blk → Closes ts 0 := by
  cases blk with
  | nil =>
      intro ts h
      simp only [RepsB] at h
      rw [h]
      exact Closes.nil
  | cons s ss =>
      intro ts h
      simp only [RepsB] at h
      obtain ⟨t1, t2, rfl, hs, hb⟩ := h
      have hc2 : Closes t2 0 := repsB_closes ss t2 hb
      have hc1 : Closes t1 0 := by
        cases s with
        | prim t =>
            simp only [RepsS] at hs
            obtain ⟨rfl, h1, h2⟩ := hs
            exact Closes.atom h1 h2 Closes.nil
        | block b =>
            simp only [RepsS] at hs
            obtain ⟨x, y, body, rfl, hbody⟩ := hs
            have hcb : Closes body 0 := repsB_closes b body hbody
            refine Closes.opn ?_
            have := closes_append hcb
              (Closes.close Closes.nil : Closes [BfToken.LoopEnd y] 1)
            simpa using this
      simpa using closes_append hc1 hc2
termination_by sizeOf blk

lemma closes_repsB (ts : List BfToken) (hcl : Closes ts 0) :
    ∃ blk, RepsB ts blk := by
  cases hts : ts with
  | nil => exact ⟨.nil, by simp [RepsB]⟩
  | cons t rest =>
      rw [hts] at hcl
      cases hcl with
      | atom h1 h2 hcl2 =>
          obtain ⟨ss, hss⟩ := closes_repsB rest hcl2
          exact ⟨.cons (.prim t) ss,
            ⟨[t], rest, rfl, ⟨rfl, h1, h2⟩, hss⟩⟩
      | opn hcl2 =>
          rename_i tg
          obtain ⟨a, tg1, b1, hsplit, ha, hb1⟩ := closes_succ_split hcl2
          obtain ⟨ba, hba⟩ := closes_repsB a ha
          obtain ⟨bb, hbb⟩ := closes_repsB b1 hb1
          refine ⟨.cons (.block ba) bb,
            ⟨.LoopStart tg :: a ++ [.LoopEnd tg1], b1, ?_, ?_, hbb⟩⟩
          · rw [hsplit]
            simp
          · exact ⟨tg, tg1, a, rfl, hba⟩
termination_by ts.length
decreasing_by
  · subst hts
    simp only [List.length_cons]
    omega
  · subst hts
    have := congrArg List.length hsplit
    simp only [List.length_append, List.length_cons] at this
    simp only [List.length_cons]
    omega
  · subst hts
    have := congrArg List.length hsplit
    simp only [List.length_append, List.length_cons] at this
    simp only [List.length_cons]
    omega

/-- Prepend a run of primitive tokens, as statements, onto a block. -/
def primsB : List BfToken → Blk → Blk
  | [], k => k
  | t :: ts, k => .cons (.prim t) (primsB ts k)

lemma primsB_append (x y : List BfToken) (k : Blk) :
    primsB (x ++ y) k = primsB x (primsB y k) := by
  induction x with
  | nil => rfl
  | cons t x ih => simp [primsB, ih]

lemma flushSum_nonbracket (sum : Int) :
    ∀ t ∈ flushSum sum, isStartT t = false ∧ isEndT t = false := by
  unfold flushSum
  split_ifs <;> simp [isStartT, isEndT]

lemma flushMove_nonbracket (mv : Int) :
    ∀ t ∈ flushMove mv, isStartT t = false ∧ isEndT t = false := by
  unfold flushMove
  split_ifs <;> simp [isStartT, isEndT]

lemma repsB_primsB :
    ∀ (ps rest : List BfToken) (k : Blk),
      (∀ t ∈ ps, isStartT t = false ∧ isEndT t = false) → RepsB rest k →
      RepsB (ps ++ rest) (primsB ps k) := by
  intro ps
  induction ps with
  | nil => intro rest k _ h; simpa [primsB] using h
  | cons t ps ih =>
      intro rest k hnb h
      have ht := hnb t (List.mem_cons_self _ _)
      refine ⟨[t], ps ++ rest, by simp, ⟨rfl, ht.1, ht.2⟩, ?_⟩
      exact ih rest k (fun u hu => hnb u (List.mem_cons_of_mem _ hu)) h

/-- A token that is neither an increment/decrement nor a cursor move acts
as a barrier in `parse_compress`: both running accumulators are flushed. -/
lemma compressAux_barrier (t : BfToken) (h1 : isIncDec t = false)
    (h2 : isMove t = false) :
    ∀ (xs : List BfToken) (sum mv : Int) (ys : List BfToken),
      compressAux sum mv (xs ++ t :: ys)
        = compressAux sum mv xs ++ t :: compressAux 0 0 ys := by
  intro xs
  induction xs with
  | nil =>
      intro sum mv ys
      cases t <;> simp_all [compressAux, isIncDec, isMove]
  | cons x xs ih =>
      intro sum mv ys
      rw [List.cons_append]
      cases x <;> simp [compressAux, isIncDec, isMove, ih, List.append_assoc]

lemma simEq_nil_right {b : List BfToken} (h : SimEq [] b) : b = [] := by
  have := h.len
  simp at this
  exact (List.eq_nil_of_length_eq_zero this.symm)

lemma simEq_cons_inv {t : BfToken} {a b : List BfToken}
    (h : SimEq (t :: a) b) :
    ∃ u b2, b = u :: b2 ∧ optSim (some t) (some u) ∧ SimEq a b2 := by
  cases b with
  | nil =>
      have := h.len
      simp at this
  | cons u b2 =>
      refine ⟨u, b2, rfl, ?_, ?_, ?_⟩
      · have := h.sim 0
        simpa using this
      · have := h.len
        simpa using this
      · intro i
        have := h.sim (i + 1)
        simpa using this

lemma simEq_cons {t u : BfToken} {a b : List BfToken}
    (ht : optSim (some t) (some u)) (h : SimEq a b) :
    SimEq (t :: a) (u :: b) := by
  refine ⟨by simp [h.len], ?_⟩
  intro i
  cases i with
  | zero => simpa using ht
  | succ i =>
      have := h.sim i
      simpa using this

lemma simEq_append {a b c d : List BfToken} (h1 : SimEq a b)
    (h2 : SimEq c d) : SimEq (a ++ c) (b ++ d) := by
  have hl := h1.len
  refine ⟨by simp [hl, h2.len], ?_⟩
  intro i
  by_cases hi : i < a.length
  · rw [List.getElem?_append, if_pos hi, List.getElem?_append,
      if_pos (by omega : i < b.length)]
    exact h1.sim i
  · rw [List.getElem?_append, if_neg hi, List.getElem?_append,
      if_neg (by omega : ¬ i < b.length)]
    rw [← hl]
    exact h2.sim (i - a.length)

lemma compressAux_inc (sum mv : Int) (v : Nat) (ts : List BfToken) :
    compressAux sum mv (.Increment v :: ts)
      = flushMove mv ++ compressAux (sum + 1) 0 ts := by
  simp [compressAux, isIncDec, isMove]

lemma compressAux_dec (sum mv : Int) (v : Nat) (ts : List BfToken) :
    compressAux sum mv (.Decrement v :: ts)
      = flushMove mv ++ compressAux (sum - 1) 0 ts := by
  simp [compressAux, isIncDec, isMove]

lemma compressAux_left (sum mv : Int) (v : Nat) (ts : List BfToken) :
    compressAux sum mv (.CursorLeft v :: ts)
      = flushSum sum ++ compressAux 0 (mv - 1) ts := by
  simp [compressAux, isIncDec, isMove]

lemma compressAux_right (sum mv : Int) (v : Nat) (ts : List BfToken) :
    compressAux sum mv (.CursorRight v :: ts)
      = flushSum sum ++ compressAux 0 (mv + 1) ts := by
  simp [compressAux, isIncDec, isMove]

lemma compressAux_barrier_cons (t : BfToken) (h1 : isIncDec t = false)
    (h2 : isMove t = false) (sum mv : Int) (ts : List BfToken) :
    compressAux sum mv (t :: ts)
      = flushSum sum ++ (flushMove mv ++ (t :: compressAux 0 0 ts)) := by
  have h := compressAux_barrier t h1 h2 [] sum mv ts
  simp only [List.nil_append] at h
  rw [h]
  simp [compressAux, List.append_assoc]

/-- `parse_compress`'s compression loop never reads bracket payloads:
similar inputs give similar outputs. -/
lemma compressAux_simEq :
    ∀ (a b : List BfToken), SimEq a b → ∀ sum mv : Int,
      SimEq (compressAux sum mv a) (compressAux sum mv b) := by
  intro a
  induction a with
  | nil =>
      intro b h sum mv
      rw [simEq_nil_right h]
      exact simEq_refl _
  | cons t a ih =>
      intro b h sum mv
      obtain ⟨u, b2, rfl, hsim, hrest⟩ := simEq_cons_inv h
      rcases hsim with heq | ⟨x, y, hx, hy⟩ | ⟨x, y, hx, hy⟩
      · rw [← Option.some.inj heq]
        cases t with
        | Increment v =>
            rw [compressAux_inc, compressAux_inc]
            exact simEq_append (simEq_refl _) (ih b2 hrest _ _)
        | Decrement v =>
            rw [compressAux_dec, compressAux_dec]
            exact simEq_append (simEq_refl _) (ih b2 hrest _ _)
        | CursorLeft v =>
            rw [compressAux_left, compressAux_left]
            exact simEq_append (simEq_refl _) (ih b2 hrest _ _)
        | CursorRight v =>
            rw [compressAux_right, compressAux_right]
            exact simEq_append (simEq_refl _) (ih b2 hrest _ _)
        | NotCommand c =>
            rw [compressAux_barrier_cons (.NotCommand c) rfl rfl,
              compressAux_barrier_cons (.NotCommand c) rfl rfl]
            exact simEq_append (simEq_refl _) (simEq_append (simEq_refl _)
              (simEq_cons (optSim_refl _) (ih b2 hrest 0 0)))
        | LoopStart x2 =>
            rw [compressAux_barrier_cons (.LoopStart x2) rfl rfl,
              compressAux_barrier_cons (.LoopStart x2) rfl rfl]
            exact simEq_append (simEq_refl _) (simEq_append (simEq_refl _)
              (simEq_cons (optSim_refl _) (ih b2 hrest 0 0)))
        | LoopEnd x2 =>
            rw [compressAux_barrier_cons (.LoopEnd x2) rfl rfl,
              compressAux_barrier_cons (.LoopEnd x2) rfl rfl]
            exact simEq_append (simEq_refl _) (simEq_append (simEq_refl _)
              (simEq_cons (optSim_refl _) (ih b2 hrest 0 0)))
        | PrintChar =>
            rw [compressAux_barrier_cons .PrintChar rfl rfl,
              compressAux_barrier_cons .PrintChar rfl rfl]
            exact simEq_append (simEq_refl _) (simEq_append (simEq_refl _)
              (simEq_cons (optSim_refl _) (ih b2 hrest 0 0)))
        | InputChar =>
            rw [compressAux_barrier_cons .InputChar rfl rfl,
              compressAux_barrier_cons .InputChar rfl rfl]
            exact simEq_append (simEq_refl _) (simEq_append (simEq_refl _)
              (simEq_cons (optSim_refl _) (ih b2 hrest 0 0)))
      · rw [Option.some.inj hx, Option.some.inj hy]
        rw [compressAux_barrier_cons (.LoopStart x) rfl rfl,
          compressAux_barrier_cons (.LoopStart y) rfl rfl]
        refine simEq_append (simEq_refl _) (simEq_append (simEq_refl _) ?_)
        exact simEq_cons (Or.inr (Or.inl ⟨x, y, rfl, rfl⟩))
          (ih b2 hrest 0 0)
      · rw [Option.some.inj hx, Option.some.inj hy]
        rw [compressAux_barrier_cons (.LoopEnd x) rfl rfl,
          compressAux_barrier_cons (.LoopEnd y) rfl rfl]
        refine simEq_append (simEq_refl _) (simEq_append (simEq_refl _) ?_)
        exact simEq_cons (Or.inr (Or.inr ⟨x, y, rfl, rfl⟩))
          (ih b2 hrest 0 0)


lemma applyPairs_simEq :
    ∀ (prs : List (Nat × Nat)) (toks cur : List BfToken),
      SimEq toks cur →
      (∀ p ∈ prs, (∃ x, toks[p.1]? = some (.LoopStart x)) ∧
        (∃ y, toks[p.2]? = some (.LoopEnd y))) →
      SimEq toks (applyPairs prs cur) := by
  intro prs
  induction prs with
  | nil => intro toks cur h _; exact h
  | cons p prs ih =>
      intro toks cur h hpt
      rw [applyPairs_cons]
      refine ih toks _ ?_ (fun r hr => hpt r (List.mem_cons_of_mem _ hr))
      obtain ⟨⟨x, hx⟩, ⟨y, hy⟩⟩ := hpt p (List.mem_cons_self _ _)
      have hlen := h.len
      have h1t : p.1 < toks.length := by
        by_contra hc
        rw [List.getElem?_eq_none (by omega)] at hx
        exact Option.noConfusion hx
      have h2t : p.2 < toks.length := by
        by_contra hc
        rw [List.getElem?_eq_none (by omega)] at hy
        exact Option.noConfusion hy
      refine ⟨by simp [hlen], ?_⟩
      intro i
      by_cases hi2 : p.2 = i
      · subst hi2
        rw [List.getElem?_set, if_pos rfl,
          if_pos (by simp only [List.length_set]; omega)]
        exact Or.inr (Or.inr ⟨y, p.1, hy, rfl⟩)
      · rw [List.getElem?_set_ne hi2]
        by_cases hi1 : p.1 = i
        · subst hi1
          rw [List.getElem?_set, if_pos rfl, if_pos (by omega)]
          exact Or.inr (Or.inl ⟨x, p.2, hx, rfl⟩)
        · rw [List.getElem?_set_ne hi1]
          exact h.sim i

/-- On a balanced token list, `loop_matching` succeeds and only rewrites
bracket payloads. -/
lemma lmGo_ok_simEq {ts : List BfToken} (hcl : Closes ts 0) :
    ∃ out, lmGo ts 0 [] = .ok out ∧ SimEq ts out := by
  obtain ⟨prs, hprs⟩ := closes_chk_ok ts 0 [] (by simpa using hcl)
  refine ⟨applyPairs prs ts, ?_, ?_⟩
  · rw [lmGo_eq_chk _ 0 [] (by simp), List.drop_zero, hprs]
    rfl
  · have hfacts := chk_ok_facts ts 0 [] prs ts (List.drop_zero _)
      (StInv.nil _) hprs
    refine applyPairs_simEq prs _ _ (simEq_refl _) ?_
    intro p hp
    have hm := hfacts.1 p hp
    exact ⟨hm.2.2.1, hm.2.2.2.1⟩


/-- The machine effect of the tokens `flushSum sum` emits. -/
def applySum (sum : Int) (m : Mach) : Mach :=
  if 0 < sum then cellSet m (wrapAdd8 (cellGet m) ((sum % 256).toNat))
  else if sum < 0 then
    cellSet m (wrapSub8 (cellGet m) (((-sum) % 256).toNat))
  else m

/-- The machine effect of the tokens `flushMove mv` emits. -/
def applyMove (mv : Int) (m : Mach) : Mach :=
  if 0 < mv then
    { m with cursor := wrapped_cursor m.cursor false mv.toNat m.memory.length }
  else if mv < 0 then
    { m with cursor := wrapped_cursor m.cursor true (-mv).toNat m.memory.length }
  else m

/-- The machine effect of both pending accumulators of `parse_compress`. -/
def applyPend (sum mv : Int) (m : Mach) : Mach := applyMove mv (applySum sum m)

lemma applySum_zero (m : Mach) : applySum 0 m = m := by
  simp [applySum]

lemma applyMove_zero (m : Mach) : applyMove 0 m = m := by
  simp [applyMove]

lemma applyPend_zero (m : Mach) : applyPend 0 0 m = m := by
  rw [applyPend, applySum_zero, applyMove_zero]

lemma cellSet_oob {m : Mach} (h : m.memory.length ≤ m.cursor) (v : Nat) :
    cellSet m v = m := by
  have h2 : m.memory.set m.cursor v = m.memory := List.set_eq_of_length_le h
  rw [cellSet, h2]

lemma cellGet_oob {m : Mach} (h : m.memory.length ≤ m.cursor) :
    cellGet m = 0 := by
  rw [cellGet, List.getD_eq_getElem?_getD, List.getElem?_eq_none h]
  rfl

lemma cellGet_cellSet {m : Mach} (h : m.cursor < m.memory.length) (v : Nat) :
    cellGet (cellSet m v) = v := by
  simp only [cellGet, cellSet]
  rw [List.getD_eq_getElem?_getD, List.getElem?_set, if_pos rfl, if_pos h]
  rfl

lemma cellSet_cellSet (m : Mach) (v w : Nat) :
    cellSet (cellSet m v) w = cellSet m w := by
  simp only [cellSet]
  rw [List.set_set]

lemma cellSet_self {m : Mach} (h : m.cursor < m.memory.length) :
    cellSet m (cellGet m) = m := by
  have h2 : m.memory.set m.cursor (m.memory.getD m.cursor 0) = m.memory := by
    apply List.ext_getElem?
    intro k
    rw [List.getElem?_set]
    by_cases hk : m.cursor = k
    · subst hk
      rw [if_pos rfl, if_pos h, List.getD_eq_getElem _ _ h,
        List.getElem?_eq_getElem h]
    · rw [if_neg hk]
  rw [cellSet, cellGet, h2]

lemma cellGet_lt {m : Mach} (h2 : ∀ v ∈ m.memory, v < 256) :
    cellGet m < 256 := by
  rw [cellGet, List.getD_eq_getElem?_getD]
  cases hx : m.memory[m.cursor]? with
  | none => simp
  | some v =>
      simp only [Option.getD_some]
      exact h2 v (List.getElem?_mem hx)

lemma applySum_cursor (s : Int) (m : Mach) :
    (applySum s m).cursor = m.cursor := by
  unfold applySum
  split_ifs <;> rfl

lemma applySum_memlen (s : Int) (m : Mach) :
    (applySum s m).memory.length = m.memory.length := by
  unfold applySum
  split_ifs <;> simp [cellSet]

lemma applySum_oob {m : Mach} (h : m.memory.length ≤ m.cursor) (s : Int) :
    applySum s m = m := by
  unfold applySum
  split_ifs with h1 h2
  · exact cellSet_oob h _
  · exact cellSet_oob h _
  · rfl

lemma applyMove_memory (mv : Int) (m : Mach) :
    (applyMove mv m).memory = m.memory := by
  unfold applyMove
  split_ifs <;> rfl

lemma applyMove_input (mv : Int) (m : Mach) :
    (applyMove mv m).input = m.input := by
  unfold applyMove
  split_ifs <;> rfl

lemma applyMove_output (mv : Int) (m : Mach) :
    (applyMove mv m).output = m.output := by
  unfold applyMove
  split_ifs <;> rfl

lemma int_mod_add (x a L : Int) : (x % L + a) % L = (x + a) % L := by
  rw [Int.add_emod, Int.emod_emod_of_dvd x dvd_rfl, ← Int.add_emod]

lemma int_mod_sub (x a L : Int) : (x % L - a) % L = (x - a) % L := by
  rw [Int.sub_emod, Int.emod_emod_of_dvd x dvd_rfl, ← Int.sub_emod]

lemma nat_mod_succ (x L : Nat) : (x % L + 1) % L = (x + 1) % L := by
  rw [Nat.add_mod (x % L) 1 L, Nat.mod_mod_of_dvd x dvd_rfl, ← Nat.add_mod]


lemma mach_ext {m1 m2 : Mach} (h1 : m1.cursor = m2.cursor)
    (h2 : m1.memory = m2.memory) (h3 : m1.input = m2.input)
    (h4 : m1.output = m2.output) : m1 = m2 := by
  cases m1
  cases m2
  simp_all

lemma applyMove_cursor_int (mv : Int) (m : Mach)
    (hin : m.cursor < m.memory.length) :
    ((applyMove mv m).cursor : Int)
      = ((m.cursor : Int) + mv) % (m.memory.length : Int) := by
  have hL : 0 < m.memory.length := by omega
  unfold applyMove
  split_ifs with h1 h2
  · show ((wrapped_cursor m.cursor false mv.toNat m.memory.length : Nat)
      : Int) = _
    rw [wrapped_cursor_right_def]
    push_cast
    rw [Int.toNat_of_nonneg (by omega)]
  · show ((wrapped_cursor m.cursor true (-mv).toNat m.memory.length : Nat)
      : Int) = _
    rw [wrapped_cursor_left_int _ _ _ hL hin]
    rw [Int.toNat_of_nonneg (by omega)]
    ring_nf
  · show ((m.cursor : Nat) : Int) = _
    have hmv : mv = 0 := by omega
    rw [hmv, add_zero]
    exact (Int.emod_eq_of_lt (by positivity) (by exact_mod_cast hin)).symm

lemma applyMove_cursor_lt (mv : Int) (m : Mach)
    (hin : m.cursor < m.memory.length) :
    (applyMove mv m).cursor < m.memory.length := by
  have hL : 0 < m.memory.length := by omega
  unfold applyMove
  split_ifs with h1 h2
  · show wrapped_cursor m.cursor false mv.toNat m.memory.length
      < m.memory.length
    exact wrapped_cursor_lt _ _ _ _ hL
  · show wrapped_cursor m.cursor true (-mv).toNat m.memory.length
      < m.memory.length
    exact wrapped_cursor_lt _ _ _ _ hL
  · exact hin

lemma machok_applySum (s : Int) {m : Mach} (h : MachOk m) :
    MachOk (applySum s m) := by
  unfold applySum
  split_ifs with h1 h2
  · exact machok_cellSet h (by rw [wrapAdd8]; omega)
  · exact machok_cellSet h (by rw [wrapSub8]; omega)
  · exact h

lemma machok_applyMove (mv : Int) {m : Mach} (h : MachOk m) :
    MachOk (applyMove mv m) := by
  obtain ⟨h1, h2, h3⟩ := h
  have hL : 0 < m.memory.length := by omega
  unfold applyMove
  split_ifs with ha hb
  · exact ⟨wrapped_cursor_lt m.cursor mv.toNat m.memory.length false hL,
      h2, h3⟩
  · exact ⟨wrapped_cursor_lt m.cursor (-mv).toNat m.memory.length true hL,
      h2, h3⟩
  · exact ⟨h1, h2, h3⟩

lemma machok_applyPend (s mv : Int) {m : Mach} (h : MachOk m) :
    MachOk (applyPend s mv m) :=
  machok_applyMove mv (machok_applySum s h)

/-- Merging one more increment into the pending sum equals executing an
`Increment(1)` after the pending effect. -/
lemma applySum_succ (sum : Int) (m : Mach)
    (h2 : ∀ v ∈ m.memory, v < 256) :
    applySum (sum + 1) m
      = cellSet (applySum sum m) (wrapAdd8 (cellGet (applySum sum m)) 1) := by
  by_cases hin : m.cursor < m.memory.length
  · have hc : cellGet m < 256 := cellGet_lt h2
    rcases lt_trichotomy sum 0 with hneg | rfl | hpos
    · by_cases hm1 : sum = -1
      · subst hm1
        rw [show (-1 : Int) + 1 = 0 from by norm_num, applySum_zero]
        have hval : applySum (-1) m
            = cellSet m ((cellGet m + 255) % 256) := by
          simp only [applySum]
          rw [if_neg (by norm_num), if_pos (by norm_num)]
          refine congrArg (cellSet m) ?_
          simp only [wrapSub8]
          norm_num
        rw [hval, cellGet_cellSet (by simpa [cellSet] using hin),
          cellSet_cellSet]
        rw [show wrapAdd8 ((cellGet m + 255) % 256) 1 = cellGet m from by
          simp only [wrapAdd8]
          omega]
        exact (cellSet_self hin).symm
      · have hlt : sum + 1 < 0 := by omega
        simp only [applySum]
        rw [if_neg (show ¬ (0 : Int) < sum + 1 from by omega), if_pos hlt,
          if_neg (show ¬ (0 : Int) < sum from by omega), if_pos hneg,
          cellGet_cellSet (by simpa [cellSet] using hin), cellSet_cellSet]
        refine congrArg (cellSet m) ?_
        simp only [wrapSub8, wrapAdd8]
        omega
    · rw [show (0 : Int) + 1 = 1 from by norm_num, applySum_zero]
      simp only [applySum]
      rw [if_pos (by norm_num)]
      refine congrArg (cellSet m) ?_
      norm_num
    · simp only [applySum]
      rw [if_pos (show (0 : Int) < sum + 1 from by omega), if_pos hpos,
        cellGet_cellSet (by simpa [cellSet] using hin), cellSet_cellSet]
      refine congrArg (cellSet m) ?_
      simp only [wrapAdd8]
      omega
  · have hle : m.memory.length ≤ m.cursor := by omega
    rw [applySum_oob hle, applySum_oob hle, cellSet_oob hle]

/-- Merging one more decrement into the pending sum equals executing a
`Decrement(1)` after the pending effect. -/
lemma applySum_pred (sum : Int) (m : Mach)
    (h2 : ∀ v ∈ m.memory, v < 256) :
    applySum (sum - 1) m
      = cellSet (applySum sum m) (wrapSub8 (cellGet (applySum sum m)) 1) := by
  by_cases hin : m.cursor < m.memory.length
  · have hc : cellGet m < 256 := cellGet_lt h2
    rcases lt_trichotomy sum 0 with hneg | rfl | hpos
    · simp only [applySum]
      rw [if_neg (show ¬ (0 : Int) < sum - 1 from by omega),
        if_pos (show sum - 1 < 0 from by omega),
        if_neg (show ¬ (0 : Int) < sum from by omega), if_pos hneg,
        cellGet_cellSet (by simpa [cellSet] using hin), cellSet_cellSet]
      refine congrArg (cellSet m) ?_
      simp only [wrapSub8]
      omega
    · rw [show (0 : Int) - 1 = -1 from by norm_num, applySum_zero]
      simp only [applySum]
      rw [if_neg (by norm_num), if_pos (by norm_num)]
      refine congrArg (cellSet m) ?_
      norm_num
    · by_cases hm1 : sum = 1
      · subst hm1
        rw [show (1 : Int) - 1 = 0 from by norm_num, applySum_zero]
        have hval : applySum 1 m
            = cellSet m ((cellGet m + 1) % 256) := by
          simp only [applySum]
          rw [if_pos (by norm_num)]
          refine congrArg (cellSet m) ?_
          simp only [wrapAdd8]
          norm_num
        rw [hval, cellGet_cellSet (by simpa [cellSet] using hin),
          cellSet_cellSet]
        rw [show wrapSub8 ((cellGet m + 1) % 256) 1 = cellGet m from by
          simp only [wrapSub8]
          omega]
        exact (cellSet_self hin).symm
      · simp only [applySum]
        rw [if_pos (show (0 : Int) < sum - 1 from by omega), if_pos hpos,
          cellGet_cellSet (by simpa [cellSet] using hin), cellSet_cellSet]
        refine congrArg (cellSet m) ?_
        simp only [wrapAdd8, wrapSub8]
        omega
  · have hle : m.memory.length ≤ m.cursor := by omega
    rw [applySum_oob hle, applySum_oob hle, cellSet_oob hle]

/-- Merging one more right move into the pending displacement equals
executing a `CursorRight(1)` after the pending effect. -/
lemma applyMove_succ (mv : Int) (m : Mach)
    (hin : m.cursor < m.memory.length) :
    applyMove (mv + 1) m
      = { applyMove mv m with
          cursor := wrapped_cursor (applyMove mv m).cursor false 1
            (applyMove mv m).memory.length } := by
  have hL : 0 < m.memory.length := by omega
  refine mach_ext ?_ ?_ ?_ ?_
  · show (applyMove (mv + 1) m).cursor
      = wrapped_cursor (applyMove mv m).cursor false 1
          (applyMove mv m).memory.length
    rw [applyMove_memory, wrapped_cursor_right_def]
    have h1 := applyMove_cursor_int (mv + 1) m hin
    have h2 := applyMove_cursor_int mv m hin
    have hcast : ((((applyMove mv m).cursor + 1) % m.memory.length : Nat)
        : Int) = ((applyMove (mv + 1) m).cursor : Int) := by
      push_cast
      rw [h2, int_mod_add, h1]
      ring_nf
    have hnat : ((applyMove mv m).cursor + 1) % m.memory.length
        = (applyMove (mv + 1) m).cursor := by exact_mod_cast hcast
    exact hnat.symm
  · rw [applyMove_memory]
    exact (applyMove_memory mv m).symm
  · rw [applyMove_input]
    exact (applyMove_input mv m).symm
  · rw [applyMove_output]
    exact (applyMove_output mv m).symm

/-- Merging one more left move into the pending displacement equals
executing a `CursorLeft(1)` after the pending effect. -/
lemma applyMove_pred (mv : Int) (m : Mach)
    (hin : m.cursor < m.memory.length) :
    applyMove (mv - 1) m
      = { applyMove mv m with
          cursor := wrapped_cursor (applyMove mv m).cursor true 1
            (applyMove mv m).memory.length } := by
  have hL : 0 < m.memory.length := by omega
  refine mach_ext ?_ ?_ ?_ ?_
  · show (applyMove (mv - 1) m).cursor
      = wrapped_cursor (applyMove mv m).cursor true 1
          (applyMove mv m).memory.length
    rw [applyMove_memory]
    have h1 := applyMove_cursor_int (mv - 1) m hin
    have h2 := applyMove_cursor_int mv m hin
    have hwlt : (applyMove mv m).cursor < m.memory.length :=
      applyMove_cursor_lt mv m hin
    have hcast : ((wrapped_cursor (applyMove mv m).cursor true 1
        m.memory.length : Nat) : Int)
        = ((applyMove (mv - 1) m).cursor : Int) := by
      rw [wrapped_cursor_left_int _ _ _ hL hwlt, h2, h1]
      push_cast
      rw [int_mod_sub]
      ring_nf
    have hnat : wrapped_cursor (applyMove mv m).cursor true 1
        m.memory.length = (applyMove (mv - 1) m).cursor := by
      exact_mod_cast hcast
    exact hnat.symm
  · rw [applyMove_memory]
    exact (applyMove_memory mv m).symm
  · rw [applyMove_input]
    exact (applyMove_input mv m).symm
  · rw [applyMove_output]
    exact (applyMove_output mv m).symm


lemma flushSum_exec (sum : Int) (fuel : Nat) (k : Blk) (m : Mach) :
    execB fuel (primsB (flushSum sum) k) m = execB fuel k (applySum sum m) := by
  simp only [flushSum, applySum]
  split_ifs with h1 h2
  · rw [primsB, primsB, execB]
    rfl
  · rw [primsB, primsB, execB]
    rfl
  · rw [primsB]

lemma flushMove_exec (mv : Int) (fuel : Nat) (k : Blk) (m : Mach) :
    execB fuel (primsB (flushMove mv) k) m
      = execB fuel k (applyMove mv m) := by
  simp only [flushMove, applyMove]
  split_ifs with h1 h2
  · rw [primsB, primsB, execB]
    rfl
  · rw [primsB, primsB, execB]
    rfl
  · rw [primsB]

lemma flushPend_exec (sum mv : Int) (fuel : Nat) (k : Blk) (m : Mach) :
    execB fuel (primsB (flushSum sum ++ flushMove mv) k) m
      = execB fuel k (applyPend sum mv m) := by
  rw [primsB_append, flushSum_exec, flushMove_exec, applyPend]

lemma execB_cong_prim (t : BfToken) {ck ss : Blk}
    (hrest : ∀ fuel m, MachOk m → execB fuel ck m = execB fuel ss m) :
    ∀ fuel m, MachOk m →
      execB fuel (.cons (.prim t) ck) m
        = execB fuel (.cons (.prim t) ss) m := by
  intro fuel m hm
  rw [execB, execB]
  cases hpe : primEff t m with
  | ok m2 => exact hrest fuel m2 (machok_primEff hm hpe).1
  | error e => rfl

lemma execB_cong_block {cb b ck ss : Blk}
    (hbody : ∀ fuel m, MachOk m → execB fuel cb m = execB fuel b m)
    (hrest : ∀ fuel m, MachOk m → execB fuel ck m = execB fuel ss m) :
    ∀ fuel m, MachOk m →
      execB fuel (.cons (.block cb) ck) m
        = execB fuel (.cons (.block b) ss) m := by
  intro fuel m hm
  have hiter : ∀ j m2, MachOk m2 →
      loopIter (fun m3 => execB fuel cb m3) j m2
        = loopIter (fun m3 => execB fuel b m3) j m2 := by
    intro j
    induction j with
    | zero => intro m2 _; rfl
    | succ j ih =>
        intro m2 hm2
        rw [loopIter, loopIter]
        by_cases hz : cellGet m2 == 0
        · rw [if_pos hz, if_pos hz]
        · rw [if_neg hz, if_neg hz]
          rw [show execB fuel cb m2 = execB fuel b m2 from
            hbody fuel m2 hm2]
          cases hb2 : execB fuel b m2 with
          | ok m3 =>
              have hm3 := (execB_ok_inv b fuel m2 m3 hm2 hb2).1
              exact ih m3 hm3
          | err e m3 => rfl
          | out => rfl
  rw [execB, execB, hiter fuel m hm]
  cases hli : loopIter (fun m3 => execB fuel b m3) fuel m with
  | ok m2 =>
      have hbinv : ∀ m4 m5, MachOk m4 → execB fuel b m4 = .ok m5 →
          MachOk m5 ∧ m5.memory.length = m4.memory.length :=
        fun m4 m5 h4 h45 => execB_ok_inv b fuel m4 m5 h4 h45
      have hm2 := (loopIter_ok_inv _ hbinv fuel m m2 hm hli).1
      exact hrest fuel m2 hm2
  | err e m2 => rfl
  | out => rfl

/-- Tokens whose run-length payload is 1, as `parse` emits them. -/
def payload1 : BfToken → Bool
  | .Increment v => v == 1
  | .Decrement v => v == 1
  | .CursorLeft v => v == 1
  | .CursorRight v => v == 1
  | _ => true


lemma flushes_nonbracket (sum mv : Int) :
    ∀ t ∈ flushSum sum ++ flushMove mv,
      isStartT t = false ∧ isEndT t = false := by
  intro t ht
  rcases List.mem_append.mp ht with h | h
  · exact flushSum_nonbracket sum t h
  · exact flushMove_nonbracket mv t h

/-- The compression loop of `parse_compress`, at the block level: the
compressed token list is a block program whose execution agrees with the
original preceded by the pending flush effect. -/
lemma compress_sim (blk : Blk) :
    ∀ (ts : List BfToken), RepsB ts blk →
      (∀ t ∈ ts, payload1 t = true) →
      ∀ (sum mv : Int), sum = 0 ∨ mv = 0 →
      ∃ cblk, RepsB (compressAux sum mv ts) cblk ∧
        ∀ fuel m, MachOk m →
          execB fuel cblk m = execB fuel blk (applyPend sum mv m) := by
  cases blk with
  | nil =>
      intro ts hrep hpl sum mv hinv
      simp only [RepsB] at hrep
      subst hrep
      refine ⟨primsB (flushSum sum ++ flushMove mv) .nil, ?_, ?_⟩
      · have h := repsB_primsB (flushSum sum ++ flushMove mv) [] .nil
          (flushes_nonbracket sum mv) (by simp [RepsB])
        rw [List.append_nil] at h
        exact h
      · intro fuel m _
        exact flushPend_exec sum mv fuel .nil m
  | cons s ss =>
      intro ts hrep hpl sum mv hinv
      simp only [RepsB] at hrep
      obtain ⟨t1, t2, rfl, hs, hb⟩ := hrep
      have hpl2 : ∀ t ∈ t2, payload1 t = true :=
        fun u hu => hpl u (List.mem_append.mpr (Or.inr hu))
      cases s with
      | prim t =>
          simp only [RepsS] at hs
          obtain ⟨rfl, hS, hE⟩ := hs
          rw [List.cons_append, List.nil_append]
          have hpt : payload1 t = true :=
            hpl t (List.mem_append.mpr (Or.inl (List.mem_cons_self _ _)))
          cases t with
          | Increment v =>
              have hv : v = 1 := by simpa [payload1] using hpt
              subst hv
              rw [compressAux_inc]
              obtain ⟨ck, hckR, hckE⟩ := compress_sim ss t2 hb hpl2
                (sum + 1) 0 (Or.inr rfl)
              refine ⟨primsB (flushMove mv) ck, ?_, ?_⟩
              · exact repsB_primsB _ _ _ (flushMove_nonbracket mv) hckR
              · intro fuel m hm
                obtain ⟨hm1, hm2, hm3⟩ := hm
                rw [flushMove_exec,
                  hckE fuel (applyMove mv m)
                    (machok_applyMove mv ⟨hm1, hm2, hm3⟩)]
                rw [execB]
                show execB fuel ss (applyPend (sum + 1) 0 (applyMove mv m))
                  = execB fuel ss (cellSet (applyPend sum mv m)
                      (wrapAdd8 (cellGet (applyPend sum mv m)) 1))
                refine congrArg (execB fuel ss) ?_
                rcases hinv with rfl | rfl
                · have hX := applySum_succ 0 (applyMove mv m)
                    (machok_applyMove mv ⟨hm1, hm2, hm3⟩).2.1
                  rw [applySum_zero] at hX
                  rw [applyPend, applyMove_zero, hX, applyPend,
                    applySum_zero]
                · have hX := applySum_succ sum m hm2
                  rw [applyMove_zero, applyPend, applyMove_zero, hX,
                    applyPend, applyMove_zero]
          | Decrement v =>
              have hv : v = 1 := by simpa [payload1] using hpt
              subst hv
              rw [compressAux_dec]
              obtain ⟨ck, hckR, hckE⟩ := compress_sim ss t2 hb hpl2
                (sum - 1) 0 (Or.inr rfl)
              refine ⟨primsB (flushMove mv) ck, ?_, ?_⟩
              · exact repsB_primsB _ _ _ (flushMove_nonbracket mv) hckR
              · intro fuel m hm
                obtain ⟨hm1, hm2, hm3⟩ := hm
                rw [flushMove_exec,
                  hckE fuel (applyMove mv m)
                    (machok_applyMove mv ⟨hm1, hm2, hm3⟩)]
                rw [execB]
                show execB fuel ss (applyPend (sum - 1) 0 (applyMove mv m))
                  = execB fuel ss (cellSet (applyPend sum mv m)
                      (wrapSub8 (cellGet (applyPend sum mv m)) 1))
                refine congrArg (execB fuel ss) ?_
                rcases hinv with rfl | rfl
                · have hX := applySum_pred 0 (applyMove mv m)
                    (machok_applyMove mv ⟨hm1, hm2, hm3⟩).2.1
                  rw [applySum_zero] at hX
                  rw [applyPend, applyMove_zero, hX, applyPend,
                    applySum_zero]
                · have hX := applySum_pred sum m hm2
                  rw [applyMove_zero, applyPend, applyMove_zero, hX,
                    applyPend, applyMove_zero]
          | CursorRight v =>
              have hv : v = 1 := by simpa [payload1] using hpt
              subst hv
              rw [compressAux_right]
              obtain ⟨ck, hckR, hckE⟩ := compress_sim ss t2 hb hpl2
                0 (mv + 1) (Or.inl rfl)
              refine ⟨primsB (flushSum sum) ck, ?_, ?_⟩
              · exact repsB_primsB _ _ _ (flushSum_nonbracket sum) hckR
              · intro fuel m hm
                obtain ⟨hm1, hm2, hm3⟩ := hm
                rw [flushSum_exec,
                  hckE fuel (applySum sum m)
                    (machok_applySum sum ⟨hm1, hm2, hm3⟩)]
                rw [execB]
                show execB fuel ss (applyPend 0 (mv + 1) (applySum sum m))
                  = execB fuel ss { applyPend sum mv m with
                      cursor := wrapped_cursor (applyPend sum mv m).cursor
                        false 1 (applyPend sum mv m).memory.length }
                refine congrArg (execB fuel ss) ?_
                have hZin : (applySum sum m).cursor
                    < (applySum sum m).memory.length := by
                  rw [applySum_cursor, applySum_memlen]
                  exact hm1
                rw [applyPend, applySum_zero,
                  applyMove_succ mv (applySum sum m) hZin, applyPend]
          | CursorLeft v =>
              have hv : v = 1 := by simpa [payload1] using hpt
              subst hv
              rw [compressAux_left]
              obtain ⟨ck, hckR, hckE⟩ := compress_sim ss t2 hb hpl2
                0 (mv - 1) (Or.inl rfl)
              refine ⟨primsB (flushSum sum) ck, ?_, ?_⟩
              · exact repsB_primsB _ _ _ (flushSum_nonbracket sum) hckR
              · intro fuel m hm
                obtain ⟨hm1, hm2, hm3⟩ := hm
                rw [flushSum_exec,
                  hckE fuel (applySum sum m)
                    (machok_applySum sum ⟨hm1, hm2, hm3⟩)]
                rw [execB]
                show execB fuel ss (applyPend 0 (mv - 1) (applySum sum m))
                  = execB fuel ss { applyPend sum mv m with
                      cursor := wrapped_cursor (applyPend sum mv m).cursor
                        true 1 (applyPend sum mv m).memory.length }
                refine congrArg (execB fuel ss) ?_
                have hZin : (applySum sum m).cursor
                    < (applySum sum m).memory.length := by
                  rw [applySum_cursor, applySum_memlen]
                  exact hm1
                rw [applyPend, applySum_zero,
                  applyMove_pred mv (applySum sum m) hZin, applyPend]
          | NotCommand c =>
              rw [compressAux_barrier_cons (.NotCommand c) rfl rfl]
              obtain ⟨ck, hckR, hckE⟩ := compress_sim ss t2 hb hpl2
                0 0 (Or.inl rfl)
              refine ⟨primsB (flushSum sum ++ flushMove mv)
                (.cons (.prim (.NotCommand c)) ck), ?_, ?_⟩
              · have h := repsB_primsB (flushSum sum ++ flushMove mv)
                  (.NotCommand c :: compressAux 0 0 t2)
                  (.cons (.prim (.NotCommand c)) ck)
                  (flushes_nonbracket sum mv)
                  ⟨[.NotCommand c], compressAux 0 0 t2, rfl,
                    ⟨rfl, rfl, rfl⟩, hckR⟩
                rw [List.append_assoc] at h
                exact h
              · intro fuel m hm
                rw [flushPend_exec]
                exact execB_cong_prim (.NotCommand c)
                  (fun fuel2 m2 hm2 => (hckE fuel2 m2 hm2).trans
                    (by rw [applyPend_zero])) fuel
                  (applyPend sum mv m) (machok_applyPend sum mv hm)
          | PrintChar =>
              rw [compressAux_barrier_cons .PrintChar rfl rfl]
              obtain ⟨ck, hckR, hckE⟩ := compress_sim ss t2 hb hpl2
                0 0 (Or.inl rfl)
              refine ⟨primsB (flushSum sum ++ flushMove mv)
                (.cons (.prim .PrintChar) ck), ?_, ?_⟩
              · have h := repsB_primsB (flushSum sum ++ flushMove mv)
                  (.PrintChar :: compressAux 0 0 t2)
                  (.cons (.prim .PrintChar) ck)
                  (flushes_nonbracket sum mv)
                  ⟨[.PrintChar], compressAux 0 0 t2, rfl,
                    ⟨rfl, rfl, rfl⟩, hckR⟩
                rw [List.append_assoc] at h
                exact h
              · intro fuel m hm
                rw [flushPend_exec]
                exact execB_cong_prim .PrintChar
                  (fun fuel2 m2 hm2 => (hckE fuel2 m2 hm2).trans
                    (by rw [applyPend_zero])) fuel
                  (applyPend sum mv m) (machok_applyPend sum mv hm)
          | InputChar =>
              rw [compressAux_barrier_cons .InputChar rfl rfl]
              obtain ⟨ck, hckR, hckE⟩ := compress_sim ss t2 hb hpl2
                0 0 (Or.inl rfl)
              refine ⟨primsB (flushSum sum ++ flushMove mv)
                (.cons (.prim .InputChar) ck), ?_, ?_⟩
              · have h := repsB_primsB (flushSum sum ++ flushMove mv)
                  (.InputChar :: compressAux 0 0 t2)
                  (.cons (.prim .InputChar) ck)
                  (flushes_nonbracket sum mv)
                  ⟨[.InputChar], compressAux 0 0 t2, rfl,
                    ⟨rfl, rfl, rfl⟩, hckR⟩
                rw [List.append_assoc] at h
                exact h
              · intro fuel m hm
                rw [flushPend_exec]
                exact execB_cong_prim .InputChar
                  (fun fuel2 m2 hm2 => (hckE fuel2 m2 hm2).trans
                    (by rw [applyPend_zero])) fuel
                  (applyPend sum mv m) (machok_applyPend sum mv hm)
          | LoopStart z => exact absurd hS (by simp [isStartT])
          | LoopEnd z => exact absurd hE (by simp [isEndT])
      | block b =>
          simp only [RepsS] at hs
          obtain ⟨x, y, body, rfl, hbody⟩ := hs
          have hpl_body : ∀ u ∈ body, payload1 u = true := by
            intro u hu
            refine hpl u ?_
            simp [hu]
          have hts : (BfToken.LoopStart x :: body ++ [BfToken.LoopEnd y])
              ++ t2
              = BfToken.LoopStart x
                  :: (body ++ BfToken.LoopEnd y :: t2) := by
            simp
          rw [hts, compressAux_barrier_cons (.LoopStart x) rfl rfl,
            compressAux_barrier (.LoopEnd y) rfl rfl body 0 0 t2]
          obtain ⟨cb, hcbR, hcbE⟩ := compress_sim b body hbody hpl_body
            0 0 (Or.inl rfl)
          obtain ⟨ck, hckR, hckE⟩ := compress_sim ss t2 hb hpl2
            0 0 (Or.inl rfl)
          refine ⟨primsB (flushSum sum ++ flushMove mv)
            (.cons (.block cb) ck), ?_, ?_⟩
          · have h := repsB_primsB (flushSum sum ++ flushMove mv)
              (.LoopStart x :: (compressAux 0 0 body ++ .LoopEnd y ::
                compressAux 0 0 t2)) (.cons (.block cb) ck)
              (flushes_nonbracket sum mv)
              ⟨.LoopStart x :: compressAux 0 0 body ++ [.LoopEnd y],
                compressAux 0 0 t2, by simp,
                ⟨x, y, compressAux 0 0 body, rfl, hcbR⟩, hckR⟩
            rw [List.append_assoc] at h
            exact h
          · intro fuel m hm
            rw [flushPend_exec]
            exact execB_cong_block
              (fun fuel2 m2 hm2 => (hcbE fuel2 m2 hm2).trans
                (by rw [applyPend_zero]))
              (fun fuel2 m2 hm2 => (hckE fuel2 m2 hm2).trans
                (by rw [applyPend_zero]))
              fuel (applyPend sum mv m) (machok_applyPend sum mv hm)
termination_by sizeOf blk


/-- `seg` occupies positions `a, a+1, …` of `T`. -/
def SegAt (T : List BfToken) (a : Nat) (seg : List BfToken) : Prop :=
  ∀ k, k < seg.length → T[a + k]? = seg[k]?

lemma segAt_cons_head {T : List BfToken} {a : Nat} {t : BfToken}
    {seg : List BfToken} (h : SegAt T a (t :: seg)) : T[a]? = some t := by
  have h2 := h 0 (by simp)
  simpa using h2

lemma segAt_cons_tail {T : List BfToken} {a : Nat} {t : BfToken}
    {seg : List BfToken} (h : SegAt T a (t :: seg)) :
    SegAt T (a + 1) seg := by
  intro k hk
  have h2 := h (k + 1) (by simp only [List.length_cons]; omega)
  rw [show a + 1 + k = a + (k + 1) from by omega]
  simpa using h2

lemma segAt_append_left {T : List BfToken} {a : Nat} {x y : List BfToken}
    (h : SegAt T a (x ++ y)) : SegAt T a x := by
  intro k hk
  have h2 := h k (by simp only [List.length_append]; omega)
  rw [List.getElem?_append, if_pos hk] at h2
  exact h2

lemma segAt_append_right {T : List BfToken} {a : Nat} {x y : List BfToken}
    (h : SegAt T a (x ++ y)) : SegAt T (a + x.length) y := by
  intro k hk
  have h2 := h (x.length + k)
    (by simp only [List.length_append]; omega)
  rw [List.getElem?_append, if_neg (by omega)] at h2
  rw [show x.length + k - x.length = k from by omega] at h2
  rw [show a + x.length + k = a + (x.length + k) from by omega]
  exact h2

lemma step_prim_cont {T : List BfToken} {t : BfToken} {a : Nat}
    (st : List Nat) (sc : Nat) {m m2 : Mach}
    (hT : T[a]? = some t) (hS : isStartT t = false)
    (hE : isEndT t = false) (hp : primEff t m = .ok m2) :
    step T ⟨a, st, false, sc, m⟩ = .cont ⟨a + 1, st, false, sc, m2⟩ := by
  cases t with
  | NotCommand c =>
      simp only [step, hT, Bool.false_and, Bool.true_and, Bool.and_false, Bool.and_true, Bool.not_false, Bool.not_true, Bool.false_eq_true, if_false, if_true]
      rw [show m2 = m from (Except.ok.inj hp).symm]
  | Increment v =>
      simp only [step, hT, Bool.false_and, Bool.true_and, Bool.and_false, Bool.and_true, Bool.not_false, Bool.not_true, Bool.false_eq_true, if_false, if_true]
      rw [show m2 = cellSet m (wrapAdd8 (cellGet m) v) from
        (Except.ok.inj hp).symm]
  | Decrement v =>
      simp only [step, hT, Bool.false_and, Bool.true_and, Bool.and_false, Bool.and_true, Bool.not_false, Bool.not_true, Bool.false_eq_true, if_false, if_true]
      rw [show m2 = cellSet m (wrapSub8 (cellGet m) v) from
        (Except.ok.inj hp).symm]
  | CursorLeft v =>
      simp only [step, hT, Bool.false_and, Bool.true_and, Bool.and_false, Bool.and_true, Bool.not_false, Bool.not_true, Bool.false_eq_true, if_false, if_true]
      rw [show m2 = { m with
            cursor := wrapped_cursor m.cursor true v
              m.memory.length } from (Except.ok.inj hp).symm]
  | CursorRight v =>
      simp only [step, hT, Bool.false_and, Bool.true_and, Bool.and_false, Bool.and_true, Bool.not_false, Bool.not_true, Bool.false_eq_true, if_false, if_true]
      rw [show m2 = { m with
            cursor := wrapped_cursor m.cursor false v
              m.memory.length } from (Except.ok.inj hp).symm]
  | LoopStart z => exact absurd hS (by simp [isStartT])
  | LoopEnd z => exact absurd hE (by simp [isEndT])
  | PrintChar =>
      simp only [step, hT, Bool.false_and, Bool.true_and, Bool.and_false, Bool.and_true, Bool.not_false, Bool.not_true, Bool.false_eq_true, if_false, if_true]
      rw [show m2 = { m with
            output := m.output ++ [cellGet m] } from
        (Except.ok.inj hp).symm]
  | InputChar =>
      cases hin : m.input with
      | nil =>
          rw [primEff, hin] at hp
          exact absurd hp (by simp)
      | cons b ins =>
          rw [primEff, hin] at hp
          simp only [step, hT, hin, Bool.false_and, Bool.true_and, Bool.and_false, Bool.and_true, Bool.not_false, Bool.not_true, Bool.false_eq_true, if_false, if_true]
          rw [show m2 = cellSet { m with input := ins } b from
            (Except.ok.inj hp).symm]

lemma step_prim_fail {T : List BfToken} {t : BfToken} {a : Nat}
    (st : List Nat) (sc : Nat) {m : Mach}
    (hT : T[a]? = some t) (hS : isStartT t = false)
    (hE : isEndT t = false) {e : BfError}
    (hp : primEff t m = .error e) :
    step T ⟨a, st, false, sc, m⟩ = .fail e m := by
  cases t with
  | NotCommand c => exact absurd hp (by simp [primEff])
  | Increment v => exact absurd hp (by simp [primEff])
  | Decrement v => exact absurd hp (by simp [primEff])
  | CursorLeft v => exact absurd hp (by simp [primEff])
  | CursorRight v => exact absurd hp (by simp [primEff])
  | LoopStart z => exact absurd hS (by simp [isStartT])
  | LoopEnd z => exact absurd hE (by simp [isEndT])
  | PrintChar => exact absurd hp (by simp [primEff])
  | InputChar =>
      cases hin : m.input with
      | nil =>
          rw [primEff, hin] at hp
          simp only [step, hT, hin, Bool.false_and, Bool.true_and, Bool.and_false, Bool.and_true, Bool.not_false, Bool.not_true, Bool.false_eq_true, if_false, if_true]
          rw [show e = BfError.inputEof from (Except.error.inj hp).symm]
      | cons b ins =>
          rw [primEff, hin] at hp
          exact absurd hp (by simp)

lemma step_guard {T : List BfToken} {t : BfToken} {a : Nat}
    {st : List Nat} {sc : Nat} {m : Mach}
    (hT : T[a]? = some t) (hS : isStartT t = false)
    (hE : isEndT t = false) :
    step T ⟨a, st, true, sc, m⟩ = .cont ⟨a + 1, st, true, sc, m⟩ := by
  simp only [step, hT, hS, hE, Bool.false_and, Bool.true_and, Bool.and_false, Bool.and_true, Bool.not_false, Bool.not_true, Bool.false_eq_true, if_false, if_true]

lemma step_loopstart_zero {T : List BfToken} {a x : Nat}
    {st : List Nat} {sc : Nat} {m : Mach}
    (hT : T[a]? = some (.LoopStart x)) (hz : cellGet m = 0) :
    step T ⟨a, st, false, sc, m⟩
      = .cont ⟨a + 1, a :: st, true, st.length, m⟩ := by
  simp only [step, hT, isStartT, isEndT, hz, beq_self_eq_true, beq_iff_eq, Bool.false_and, Bool.true_and, Bool.and_false, Bool.and_true, Bool.not_false, Bool.not_true, Bool.false_eq_true, if_false, if_true]

lemma step_loopstart_push {T : List BfToken} {a x : Nat}
    {st : List Nat} {sc : Nat} {m : Mach}
    (hT : T[a]? = some (.LoopStart x)) (hz : cellGet m ≠ 0) :
    step T ⟨a, st, false, sc, m⟩
      = .cont ⟨a + 1, a :: st, false, sc, m⟩ := by
  simp only [step, hT, isStartT, isEndT, hz, beq_self_eq_true, beq_iff_eq, Bool.false_and, Bool.true_and, Bool.and_false, Bool.and_true, Bool.not_false, Bool.not_true, Bool.false_eq_true, if_false, if_true]

lemma step_loopstart_skip {T : List BfToken} {a x : Nat}
    {st : List Nat} {sc : Nat} {m : Mach}
    (hT : T[a]? = some (.LoopStart x)) :
    step T ⟨a, st, true, sc, m⟩
      = .cont ⟨a + 1, a :: st, true, sc, m⟩ := by
  simp only [step, hT, isStartT, isEndT, Bool.false_and, Bool.true_and, Bool.and_false, Bool.and_true, Bool.not_false, Bool.not_true, Bool.false_eq_true, if_false, if_true]

lemma step_loopend_pop {T : List BfToken} {a y j : Nat}
    {rest : List Nat} {sc : Nat} {m : Mach}
    (hT : T[a]? = some (.LoopEnd y)) :
    step T ⟨a, j :: rest, false, sc, m⟩ = .cont ⟨j, rest, false, sc, m⟩ := by
  simp only [step, hT, isStartT, isEndT, Bool.false_and, Bool.true_and, Bool.and_false, Bool.and_true, Bool.not_false, Bool.not_true, Bool.false_eq_true, if_false, if_true]

lemma step_loopend_skip {T : List BfToken} {a y j : Nat}
    {rest : List Nat} {sc : Nat} {m : Mach}
    (hT : T[a]? = some (.LoopEnd y)) :
    step T ⟨a, j :: rest, true, sc, m⟩
      = .cont ⟨a + 1, rest, rest.length != sc, sc, m⟩ := by
  simp only [step, hT, isStartT, isEndT, Bool.false_and, Bool.true_and, Bool.and_false, Bool.and_true, Bool.not_false, Bool.not_true, Bool.false_eq_true, if_false, if_true]

lemma step_halt {T : List BfToken} {a : Nat} {st : List Nat} {sk : Bool}
    {sc : Nat} {m : Mach} (hT : T[a]? = none) :
    step T ⟨a, st, sk, sc, m⟩ = .halt m := by
  simp only [step, hT, Bool.false_and, Bool.true_and, Bool.and_false, Bool.and_true, Bool.not_false, Bool.not_true, Bool.false_eq_true, if_false, if_true]


lemma stepsTo_one {T : List BfToken} {s s2 : ExecState}
    (h : step T s = .cont s2) : stepsTo T 1 s = some s2 := by
  show (match step T s with
    | .cont s3 => stepsTo T 0 s3
    | _ => none) = some s2
  rw [h]
  rfl

/-- The skip mode of `BfMachine::run` walks over a bracket-balanced body
and the closing `LoopEnd`, leaving the machine untouched: it pops the
pushed entry and clears the flag exactly when the stack is back at the
recorded depth. -/
lemma skip_walk (T : List BfToken) (seg : List BfToken) (hcl : Closes seg 0) :
    ∀ (i j : Nat) (st : List Nat) (sc : Nat) (m : Mach) (e : Nat),
      SegAt T i seg → T[i + seg.length]? = some (.LoopEnd e) →
      sc ≤ st.length →
      ∃ n, stepsTo T n ⟨i, j :: st, true, sc, m⟩
        = some ⟨i + seg.length + 1, st, st.length != sc, sc, m⟩ := by
  cases hseg : seg with
  | nil =>
      intro i j st sc m e hsa hend hsc
      refine ⟨1, ?_⟩
      have hT0 : T[i]? = some (BfToken.LoopEnd e) := by simpa using hend
      rw [stepsTo_one (step_loopend_skip hT0)]
      simp
  | cons t ts =>
      intro i j st sc m e hsa hend hsc
      rw [hseg] at hcl
      cases hcl with
      | atom h1 h2 hcl2 =>
          obtain ⟨n, hn⟩ := skip_walk T ts hcl2 (i + 1) j st sc m e
            (segAt_cons_tail hsa)
            (by rw [show i + 1 + ts.length = i + (t :: ts).length from by
              simp only [List.length_cons]; omega]; exact hend) hsc
          refine ⟨1 + n, ?_⟩
          rw [stepsTo_comp 1 _ _ n
            (stepsTo_one (step_guard (segAt_cons_head hsa) h1 h2)), hn]
          rw [show i + (t :: ts).length + 1 = i + 1 + ts.length + 1 from by
            simp only [List.length_cons]; omega]
      | opn hcl2 =>
          rename_i tg
          obtain ⟨a1, tg1, b1, hsplit, ha1, hb1⟩ := closes_succ_split hcl2
          have hsa2 : SegAt T (i + 1) (a1 ++ .LoopEnd tg1 :: b1) := by
            rw [← hsplit]
            exact segAt_cons_tail hsa
          have hsaA : SegAt T (i + 1) a1 := segAt_append_left hsa2
          have hsaR := segAt_append_right hsa2
          have hsaE : T[i + 1 + a1.length]? = some (.LoopEnd tg1) :=
            segAt_cons_head hsaR
          have hsaB : SegAt T (i + 1 + a1.length + 1) b1 :=
            segAt_cons_tail hsaR
          obtain ⟨n1, hn1⟩ := skip_walk T a1 ha1 (i + 1) i (j :: st) sc m tg1
            hsaA hsaE (by simp only [List.length_cons]; omega)
          rw [show ((j :: st).length != sc) = true from by
            simp only [List.length_cons, bne_iff_ne]
            omega] at hn1
          obtain ⟨n2, hn2⟩ := skip_walk T b1 hb1 (i + 1 + a1.length + 1) j st
            sc m e hsaB (by
              rw [show i + 1 + a1.length + 1 + b1.length
                  = i + (BfToken.LoopStart tg :: ts).length from by
                rw [hsplit]
                simp only [List.length_cons, List.length_append]
                omega]
              exact hend) hsc
          refine ⟨1 + (n1 + n2), ?_⟩
          rw [stepsTo_comp 1 _ _ (n1 + n2)
            (stepsTo_one (step_loopstart_skip (segAt_cons_head hsa)))]
          rw [stepsTo_comp n1 _ _ n2 hn1, hn2]
          rw [show i + (BfToken.LoopStart tg :: ts).length + 1
              = i + 1 + a1.length + 1 + b1.length + 1 from by
            rw [hsplit]
            simp only [List.length_cons, List.length_append]
            omega]
termination_by seg.length
decreasing_by
  · subst hseg
    simp only [List.length_cons]
    omega
  · subst hseg
    have := congrArg List.length hsplit
    simp only [List.length_append, List.length_cons] at this
    simp only [List.length_cons]
    omega
  · subst hseg
    have := congrArg List.length hsplit
    simp only [List.length_append, List.length_cons] at this
    simp only [List.length_cons]
    omega


lemma runFuel_one_fail {T : List BfToken} {s : ExecState} {e : BfError}
    {m : Mach} (h : step T s = .fail e m) : runFuel T 1 s = .failed e m := by
  show (match step T s with
    | .cont s2 => runFuel T 0 s2
    | .halt m2 => .halted m2
    | .fail e2 m2 => .failed e2 m2) = .failed e m
  rw [h]

lemma runFuel_one_halt {T : List BfToken} {s : ExecState}
    {m : Mach} (h : step T s = .halt m) : runFuel T 1 s = .halted m := by
  show (match step T s with
    | .cont s2 => runFuel T 0 s2
    | .halt m2 => .halted m2
    | .fail e2 m2 => .failed e2 m2) = .halted m
  rw [h]

/-- Simulation of one source-level loop `[ body ]` sitting at positions
`a … a+B+1` of `T`, given a simulation of its body. -/
lemma loop_sim (T : List BfToken) (a B x y : Nat)
    (bodyToks : List BfToken) (hBlen : bodyToks.length = B)
    (hclb : Closes bodyToks 0)
    (hTs : T[a]? = some (.LoopStart x))
    (hTe : T[a + 1 + B]? = some (.LoopEnd y))
    (hbseg : SegAt T (a + 1) bodyToks)
    (bodyF : Mach → ERes) (fb : Nat)
    (hok : ∀ (m m2 : Mach) (st : List Nat) (sc : Nat), bodyF m = .ok m2 →
      ∃ n sc2, stepsTo T n ⟨a + 1, st, false, sc, m⟩
        = some ⟨a + 1 + B, st, false, sc2, m2⟩)
    (herr : ∀ (m : Mach) (e : BfError) (m2 : Mach) (st : List Nat)
      (sc : Nat), bodyF m = .err e m2 →
      ∃ n, runFuel T n ⟨a + 1, st, false, sc, m⟩ = .failed e m2)
    (hout : ∀ (m : Mach) (st : List Nat) (sc : Nat), bodyF m = .out →
      ∃ n s2, fb ≤ n ∧ stepsTo T n ⟨a + 1, st, false, sc, m⟩ = some s2) :
    ∀ (j : Nat) (m : Mach) (st : List Nat) (sc : Nat),
      (∀ m2, loopIter bodyF j m = .ok m2 →
        ∃ n sc2, stepsTo T n ⟨a, st, false, sc, m⟩
          = some ⟨a + B + 2, st, false, sc2, m2⟩)
      ∧ (∀ e m2, loopIter bodyF j m = .err e m2 →
        ∃ n, runFuel T n ⟨a, st, false, sc, m⟩ = .failed e m2)
      ∧ (loopIter bodyF j m = .out →
        ∃ n s2, (j ≤ n ∨ fb ≤ n) ∧
          stepsTo T n ⟨a, st, false, sc, m⟩ = some s2) := by
  have hexit : ∀ (m2 : Mach) (st2 : List Nat) (sc2 : Nat), cellGet m2 = 0 →
      ∃ n, stepsTo T n ⟨a, st2, false, sc2, m2⟩
        = some ⟨a + B + 2, st2, false, st2.length, m2⟩ := by
    intro m2 st2 sc2 hz
    obtain ⟨n1, hn1⟩ := skip_walk T bodyToks hclb (a + 1) a st2 st2.length
      m2 y hbseg (by rw [hBlen]; exact hTe) (le_refl _)
    rw [show (st2.length != st2.length) = false from by simp] at hn1
    refine ⟨1 + n1, ?_⟩
    rw [stepsTo_comp 1 _ _ n1 (stepsTo_one (step_loopstart_zero hTs hz)),
      hn1]
    rw [show a + 1 + bodyToks.length + 1 = a + B + 2 from by
      rw [hBlen]; omega]
  intro j
  induction j with
  | zero =>
      intro m st sc
      rw [loopIter]
      by_cases hz : cellGet m = 0
      · rw [if_pos (by simp [hz])]
        refine ⟨?_, ?_, ?_⟩
        · intro m2 h2
          rw [show m2 = m from (ERes.ok.inj h2).symm]
          obtain ⟨n, hn⟩ := hexit m st sc hz
          exact ⟨n, st.length, hn⟩
        · intro e m2 h2
          exact absurd h2 (by simp)
        · intro h2
          exact absurd h2 (by simp)
      · rw [if_neg (by simp [hz])]
        refine ⟨?_, ?_, ?_⟩
        · intro m2 h2
          exact absurd h2 (by simp)
        · intro e m2 h2
          exact absurd h2 (by simp)
        · intro _
          exact ⟨0, ⟨a, st, false, sc, m⟩, Or.inl (by omega), rfl⟩
  | succ j ih =>
      intro m st sc
      rw [loopIter]
      by_cases hz : cellGet m = 0
      · rw [if_pos (by simp [hz])]
        refine ⟨?_, ?_, ?_⟩
        · intro m2 h2
          rw [show m2 = m from (ERes.ok.inj h2).symm]
          obtain ⟨n, hn⟩ := hexit m st sc hz
          exact ⟨n, st.length, hn⟩
        · intro e m2 h2
          exact absurd h2 (by simp)
        · intro h2
          exact absurd h2 (by simp)
      · rw [if_neg (by simp [hz])]
        cases hbm : bodyF m with
        | ok m2 =>
            obtain ⟨n1, sc2, hn1⟩ := hok m m2 (a :: st) sc hbm
            have hpre : stepsTo T (1 + n1 + 1) ⟨a, st, false, sc, m⟩
                = some ⟨a, st, false, sc2, m2⟩ := by
              rw [show 1 + n1 + 1 = 1 + (n1 + 1) from by omega]
              rw [stepsTo_comp 1 _ _ (n1 + 1)
                (stepsTo_one (step_loopstart_push hTs hz))]
              rw [stepsTo_comp n1 _ _ 1 hn1]
              exact stepsTo_one (step_loopend_pop hTe)
            refine ⟨?_, ?_, ?_⟩
            · intro mf hf
              obtain ⟨n2, sc3, hn2⟩ := (ih m2 st sc2).1 mf hf
              refine ⟨1 + n1 + 1 + n2, sc3, ?_⟩
              rw [stepsTo_comp _ _ _ n2 hpre, hn2]
            · intro e mf hf
              obtain ⟨n2, hn2⟩ := (ih m2 st sc2).2.1 e mf hf
              refine ⟨1 + n1 + 1 + n2, ?_⟩
              rw [stepsTo_runFuel _ _ _ n2 hpre, hn2]
            · intro hf
              obtain ⟨n2, s2, hle, hn2⟩ := (ih m2 st sc2).2.2 hf
              refine ⟨1 + n1 + 1 + n2, s2, ?_, ?_⟩
              · rcases hle with h | h
                · exact Or.inl (by omega)
                · exact Or.inr (by omega)
              · rw [stepsTo_comp _ _ _ n2 hpre, hn2]
        | err e2 m2 =>
            refine ⟨?_, ?_, ?_⟩
            · intro mf hf
              exact ERes.noConfusion hf
            · intro e mf hf
              obtain ⟨he, hm⟩ := ERes.err.inj hf
              obtain ⟨n1, hn1⟩ := herr m e2 m2 (a :: st) sc hbm
              refine ⟨1 + n1, ?_⟩
              rw [stepsTo_runFuel 1 _ _ n1
                (stepsTo_one (step_loopstart_push hTs hz)), hn1, he, hm]
            · intro hf
              exact ERes.noConfusion hf
        | out =>
            refine ⟨?_, ?_, ?_⟩
            · intro mf hf
              exact ERes.noConfusion hf
            · intro e mf hf
              exact ERes.noConfusion hf
            · intro _
              obtain ⟨n1, s2, hfb, hn1⟩ := hout m (a :: st) sc hbm
              refine ⟨1 + n1, s2, Or.inr (by omega), ?_⟩
              rw [stepsTo_comp 1 _ _ n1
                (stepsTo_one (step_loopstart_push hTs hz)), hn1]


/-- The machine of `bf_machine.rs` simulates the structural executor on
any represented segment: normal completion reaches the end of the segment
with the same machine, errors are reproduced, and running out of loop
fuel means the machine is still going after at least `fuel` steps. -/
lemma execSim (T : List BfToken) (blk : Blk) :
    ∀ (fuel : Nat) (seg : List BfToken) (a : Nat),
      RepsB seg blk → SegAt T a seg →
      ∀ (st : List Nat) (sc : Nat) (m : Mach),
      (∀ m2, execB fuel blk m = .ok m2 →
        ∃ n sc2, stepsTo T n ⟨a, st, false, sc, m⟩
          = some ⟨a + seg.length, st, false, sc2, m2⟩)
      ∧ (∀ e m2, execB fuel blk m = .err e m2 →
        ∃ n, runFuel T n ⟨a, st, false, sc, m⟩ = .failed e m2)
      ∧ (execB fuel blk m = .out →
        ∃ n s2, fuel ≤ n ∧ stepsTo T n ⟨a, st, false, sc, m⟩ = some s2) := by
  cases blk with
  | nil =>
      intro fuel seg a hrep hsa st sc m
      simp only [RepsB] at hrep
      subst hrep
      refine ⟨?_, ?_, ?_⟩
      · intro m2 h
        rw [execB] at h
        rw [show m2 = m from (ERes.ok.inj h).symm]
        exact ⟨0, sc, by simp [stepsTo]⟩
      · intro e m2 h
        rw [execB] at h
        exact ERes.noConfusion h
      · intro h
        rw [execB] at h
        exact ERes.noConfusion h
  | cons s ss =>
      cases s with
      | prim t =>
          intro fuel seg a hrep hsa st sc m
          simp only [RepsB] at hrep
          obtain ⟨t1, t2, hseq, hs, hb⟩ := hrep
          simp only [RepsS] at hs
          obtain ⟨rfl, hS, hE⟩ := hs
          subst hseq
          simp only [List.cons_append, List.nil_append] at hsa ⊢
          have hhd : T[a]? = some t := segAt_cons_head hsa
          have harms := execSim T ss fuel t2 (a + 1) hb
            (segAt_cons_tail hsa) st sc
          cases hpe : primEff t m with
          | ok m2 =>
              have hstep := step_prim_cont st sc hhd hS hE hpe
              refine ⟨?_, ?_, ?_⟩
              · intro mf hf
                rw [execB, hpe] at hf
                obtain ⟨n, sc2, hn⟩ := (harms m2).1 mf hf
                refine ⟨1 + n, sc2, ?_⟩
                rw [stepsTo_comp 1 _ _ n (stepsTo_one hstep), hn]
                rw [show a + (t :: t2).length = a + 1 + t2.length from by
                  simp only [List.length_cons]; omega]
              · intro e mf hf
                rw [execB, hpe] at hf
                obtain ⟨n, hn⟩ := (harms m2).2.1 e mf hf
                refine ⟨1 + n, ?_⟩
                rw [stepsTo_runFuel 1 _ _ n (stepsTo_one hstep), hn]
              · intro hf
                rw [execB, hpe] at hf
                obtain ⟨n, s2, hle, hn⟩ := (harms m2).2.2 hf
                refine ⟨1 + n, s2, by omega, ?_⟩
                rw [stepsTo_comp 1 _ _ n (stepsTo_one hstep), hn]
          | error e2 =>
              have hstep := step_prim_fail st sc hhd hS hE hpe
              refine ⟨?_, ?_, ?_⟩
              · intro mf hf
                rw [execB, hpe] at hf
                exact ERes.noConfusion hf
              · intro e mf hf
                rw [execB, hpe] at hf
                obtain ⟨he, hm⟩ := ERes.err.inj hf
                refine ⟨1, ?_⟩
                rw [runFuel_one_fail hstep, he, hm]
              · intro hf
                rw [execB, hpe] at hf
                exact ERes.noConfusion hf
      | block b =>
          intro fuel seg a hrep hsa st sc m
          simp only [RepsB] at hrep
          obtain ⟨t1, t2, hseq, hs, hb⟩ := hrep
          simp only [RepsS] at hs
          obtain ⟨x, y, body, rfl, hbody⟩ := hs
          subst hseq
          have hlist : (BfToken.LoopStart x :: body ++ [BfToken.LoopEnd y])
              ++ t2
              = BfToken.LoopStart x :: (body ++ BfToken.LoopEnd y :: t2) :=
            by simp
          rw [hlist] at hsa ⊢
          have hTs : T[a]? = some (.LoopStart x) := segAt_cons_head hsa
          have hrest := segAt_cons_tail hsa
          have hbseg : SegAt T (a + 1) body := segAt_append_left hrest
          have hTer := segAt_append_right hrest
          have hTe : T[a + 1 + body.length]? = some (.LoopEnd y) :=
            segAt_cons_head hTer
          have hseg2 : SegAt T (a + 1 + body.length + 1) t2 :=
            segAt_cons_tail hTer
          have hclb : Closes body 0 := repsB_closes b body hbody
          have hbarms := execSim T b fuel body (a + 1) hbody hbseg
          have harmsLoop := loop_sim T a body.length x y body rfl hclb hTs
            hTe hbseg (fun m2 => execB fuel b m2) fuel
            (fun m1 m2 st1 sc1 h1 => (hbarms st1 sc1 m1).1 m2 h1)
            (fun m1 e m2 st1 sc1 h1 => (hbarms st1 sc1 m1).2.1 e m2 h1)
            (fun m1 st1 sc1 h1 => (hbarms st1 sc1 m1).2.2 h1)
          have hcont := execSim T ss fuel t2 (a + 1 + body.length + 1) hb
            hseg2
          cases hli : loopIter (fun m2 => execB fuel b m2) fuel m with
          | ok m2 =>
              obtain ⟨n1, sc2, hn1⟩ := (harmsLoop fuel m st sc).1 m2 hli
              rw [show a + body.length + 2 = a + 1 + body.length + 1 from by
                omega] at hn1
              refine ⟨?_, ?_, ?_⟩
              · intro mf hf
                rw [execB, hli] at hf
                obtain ⟨n2, sc3, hn2⟩ := (hcont st sc2 m2).1 mf hf
                refine ⟨n1 + n2, sc3, ?_⟩
                rw [stepsTo_comp n1 _ _ n2 hn1, hn2]
                rw [show a + (BfToken.LoopStart x
                    :: (body ++ BfToken.LoopEnd y :: t2)).length
                    = a + 1 + body.length + 1 + t2.length from by
                  simp only [List.length_cons, List.length_append]
                  omega]
              · intro e mf hf
                rw [execB, hli] at hf
                obtain ⟨n2, hn2⟩ := (hcont st sc2 m2).2.1 e mf hf
                refine ⟨n1 + n2, ?_⟩
                rw [stepsTo_runFuel n1 _ _ n2 hn1, hn2]
              · intro hf
                rw [execB, hli] at hf
                obtain ⟨n2, s2, hle, hn2⟩ := (hcont st sc2 m2).2.2 hf
                refine ⟨n1 + n2, s2, by omega, ?_⟩
                rw [stepsTo_comp n1 _ _ n2 hn1, hn2]
          | err e2 m2 =>
              refine ⟨?_, ?_, ?_⟩
              · intro mf hf
                rw [execB, hli] at hf
                exact ERes.noConfusion hf
              · intro e mf hf
                rw [execB, hli] at hf
                obtain ⟨he, hm⟩ := ERes.err.inj hf
                obtain ⟨n1, hn1⟩ := (harmsLoop fuel m st sc).2.1 e2 m2 hli
                refine ⟨n1, ?_⟩
                rw [hn1, he, hm]
              · intro hf
                rw [execB, hli] at hf
                exact ERes.noConfusion hf
          | out =>
              refine ⟨?_, ?_, ?_⟩
              · intro mf hf
                rw [execB, hli] at hf
                exact ERes.noConfusion hf
              · intro e mf hf
                rw [execB, hli] at hf
                exact ERes.noConfusion hf
              · intro _
                obtain ⟨n1, s2, hle, hn1⟩ := (harmsLoop fuel m st sc).2.2 hli
                refine ⟨n1, s2, ?_, hn1⟩
                rcases hle with h | h
                · exact h
                · exact h
termination_by sizeOf blk


lemma simEq_brkShape {a b : List BfToken} (h : SimEq a b) :
    a.map brkShape = b.map brkShape := by
  apply List.ext_getElem?
  intro i
  rw [List.getElem?_map, List.getElem?_map]
  rcases h.sim i with heq | ⟨x, y, h1, h2⟩ | ⟨x, y, h1, h2⟩
  · rw [heq]
  · rw [h1, h2]
    rfl
  · rw [h1, h2]
    rfl

/-- A halting machine run on a represented token list is exactly a normal
completion of the structural executor, with the same final machine. -/
lemma machine_iff_exec (T : List BfToken) (blk : Blk) (hrep : RepsB T blk)
    (m0 : Mach) :
    ∀ m : Mach, (∃ n, runFuel T n (initExec m0) = .halted m)
      ↔ (∃ f, execB f blk m0 = .ok m) := by
  have hsa : SegAt T 0 T := by
    intro k hk
    rw [Nat.zero_add]
  have harms := fun (f : Nat) => execSim T blk f T 0 hrep hsa [] 0 m0
  have hTend : T[0 + T.length]? = none := by
    rw [Nat.zero_add]
    exact List.getElem?_eq_none (le_refl _)
  intro m
  rw [show initExec m0 = (⟨0, [], false, 0, m0⟩ : ExecState) from rfl]
  constructor
  · rintro ⟨n, hn⟩
    cases hex : execB n blk m0 with
    | ok m2 =>
        obtain ⟨n2, sc2, hn2⟩ := (harms n).1 m2 hex
        have hhalt : runFuel T (n2 + 1) (⟨0, [], false, 0, m0⟩ : ExecState)
            = .halted m2 := by
          rw [stepsTo_runFuel n2 _ _ 1 hn2]
          exact runFuel_one_halt (step_halt hTend)
        have h1 := runFuel_halted_mono n _ m (n2 + 1) hn
        have h2 := runFuel_halted_mono (n2 + 1) _ m2 n hhalt
        rw [show n2 + 1 + n = n + (n2 + 1) from by omega, h1] at h2
        refine ⟨n, ?_⟩
        rw [hex, RunRes.halted.inj h2]
    | err e m2 =>
        obtain ⟨n2, hn2⟩ := (harms n).2.1 e m2 hex
        have h1 := runFuel_halted_mono n _ m n2 hn
        have h2 := runFuel_failed_mono n2 _ e m2 n hn2
        rw [show n2 + n = n + n2 from by omega, h1] at h2
        exact RunRes.noConfusion h2
    | out =>
        obtain ⟨n2, s2, hle, hn2⟩ := (harms n).2.2 hex
        have hmore := stepsTo_more n2 _ s2 hn2
        have h1 := runFuel_halted_mono n _ m (n2 - n) hn
        rw [show n + (n2 - n) = n2 from by omega, hmore] at h1
        exact RunRes.noConfusion h1
  · rintro ⟨f, hf⟩
    obtain ⟨n2, sc2, hn2⟩ := (harms f).1 m hf
    refine ⟨n2 + 1, ?_⟩
    rw [stepsTo_runFuel n2 _ _ 1 hn2]
    exact runFuel_one_halt (step_halt hTend)


/-- Claim C1: for every source with balanced brackets, a machine of any
capacity ≥ 1 and any byte input stream, the token sequences produced by
`parse` and by `parse_compress` are execution-equivalent: both parses
succeed, a run of one halts with final machine `m` exactly when a run of
the other does, and in particular two halting runs produce identical
output bytes, identical final tape contents and identical final cursor
position. -/
theorem parse_compress_equiv (s : List Char) (cap : Nat) (inp : List Nat)
    (hbal : BalancedChars s) (hcap : 1 ≤ cap)
    (hinp : ∀ b ∈ inp, b < 256) :
    ∃ toks ctoks, parse s = .ok toks ∧ parseCompress s = .ok ctoks ∧
      (∀ m : Mach,
        (∃ n, runFuel toks n (initExec (machNew cap inp)) = .halted m) ↔
        (∃ n, runFuel ctoks n (initExec (machNew cap inp)) = .halted m)) ∧
      (∀ (m m2 : Mach) (n n2 : Nat),
        runFuel toks n (initExec (machNew cap inp)) = .halted m →
        runFuel ctoks n2 (initExec (machNew cap inp)) = .halted m2 →
        m2.output = m.output ∧ m2.memory = m.memory ∧
          m2.cursor = m.cursor) := by
  have hcl0 : Closes (s.map charToToken) 0 := balancedChars_closes hbal
  obtain ⟨toks, hlm1, hsim1⟩ := lmGo_ok_simEq hcl0
  have hparse : parse s = .ok toks := by
    rw [parse]
    exact hlm1
  have hp1 : ∀ t ∈ s.map charToToken, payload1 t = true := by
    intro t ht
    obtain ⟨c, _, rfl⟩ := List.mem_map.mp ht
    unfold charToToken
    split_ifs <;> rfl
  obtain ⟨blk, hblk⟩ := closes_repsB (s.map charToToken) hcl0
  obtain ⟨cblk, hcblkR, hcblkE⟩ := compress_sim blk (s.map charToToken)
    hblk hp1 0 0 (Or.inl rfl)
  have hclc0 : Closes (compressAux 0 0 (s.map charToToken)) 0 :=
    repsB_closes cblk _ hcblkR
  have hsimc : SimEq (compressAux 0 0 (s.map charToToken))
      (compressAux 0 0 toks) := compressAux_simEq _ _ hsim1 0 0
  have hclc : Closes (compressAux 0 0 toks) 0 :=
    closes_of_shape_eq hclc0 (simEq_brkShape hsimc)
  obtain ⟨ctoks, hlm2, hsim2⟩ := lmGo_ok_simEq hclc
  have hpc : parseCompress s = .ok ctoks := by
    rw [parseCompress, hparse]
    exact hlm2
  have hsimNet : SimEq (compressAux 0 0 (s.map charToToken)) ctoks :=
    simEq_trans hsimc hsim2
  have hm0 : MachOk (machNew cap inp) := by
    refine ⟨?_, ?_, ?_⟩
    · show (0 : Nat) < (List.replicate cap (0 : Nat)).length
      rw [List.length_replicate]
      omega
    · intro v hv
      have hv0 : v = 0 := List.eq_of_mem_replicate hv
      omega
    · exact hinp
  have hiff : ∀ m : Mach,
      (∃ n, runFuel toks n (initExec (machNew cap inp)) = .halted m) ↔
      (∃ n, runFuel ctoks n (initExec (machNew cap inp)) = .halted m) := by
    intro m
    have e1 : ∀ (n : Nat) (st : ExecState),
        runFuel toks n st = runFuel (s.map charToToken) n st :=
      fun n st => runFuel_simEq (simEq_symm hsim1) n st
    have e2 : ∀ (n : Nat) (st : ExecState),
        runFuel ctoks n st
          = runFuel (compressAux 0 0 (s.map charToToken)) n st :=
      fun n st => runFuel_simEq (simEq_symm hsimNet) n st
    have i1 := machine_iff_exec (s.map charToToken) blk hblk
      (machNew cap inp) m
    have i2 := machine_iff_exec (compressAux 0 0 (s.map charToToken)) cblk
      hcblkR (machNew cap inp) m
    have eexec : ∀ f, execB f cblk (machNew cap inp)
        = execB f blk (machNew cap inp) :=
      fun f => (hcblkE f _ hm0).trans (by rw [applyPend_zero])
    constructor
    · rintro ⟨n, hn⟩
      rw [e1] at hn
      obtain ⟨f, hfex⟩ := i1.mp ⟨n, hn⟩
      obtain ⟨n2, hn2⟩ := i2.mpr ⟨f, by rw [eexec f]; exact hfex⟩
      refine ⟨n2, ?_⟩
      rw [e2]
      exact hn2
    · rintro ⟨n, hn⟩
      rw [e2] at hn
      obtain ⟨f, hfex⟩ := i2.mp ⟨n, hn⟩
      obtain ⟨n2, hn2⟩ := i1.mpr ⟨f, by rw [← eexec f]; exact hfex⟩
      refine ⟨n2, ?_⟩
      rw [e1]
      exact hn2
  refine ⟨toks, ctoks, hparse, hpc, hiff, ?_⟩
  intro m m2 n n2 h1 h2
  obtain ⟨n3, h3⟩ := (hiff m).mp ⟨n, h1⟩
  have ha := runFuel_halted_mono n3 _ m n2 h3
  have hb2 := runFuel_halted_mono n2 _ m2 n3 h2
  rw [show n2 + n3 = n3 + n2 from by omega, ha] at hb2
  rw [RunRes.halted.inj hb2]
  exact ⟨rfl, rfl, rfl⟩

/-- Witness for `parse_compress_equiv` on the source `"++"`, a capacity-1
machine and empty input. -/
theorem parse_compress_equiv_witness :
    BalancedChars ['+', '+'] ∧
    (∃ toks ctoks, parse ['+', '+'] = .ok toks ∧
      parseCompress ['+', '+'] = .ok ctoks ∧
      (∀ m : Mach,
        (∃ n, runFuel toks n (initExec (machNew 1 [])) = .halted m) ↔
        (∃ n, runFuel ctoks n (initExec (machNew 1 [])) = .halted m)) ∧
      (∀ (m m2 : Mach) (n n2 : Nat),
        runFuel toks n (initExec (machNew 1 [])) = .halted m →
        runFuel ctoks n2 (initExec (machNew 1 [])) = .halted m2 →
        m2.output = m.output ∧ m2.memory = m.memory ∧
          m2.cursor = m.cursor)) := by
  have hb : BalancedChars ['+', '+'] :=
    BalancedChars.atom (by decide) (by decide)
      (BalancedChars.atom (by decide) (by decide) BalancedChars.nil)
  exact ⟨hb, parse_compress_equiv ['+', '+'] 1 [] hb (by decide)
    (by intro b hb2; exact absurd hb2 (List.not_mem_nil b))⟩

end BfRust
